import Mathlib

/-
Verification of hotaosa::BinaryTrie (binary_trie.h): a binary trie over
fixed-width unsigned integers with multiset semantics, an arena of nodes
addressed by index (sentinel kNull = -1 modelled by Option.none), signed
counters (CountType = int, modelled by Int) and a lazy global XOR mask.

Values of type ValueType are modelled by Nat; the configured bit width
kNumBits is the parameter w.  Bit operations mirror the source:
(x >> b) & 1 becomes (x >>> b) &&& 1, value & BitMask() becomes
value &&& BitMask w.
-/

set_option maxHeartbeats 4000000
set_option maxRecDepth 4000

namespace BinaryTrie

/-- Arena node, as in struct Node: two child links (none models kNull)
and the two counters subtree_count / terminal_count. -/
structure Node where
  child0 : Option Nat := none
  child1 : Option Nat := none
  subtree_count : Int := 0
  terminal_count : Int := 0
deriving DecidableEq, Repr

/-- Whole-trie state: the append-only node arena nodes_ (root at index 0)
and the lazy mask xor_mask_. -/
structure Trie where
  nodes : List Node
  xor_mask : Nat
deriving DecidableEq, Repr

/-- The freshly constructed trie: one root node, mask 0 (BinaryTrie() : nodes_(1)). -/
def emptyTrie : Trie := { nodes := [{}], xor_mask := 0 }

/-- Arena read nodes_[i] (all reads in reachable states are in range;
out-of-range reads default to an empty node). -/
def nd (nodes : List Node) (i : Nat) : Node := nodes.getD i {}

/-- children[d] for a direction d ∈ {0,1}. -/
def getChild (n : Node) (d : Nat) : Option Nat :=
  if d = 0 then n.child0 else n.child1

/-- children[d] = c. -/
def setChild (n : Node) (d : Nat) (c : Option Nat) : Node :=
  if d = 0 then { n with child0 := c } else { n with child1 := c }

/-- In-place update of nodes_[i]. -/
def updN (nodes : List Node) (i : Nat) (f : Node → Node) : List Node :=
  nodes.set i (f (nd nodes i))

/-- BitMask(): low kNumBits bits set. -/
def BitMask (w : Nat) : Nat := 2 ^ w - 1

/-- ToStored: (value ^ xor_mask_) & BitMask(). -/
def ToStored (w xm value : Nat) : Nat := (value ^^^ xm) &&& BitMask w

/-- ToActual: (stored ^ xor_mask_) & BitMask(). -/
def ToActual (w xm stored : Nat) : Nat := (stored ^^^ xm) &&& BitMask w

/-- SubtreeCount(index): 0 for the kNull sentinel, else the node's subtree_count. -/
def SubtreeCount (nodes : List Node) : Option Nat → Int
  | none => 0
  | some i => (nd nodes i).subtree_count

/-- (xor_mask_ >> bit) & 1. -/
def maskBit (xm b : Nat) : Nat := (xm >>> b) &&& 1

/-- nodes_[i].subtree_count += count. -/
def bumpSub (count : Int) (nodes : List Node) (i : Nat) : List Node :=
  updN nodes i (fun n => { n with subtree_count := n.subtree_count + count })

/-- The Insert loop over remaining bits (fuel h means the current bit is
h-1; fuel 0 performs the final terminal_count += count).  Each step reads
the direction bit of the stored value, allocates-and-links a fresh node
(NewNode, at index nodes.length) when the child is absent, descends, and
bumps the child's subtree_count. -/
def insertGo (count : Int) (stored : Nat) : Nat → Nat → List Node → List Node
  | 0, i, nodes =>
      updN nodes i (fun n => { n with terminal_count := n.terminal_count + count })
  | h + 1, i, nodes =>
      let d := (stored >>> h) &&& 1
      match getChild (nd nodes i) d with
      | some c => insertGo count stored h c (bumpSub count nodes c)
      | none =>
          let c := nodes.length
          let nodes1 := updN (nodes ++ [{}]) i (fun n => setChild n d (some c))
          insertGo count stored h c (bumpSub count nodes1 c)

/-- Insert(value, count): no-op for count == 0, else bump the root's
subtree_count and run the per-bit loop on the stored value.
(assert(count >= 0) and the width assert are debug-only preconditions,
carried as hypotheses of the theorems.) -/
def Insert (w : Nat) (t : Trie) (value : Nat) (count : Int) : Trie :=
  if count = 0 then t
  else
    let stored := ToStored w t.xor_mask value
    { t with nodes := insertGo count stored w 0 (bumpSub count t.nodes 0) }

/-- The Erase path-recording walk: the list path[0..kNumBits] of the
nodes on the stored bit-path (root first), or none when a link is missing. -/
def erasePath (nodes : List Node) (stored : Nat) : Nat → Nat → Option (List Nat)
  | 0, i => some [i]
  | h + 1, i =>
      match getChild (nd nodes i) ((stored >>> h) &&& 1) with
      | none => none
      | some c => (erasePath nodes stored h c).map (fun p => i :: p)

/-- nodes_[i].subtree_count -= rm. -/
def decSub (rm : Int) (nodes : List Node) (i : Nat) : List Node :=
  updN nodes i (fun n => { n with subtree_count := n.subtree_count - rm })

/-- Erase(value, count): no-op for count == 0 or a missing path; otherwise
removable = min(count, terminal_count at the path's end); if zero, no-op;
else decrement the leaf terminal_count and every path node's subtree_count
by removable (the source loops depth = kNumBits down to 0, i.e. leaf
first; foldr applies the leaf-most decrement first accordingly). -/
def Erase (w : Nat) (t : Trie) (value : Nat) (count : Int) : Trie :=
  if count = 0 then t
  else
    let stored := ToStored w t.xor_mask value
    match erasePath t.nodes stored w 0 with
    | none => t
    | some path =>
        let leaf := path.getLastD 0
        let removable := min count (nd t.nodes leaf).terminal_count
        if removable = 0 then t
        else
          let nodes1 :=
            updN t.nodes leaf
              (fun n => { n with terminal_count := n.terminal_count - removable })
          { t with nodes := path.foldr (fun i ns => decSub removable ns i) nodes1 }

/-- The walk shared by Count: follow the stored bit-path, none when a link
is missing, else the index of the end node. -/
def findNode (nodes : List Node) (stored : Nat) : Nat → Nat → Option Nat
  | 0, i => some i
  | h + 1, i =>
      match getChild (nd nodes i) ((stored >>> h) &&& 1) with
      | none => none
      | some c => findNode nodes stored h c

/-- Count(value): walk the stored path; 0 on a missing link, else the
terminal_count at the path's end. -/
def Count (w : Nat) (t : Trie) (value : Nat) : Int :=
  match findNode t.nodes (ToStored w t.xor_mask value) w 0 with
  | none => 0
  | some i => (nd t.nodes i).terminal_count

/-- TotalCount(): the root's subtree_count. -/
def TotalCount (t : Trie) : Int := (nd t.nodes 0).subtree_count

/-- Contains(value): Count(value) > 0. -/
def Contains (w : Nat) (t : Trie) (value : Nat) : Bool :=
  decide (0 < Count w t value)

/-- The CountLess loop.  The node index is an Option (the loop exits when
node_index becomes kNull); at each level the logical zero/one children are
children[mask_bit] / children[mask_bit ^ 1]. -/
def countLessGo (nodes : List Node) (xm value : Nat) : Nat → Option Nat → Int → Int
  | _, none, acc => acc
  | 0, some _, acc => acc
  | h + 1, some i, acc =>
      let mb := maskBit xm h
      let zero_child := getChild (nd nodes i) mb
      let one_child := getChild (nd nodes i) (mb ^^^ 1)
      if (value >>> h) &&& 1 = 1 then
        countLessGo nodes xm value h one_child (acc + SubtreeCount nodes zero_child)
      else
        countLessGo nodes xm value h zero_child acc

/-- CountLess(value): number of stored values strictly below value
(logical order). -/
def CountLess (w : Nat) (t : Trie) (value : Nat) : Int :=
  countLessGo t.nodes t.xor_mask value w (some 0) 0

/-- CountGreater(value) = TotalCount() - CountLess(value) - Count(value). -/
def CountGreater (w : Nat) (t : Trie) (value : Nat) : Int :=
  TotalCount t - CountLess w t value - Count w t value

/-- The Kth descent.  remaining and the zero-subtree count are the
UnsignedCount casts of the source (Int.toNat; exact for the non-negative
counters of reachable states).  When remaining < zero_count the zero child
is necessarily present (an absent child has count 0), so the .getD 0
default is never taken. -/
def kthGo (nodes : List Node) (xm : Nat) : Nat → Nat → Nat → Nat → Option Nat
  | 0, _, stored, _ => some stored
  | h + 1, i, stored, remaining =>
      let mb := maskBit xm h
      let zero_child := getChild (nd nodes i) mb
      let zc := (SubtreeCount nodes zero_child).toNat
      if remaining < zc then
        kthGo nodes xm h (zero_child.getD 0)
          (if mb = 1 then stored ||| (1 <<< h) else stored) remaining
      else
        match getChild (nd nodes i) (mb ^^^ 1) with
        | none => none
        | some oc =>
            if (nd nodes oc).subtree_count ≤ 0 then none
            else
              kthGo nodes xm h oc
                (if mb ^^^ 1 = 1 then stored ||| (1 <<< h) else stored)
                (remaining - zc)

/-- Kth(k): none for k < 0, an empty trie, or k >= TotalCount(); else the
stored value found by the descent, decoded through ToActual. -/
def Kth (w : Nat) (t : Trie) (k : Int) : Option Nat :=
  if k < 0 then none
  else
    let total := TotalCount t
    if total ≤ 0 then none
    else
      let target := k.toNat
      if total.toNat ≤ target then none
      else (kthGo t.nodes t.xor_mask w 0 0 target).map (ToActual w t.xor_mask)

/-- ChildForActualBit: the stored child matching a desired logical bit,
children[actual_bit ^ mask_bit(bit)]. -/
def ChildForActualBit (nodes : List Node) (xm i bit abit : Nat) : Option Nat :=
  getChild (nd nodes i) (abit ^^^ maskBit xm bit)

/-- FindLowerBound: depth-first search for the smallest logical value
>= target, with the tight flag of the source.  Fuel h means the current
bit is h-1 (fuel 0 is the bit < 0 leaf test).  The source's call-site
null guards (child != kNull && ...) are subsumed by the callee's
none/subtree checks. -/
def FindLowerBound (nodes : List Node) (xm target : Nat) :
    Nat → Option Nat → Nat → Bool → Option Nat
  | _, none, _, _ => none
  | 0, some i, pfx, _ =>
      if (nd nodes i).subtree_count ≤ 0 then none
      else if 0 < (nd nodes i).terminal_count then some pfx else none
  | h + 1, some i, pfx, tight =>
      if (nd nodes i).subtree_count ≤ 0 then none
      else
        let tb := (target >>> h) &&& 1
        if tight then
          match FindLowerBound nodes xm target h (ChildForActualBit nodes xm i h tb)
              (pfx ||| (tb <<< h)) true with
          | some r => some r
          | none =>
              if tb = 0 then
                FindLowerBound nodes xm target h (ChildForActualBit nodes xm i h 1)
                  (pfx ||| (1 <<< h)) false
              else none
        else
          match FindLowerBound nodes xm target h (ChildForActualBit nodes xm i h 0)
              (pfx ||| (0 <<< h)) false with
          | some r => some r
          | none =>
              FindLowerBound nodes xm target h (ChildForActualBit nodes xm i h 1)
                (pfx ||| (1 <<< h)) false

/-- FindPrev: depth-first search for the largest logical value <= target;
mirror image of FindLowerBound (untight order tries actual bit 1 first;
the tight fallback on target bit 1 keeps prefix_actual unchanged). -/
def FindPrev (nodes : List Node) (xm target : Nat) :
    Nat → Option Nat → Nat → Bool → Option Nat
  | _, none, _, _ => none
  | 0, some i, pfx, _ =>
      if (nd nodes i).subtree_count ≤ 0 then none
      else if 0 < (nd nodes i).terminal_count then some pfx else none
  | h + 1, some i, pfx, tight =>
      if (nd nodes i).subtree_count ≤ 0 then none
      else
        let tb := (target >>> h) &&& 1
        if tight then
          match FindPrev nodes xm target h (ChildForActualBit nodes xm i h tb)
              (pfx ||| (tb <<< h)) true with
          | some r => some r
          | none =>
              if tb = 1 then
                FindPrev nodes xm target h (ChildForActualBit nodes xm i h 0) pfx false
              else none
        else
          match FindPrev nodes xm target h (ChildForActualBit nodes xm i h 1)
              (pfx ||| (1 <<< h)) false with
          | some r => some r
          | none =>
              FindPrev nodes xm target h (ChildForActualBit nodes xm i h 0)
                (pfx ||| (0 <<< h)) false

/-- LowerBound(value): none on an empty trie, else the masked result of
the tight search from the root at bit kNumBits - 1. -/
def LowerBound (w : Nat) (t : Trie) (value : Nat) : Option Nat :=
  if TotalCount t ≤ 0 then none
  else
    match FindLowerBound t.nodes t.xor_mask (value &&& BitMask w) w (some 0) 0 true with
    | none => none
    | some r => some (r &&& BitMask w)

/-- Prev(value): none on an empty trie, else the masked result of the
tight search from the root. -/
def Prev (w : Nat) (t : Trie) (value : Nat) : Option Nat :=
  if TotalCount t ≤ 0 then none
  else
    match FindPrev t.nodes t.xor_mask (value &&& BitMask w) w (some 0) 0 true with
    | none => none
    | some r => some (r &&& BitMask w)

/-- A child link that passes the child == kNull || SubtreeCount(child) <= 0
test of FindExtremeXor, or none. -/
def okChild (nodes : List Node) : Option Nat → Option Nat
  | none => none
  | some c => if (nd nodes c).subtree_count ≤ 0 then none else some c

/-- The FindExtremeXor greedy loop: at each level the desired stored bit
is key_bit ^ maximize; take that child when present with positive count,
else the sibling (none when both fail); record chosen 1 bits into the
stored result. -/
def findExtremeXorGo (nodes : List Node) (key : Nat) (maximize : Bool) :
    Nat → Nat → Nat → Option Nat
  | 0, _, result => some result
  | h + 1, i, result =>
      let d0 := ((key >>> h) &&& 1) ^^^ (if maximize then 1 else 0)
      match okChild nodes (getChild (nd nodes i) d0) with
      | some c =>
          findExtremeXorGo nodes key maximize h c
            (if d0 = 1 then result ||| (1 <<< h) else result)
      | none =>
          match okChild nodes (getChild (nd nodes i) (d0 ^^^ 1)) with
          | none => none
          | some c =>
              findExtremeXorGo nodes key maximize h c
                (if d0 ^^^ 1 = 1 then result ||| (1 <<< h) else result)

/-- FindExtremeXor(value, maximize): none on an empty trie, else run the
greedy loop on key = (value ^ xor_mask_) & BitMask(). -/
def FindExtremeXor (w : Nat) (t : Trie) (value : Nat) (maximize : Bool) : Option Nat :=
  if TotalCount t ≤ 0 then none
  else findExtremeXorGo t.nodes ((value ^^^ t.xor_mask) &&& BitMask w) maximize w 0 0

/-- MaxXor(value): (ToActual(stored) ^ value) & BitMask() for the stored
value found by the maximizing greedy search. -/
def MaxXor (w : Nat) (t : Trie) (value : Nat) : Option Nat :=
  match FindExtremeXor w t (value &&& BitMask w) true with
  | none => none
  | some s => some ((ToActual w t.xor_mask s ^^^ value) &&& BitMask w)

/-- MinXor(value): as MaxXor with the minimizing greedy search. -/
def MinXor (w : Nat) (t : Trie) (value : Nat) : Option Nat :=
  match FindExtremeXor w t (value &&& BitMask w) false with
  | none => none
  | some s => some ((ToActual w t.xor_mask s ^^^ value) &&& BitMask w)

/-- XorAll(mask): xor_mask_ ^= (mask & BitMask()); O(1), no node mutation. -/
def XorAll (w : Nat) (t : Trie) (mask : Nat) : Trie :=
  { t with xor_mask := t.xor_mask ^^^ (mask &&& BitMask w) }

/-- Reachable states: every finite sequence of Insert / Erase / XorAll
calls obeying the asserted preconditions (count >= 0, value within the
bit width), starting from the freshly constructed trie. -/
inductive Reachable (w : Nat) : Trie → Prop
  | empty : Reachable w emptyTrie
  | insert {t v c} : Reachable w t → v < 2 ^ w → 0 ≤ c → Reachable w (Insert w t v c)
  | erase {t v c} : Reachable w t → v < 2 ^ w → 0 ≤ c → Reachable w (Erase w t v c)
  | xorAll {t m} : Reachable w t → Reachable w (XorAll w t m)

/-! ### Bit-arithmetic helpers -/

theorem hb_eq (x h : Nat) : (x >>> h) &&& 1 = x / 2 ^ h % 2 := by
  rw [Nat.and_one_is_mod, Nat.shiftRight_eq_div_pow]

theorem hb_lt_two (x h : Nat) : (x >>> h) &&& 1 < 2 := by
  rw [hb_eq]; exact Nat.mod_lt _ (by norm_num)

theorem mod_two_pow_lt (x h : Nat) : x % 2 ^ h < 2 ^ h :=
  Nat.mod_lt _ (Nat.two_pow_pos h)

theorem mod_pow_split (x h : Nat) :
    x % 2 ^ (h + 1) = 2 ^ h * ((x >>> h) &&& 1) + x % 2 ^ h := by
  rw [hb_eq, Nat.mod_pow_succ]; ring

theorem mod_pow_mod (x h : Nat) : x % 2 ^ (h + 1) % 2 ^ h = x % 2 ^ h :=
  Nat.mod_mod_of_dvd x (pow_dvd_pow 2 (Nat.le_succ h))

theorem hb_mod_pow (x h : Nat) : ((x % 2 ^ (h + 1)) >>> h) &&& 1 = (x >>> h) &&& 1 := by
  rw [hb_eq, hb_eq, pow_succ, Nat.mod_mul_right_div_self, Nat.mod_mod_of_dvd _ dvd_rfl]

theorem hb_of_lt {x h : Nat} (hx : x < 2 ^ h) : (x >>> h) &&& 1 = 0 := by
  rw [hb_eq, Nat.div_eq_of_lt hx]

theorem hb_of_ge {x h : Nat} (hx : x < 2 ^ h) : ((2 ^ h + x) >>> h) &&& 1 = 1 := by
  rw [hb_eq, Nat.add_comm, Nat.add_div_right _ (Nat.two_pow_pos h), Nat.div_eq_of_lt hx]

theorem mod_self_lt {x h : Nat} (hx : x < 2 ^ h) : x % 2 ^ h = x := Nat.mod_eq_of_lt hx

theorem mod_add_high {x h : Nat} (hx : x < 2 ^ h) : (2 ^ h + x) % 2 ^ h = x := by
  rw [Nat.add_mod_left, Nat.mod_eq_of_lt hx]

theorem xor_mod_two_pow (a b n : Nat) : (a ^^^ b) % 2 ^ n = a % 2 ^ n ^^^ b % 2 ^ n := by
  apply Nat.eq_of_testBit_eq
  intro i
  simp only [Nat.testBit_mod_two_pow, Nat.testBit_xor]
  by_cases h : i < n <;> simp [h]

theorem mask_eq_mod (x w : Nat) : x &&& BitMask w = x % 2 ^ w := by
  rw [BitMask, Nat.and_pow_two_sub_one_eq_mod]

theorem two_pow_or_eq_add {s h : Nat} (hs : s < 2 ^ h) : 2 ^ h ||| s = 2 ^ h + s := by
  have := Nat.mul_add_lt_is_or hs 1
  simpa using this.symm

/-- High/low split of a XOR: with both low parts below the split point,
XOR acts independently on the two parts. -/
theorem xor_split {h a b x y : Nat} (hx : x < 2 ^ h) (hy : y < 2 ^ h) :
    (2 ^ h * a + x) ^^^ (2 ^ h * b + y) = 2 ^ h * (a ^^^ b) + (x ^^^ y) := by
  apply Nat.eq_of_testBit_eq
  intro i
  have hxy : x ^^^ y < 2 ^ h := Nat.xor_lt_two_pow hx hy
  simp only [Nat.testBit_xor, Nat.testBit_mul_pow_two_add _ hx,
    Nat.testBit_mul_pow_two_add _ hy, Nat.testBit_mul_pow_two_add _ hxy]
  by_cases hi : i < h <;> simp [hi, Nat.testBit_xor]

/-! ### The multiplicity abstraction

mfun nodes h i v is the multiplicity, in stored bit space, of the
h-bit suffix v below arena index i: the terminal_count reached by walking
v's bits (most significant of the h first).  It is total for every arena
(the recursion is bounded by h), and each query/mutation operation is
specified against it. -/

def mfun (nodes : List Node) : Nat → Nat → Nat → Int
  | 0, i, v => if v = 0 then (nd nodes i).terminal_count else 0
  | h + 1, i, v =>
      match getChild (nd nodes i) ((v >>> h) &&& 1) with
      | none => 0
      | some c => mfun nodes h c (v % 2 ^ h)

theorem mfun_lo (nodes : List Node) (h i : Nat) {v : Nat} (hv : v < 2 ^ h) :
    mfun nodes (h + 1) i v =
      match (nd nodes i).child0 with
      | none => 0
      | some c => mfun nodes h c v := by
  rw [mfun, hb_of_lt hv, mod_self_lt hv]
  rfl

theorem mfun_hi (nodes : List Node) (h i : Nat) {v : Nat} (hv : v < 2 ^ h) :
    mfun nodes (h + 1) i (2 ^ h + v) =
      match (nd nodes i).child1 with
      | none => 0
      | some c => mfun nodes h c v := by
  rw [mfun, hb_of_ge hv, mod_add_high hv]
  rfl

/-- Count agrees with the abstraction: the walk of findNode computes mfun. -/
theorem findNode_mfun (nodes : List Node) (s : Nat) :
    ∀ h i, mfun nodes h i (s % 2 ^ h) =
      (match findNode nodes s h i with
       | none => 0
       | some j => (nd nodes j).terminal_count) := by
  intro h
  induction h with
  | zero => intro i; simp [mfun, findNode, Nat.mod_one]
  | succ h ih =>
      intro i
      rw [mfun, hb_mod_pow, mod_pow_mod, findNode]
      cases hc : getChild (nd nodes i) ((s >>> h) &&& 1) with
      | none => rfl
      | some c => exact ih c

theorem Count_eq_mfun (w : Nat) (t : Trie) (value : Nat) :
    Count w t value = mfun t.nodes w 0 ((value ^^^ t.xor_mask) % 2 ^ w) := by
  rw [Count, ← findNode_mfun]
  congr 1
  rw [ToStored, mask_eq_mod, Nat.mod_mod_of_dvd _ dvd_rfl]

theorem mod_mod_pow (a n : Nat) : a % 2 ^ n % 2 ^ n = a % 2 ^ n :=
  Nat.mod_mod_of_dvd _ dvd_rfl

theorem xor_cancel_r (a b : Nat) : a ^^^ b ^^^ b = a := by
  rw [Nat.xor_assoc, Nat.xor_self, Nat.xor_zero]

theorem xor_left_comm (a b c : Nat) : a ^^^ (b ^^^ c) = b ^^^ (a ^^^ c) := by
  rw [← Nat.xor_assoc, Nat.xor_comm a b, Nat.xor_assoc]

/-- Composing the mask update of XorAll with the encode of ToStored:
encoding x under the updated mask equals encoding the relabelled value
(x XOR m, truncated) under the old mask. -/
theorem ToStored_XorAll (w xm m v : Nat) :
    ToStored w (xm ^^^ (m &&& BitMask w)) v = ToStored w xm ((v ^^^ m) % 2 ^ w) := by
  rw [ToStored, ToStored, mask_eq_mod, mask_eq_mod, mask_eq_mod,
    xor_mod_two_pow, xor_mod_two_pow, mod_mod_pow,
    xor_mod_two_pow ((v ^^^ m) % 2 ^ w) xm, mod_mod_pow, xor_mod_two_pow v m]
  simp [Nat.xor_assoc, Nat.xor_comm, xor_left_comm]

/-- C1: XorAll(m) relabels the logical multiset by XOR without touching any
node: after XorAll(m), Count(x) (for x within the bit width) equals the
pre-call Count((x XOR m) truncated to kNumBits), and the node arena —
every child link, subtree_count and terminal_count — is unchanged.
(Proved for every trie state, so in particular for every reachable one.) -/
theorem C1_xorAll_relabels_without_touching_nodes (w : Nat) (t : Trie) (m x : Nat)
    (hx : x < 2 ^ w) :
    Count w (XorAll w t m) x = Count w t ((x ^^^ m) % 2 ^ w) ∧
    (XorAll w t m).nodes = t.nodes := by
  constructor
  · rw [Count, Count]
    show (match findNode t.nodes (ToStored w (t.xor_mask ^^^ (m &&& BitMask w)) x) w 0 with
          | none => 0
          | some i => (nd t.nodes i).terminal_count) = _
    rw [ToStored_XorAll]
  · rfl

/-- C1 witness at a concrete input: w = 3, the trie {1, 6}, mask 3. -/
theorem C1_witness :
    (5 : Nat) < 2 ^ 3 ∧
    (Count 3 (XorAll 3 (Insert 3 (Insert 3 emptyTrie 1 1) 6 1) 3) 5 =
        Count 3 (Insert 3 (Insert 3 emptyTrie 1 1) 6 1) ((5 ^^^ 3) % 2 ^ 3) ∧
      (XorAll 3 (Insert 3 (Insert 3 emptyTrie 1 1) 6 1) 3).nodes =
        (Insert 3 (Insert 3 emptyTrie 1 1) 6 1).nodes) :=
  ⟨by decide,
   C1_xorAll_relabels_without_touching_nodes 3 (Insert 3 (Insert 3 emptyTrie 1 1) 6 1) 3 5
     (by decide)⟩

/-- C9: applying the same mask twice cancels: XorAll(m); XorAll(m) restores
the entire state (the xor_mask in particular), hence every subsequent query
— Count, TotalCount, Contains, CountLess, CountGreater, Kth, LowerBound,
Prev, MaxXor, MinXor — answers exactly as before either call. -/
theorem C9_xorAll_twice_cancels (w : Nat) (t : Trie) (m : Nat) :
    XorAll w (XorAll w t m) m = t ∧
    (∀ v, Count w (XorAll w (XorAll w t m) m) v = Count w t v) ∧
    TotalCount (XorAll w (XorAll w t m) m) = TotalCount t ∧
    (∀ v, Contains w (XorAll w (XorAll w t m) m) v = Contains w t v) ∧
    (∀ v, CountLess w (XorAll w (XorAll w t m) m) v = CountLess w t v) ∧
    (∀ v, CountGreater w (XorAll w (XorAll w t m) m) v = CountGreater w t v) ∧
    (∀ k, Kth w (XorAll w (XorAll w t m) m) k = Kth w t k) ∧
    (∀ v, LowerBound w (XorAll w (XorAll w t m) m) v = LowerBound w t v) ∧
    (∀ v, Prev w (XorAll w (XorAll w t m) m) v = Prev w t v) ∧
    (∀ v, MaxXor w (XorAll w (XorAll w t m) m) v = MaxXor w t v) ∧
    (∀ v, MinXor w (XorAll w (XorAll w t m) m) v = MinXor w t v) := by
  have hst : XorAll w (XorAll w t m) m = t := by
    cases t with
    | mk ns xm => simp [XorAll, xor_cancel_r]
  exact ⟨hst, fun v => by rw [hst], by rw [hst], fun v => by rw [hst], fun v => by rw [hst],
    fun v => by rw [hst], fun k => by rw [hst], fun v => by rw [hst], fun v => by rw [hst],
    fun v => by rw [hst], fun v => by rw [hst]⟩

/-! ### Structural well-formedness of the arena -/

/-- GoodAt nodes h i: the height-h subtree rooted at arena index i is
structurally sound — a valid index; at height 0 a leaf with no children and
subtree_count = terminal_count >= 0; at positive height an inner node with
terminal_count = 0 and subtree_count equal to the sum of its children's
subtree_counts, the children sound recursively. -/
def GoodAt (nodes : List Node) : Nat → Nat → Prop
  | 0, i =>
      i < nodes.length ∧ (nd nodes i).child0 = none ∧ (nd nodes i).child1 = none ∧
      0 ≤ (nd nodes i).terminal_count ∧
      (nd nodes i).subtree_count = (nd nodes i).terminal_count
  | h + 1, i =>
      i < nodes.length ∧ (nd nodes i).terminal_count = 0 ∧
      (nd nodes i).subtree_count =
        SubtreeCount nodes (nd nodes i).child0 + SubtreeCount nodes (nd nodes i).child1 ∧
      (∀ c, (nd nodes i).child0 = some c → GoodAt nodes h c) ∧
      (∀ c, (nd nodes i).child1 = some c → GoodAt nodes h c)

/-- Preorder traversal list of the height-h subtree at index i. -/
def tlist (nodes : List Node) : Nat → Nat → List Nat
  | 0, i => [i]
  | h + 1, i =>
      i ::
        ((match (nd nodes i).child0 with
          | none => []
          | some c => tlist nodes h c) ++
         (match (nd nodes i).child1 with
          | none => []
          | some c => tlist nodes h c))

theorem mem_tlist_self (nodes : List Node) (h i : Nat) : i ∈ tlist nodes h i := by
  cases h with
  | zero => simp [tlist]
  | succ h => simp [tlist]

theorem goodAt_lt {nodes : List Node} {h i : Nat} (hg : GoodAt nodes h i) :
    i < nodes.length := by
  cases h with
  | zero => exact hg.1
  | succ h => exact hg.1

theorem goodAt_sub_nonneg {nodes : List Node} {h i : Nat} (hg : GoodAt nodes h i) :
    0 ≤ (nd nodes i).subtree_count := by
  induction h generalizing i with
  | zero => rw [hg.2.2.2.2]; exact hg.2.2.2.1
  | succ h ih =>
      rw [hg.2.2.1]
      have h0 : 0 ≤ SubtreeCount nodes (nd nodes i).child0 := by
        cases hc : (nd nodes i).child0 with
        | none => simp [SubtreeCount]
        | some c => exact ih (hg.2.2.2.1 c hc)
      have h1 : 0 ≤ SubtreeCount nodes (nd nodes i).child1 := by
        cases hc : (nd nodes i).child1 with
        | none => simp [SubtreeCount]
        | some c => exact ih (hg.2.2.2.2 c hc)
      omega

theorem goodAt_tlist_lt {nodes : List Node} {h i : Nat} (hg : GoodAt nodes h i) :
    ∀ j ∈ tlist nodes h i, j < nodes.length := by
  induction h generalizing i with
  | zero =>
      intro j hj
      simp [tlist] at hj
      exact hj ▸ hg.1
  | succ h ih =>
      intro j hj
      simp only [tlist, List.mem_cons, List.mem_append] at hj
      rcases hj with rfl | hj | hj
      · exact hg.1
      · cases hc : (nd nodes i).child0 with
        | none => simp [hc] at hj
        | some c =>
            rw [hc] at hj
            exact ih (hg.2.2.2.1 c hc) j hj
      · cases hc : (nd nodes i).child1 with
        | none => simp [hc] at hj
        | some c =>
            rw [hc] at hj
            exact ih (hg.2.2.2.2 c hc) j hj

theorem tlist_congr {nodes nodes' : List Node} {h i : Nat}
    (ha : ∀ j ∈ tlist nodes h i, nd nodes' j = nd nodes j) :
    tlist nodes' h i = tlist nodes h i := by
  induction h generalizing i with
  | zero => rfl
  | succ h ih =>
      have hi : nd nodes' i = nd nodes i := ha i (mem_tlist_self nodes _ i)
      simp only [tlist, hi]
      congr 1
      congr 1
      · cases hc : (nd nodes i).child0 with
        | none => rfl
        | some c =>
            exact ih fun j hj => ha j (by simp [tlist, hc, hj])
      · cases hc : (nd nodes i).child1 with
        | none => rfl
        | some c =>
            exact ih fun j hj => ha j (by simp [tlist, hc, hj])

theorem mfun_congr {nodes nodes' : List Node} {h i : Nat}
    (ha : ∀ j ∈ tlist nodes h i, nd nodes' j = nd nodes j) :
    ∀ v, mfun nodes' h i v = mfun nodes h i v := by
  induction h generalizing i with
  | zero =>
      intro v
      simp [mfun, ha i (mem_tlist_self nodes _ i)]
  | succ h ih =>
      intro v
      have hi : nd nodes' i = nd nodes i := ha i (mem_tlist_self nodes _ i)
      rw [mfun, mfun, hi]
      cases hc : getChild (nd nodes i) ((v >>> h) &&& 1) with
      | none => rfl
      | some c =>
          have hcmem : ∀ j ∈ tlist nodes h c, j ∈ tlist nodes (h + 1) i := by
            intro j hj
            have : (nd nodes i).child0 = some c ∨ (nd nodes i).child1 = some c := by
              rw [getChild] at hc
              by_cases hd : (v >>> h) &&& 1 = 0
              · rw [if_pos hd] at hc; exact Or.inl hc
              · rw [if_neg hd] at hc; exact Or.inr hc
            rcases this with hc0 | hc1
            · simp [tlist, hc0, hj]
            · simp [tlist, hc1, hj]
          exact ih (fun j hj => ha j (hcmem j hj)) (v % 2 ^ h)

theorem goodAt_congr {nodes nodes' : List Node} {h i : Nat}
    (ha : ∀ j ∈ tlist nodes h i, nd nodes' j = nd nodes j)
    (hl : nodes.length ≤ nodes'.length) (hg : GoodAt nodes h i) :
    GoodAt nodes' h i := by
  induction h generalizing i with
  | zero =>
      have hi : nd nodes' i = nd nodes i := ha i (mem_tlist_self nodes _ i)
      exact ⟨lt_of_lt_of_le hg.1 hl, by rw [hi]; exact hg.2.1, by rw [hi]; exact hg.2.2.1,
        by rw [hi]; exact hg.2.2.2.1, by rw [hi]; exact hg.2.2.2.2⟩
  | succ h ih =>
      have hi : nd nodes' i = nd nodes i := ha i (mem_tlist_self nodes _ i)
      have hmem0 : ∀ c, (nd nodes i).child0 = some c →
          ∀ j ∈ tlist nodes h c, j ∈ tlist nodes (h + 1) i := by
        intro c hc j hj; simp [tlist, hc, hj]
      have hmem1 : ∀ c, (nd nodes i).child1 = some c →
          ∀ j ∈ tlist nodes h c, j ∈ tlist nodes (h + 1) i := by
        intro c hc j hj; simp [tlist, hc, hj]
      refine ⟨lt_of_lt_of_le hg.1 hl, by rw [hi]; exact hg.2.1, ?_, ?_, ?_⟩
      · rw [hi, hg.2.2.1]
        congr 1
        · cases hc : (nd nodes i).child0 with
          | none => simp [SubtreeCount]
          | some c =>
              simp only [SubtreeCount]
              rw [ha c (by exact hmem0 c hc c (mem_tlist_self nodes _ c))]
        · cases hc : (nd nodes i).child1 with
          | none => simp [SubtreeCount]
          | some c =>
              simp only [SubtreeCount]
              rw [ha c (by exact hmem1 c hc c (mem_tlist_self nodes _ c))]
      · intro c hc
        rw [hi] at hc
        exact ih (fun j hj => ha j (hmem0 c hc j hj)) (hg.2.2.2.1 c hc)
      · intro c hc
        rw [hi] at hc
        exact ih (fun j hj => ha j (hmem1 c hc j hj)) (hg.2.2.2.2 c hc)

theorem getChild_cases {n : Node} {d c : Nat} (hc : getChild n d = some c) :
    n.child0 = some c ∨ n.child1 = some c := by
  rw [getChild] at hc
  by_cases hd : d = 0
  · rw [if_pos hd] at hc; exact Or.inl hc
  · rw [if_neg hd] at hc; exact Or.inr hc

theorem goodAt_child {nodes : List Node} {h i d c : Nat} (hg : GoodAt nodes (h + 1) i)
    (hc : getChild (nd nodes i) d = some c) : GoodAt nodes h c := by
  rcases getChild_cases hc with h0 | h1
  · exact hg.2.2.2.1 c h0
  · exact hg.2.2.2.2 c h1

theorem tlist_child_mem {nodes : List Node} {h i d c : Nat}
    (hc : getChild (nd nodes i) d = some c) :
    ∀ j ∈ tlist nodes h c, j ∈ tlist nodes (h + 1) i := by
  intro j hj
  rcases getChild_cases hc with h0 | h1
  · simp [tlist, h0, hj]
  · simp [tlist, h1, hj]

theorem mfun_nonneg {nodes : List Node} {h i : Nat} (hg : GoodAt nodes h i) (v : Nat) :
    0 ≤ mfun nodes h i v := by
  induction h generalizing i v with
  | zero =>
      rw [mfun]
      by_cases hv : v = 0
      · rw [if_pos hv]; exact hg.2.2.2.1
      · rw [if_neg hv]
  | succ h ih =>
      rw [mfun]
      cases hc : getChild (nd nodes i) ((v >>> h) &&& 1) with
      | none => exact le_refl 0
      | some c => exact ih (goodAt_child hg hc) _

/-- The structural invariant ties the counters to the abstraction: an inner
node's subtree_count is the total multiplicity of its height-h suffix space. -/
theorem sub_eq_sum {nodes : List Node} {h i : Nat} (hg : GoodAt nodes h i) :
    (nd nodes i).subtree_count = ∑ v ∈ Finset.range (2 ^ h), mfun nodes h i v := by
  induction h generalizing i with
  | zero =>
      rw [pow_zero, Finset.sum_range_one, mfun, if_pos rfl]
      exact hg.2.2.2.2
  | succ h ih =>
      have h2 : 2 ^ (h + 1) = 2 ^ h + 2 ^ h := by rw [pow_succ]; ring
      rw [h2, Finset.sum_range_add]
      have hlo : ∑ v ∈ Finset.range (2 ^ h), mfun nodes (h + 1) i v =
          SubtreeCount nodes (nd nodes i).child0 := by
        cases hc : (nd nodes i).child0 with
        | none =>
            simp only [SubtreeCount]
            refine Finset.sum_eq_zero fun v hv => ?_
            rw [mfun_lo nodes h i (Finset.mem_range.mp hv), hc]
        | some c =>
            simp only [SubtreeCount]
            rw [ih (hg.2.2.2.1 c hc)]
            refine Finset.sum_congr rfl fun v hv => ?_
            rw [mfun_lo nodes h i (Finset.mem_range.mp hv), hc]
      have hhi : ∑ v ∈ Finset.range (2 ^ h), mfun nodes (h + 1) i (2 ^ h + v) =
          SubtreeCount nodes (nd nodes i).child1 := by
        cases hc : (nd nodes i).child1 with
        | none =>
            simp only [SubtreeCount]
            refine Finset.sum_eq_zero fun v hv => ?_
            rw [mfun_hi nodes h i (Finset.mem_range.mp hv), hc]
        | some c =>
            simp only [SubtreeCount]
            rw [ih (hg.2.2.2.2 c hc)]
            refine Finset.sum_congr rfl fun v hv => ?_
            rw [mfun_hi nodes h i (Finset.mem_range.mp hv), hc]
      rw [hlo, hhi, hg.2.2.1]

theorem mfun_le_sub {nodes : List Node} {h i : Nat} (hg : GoodAt nodes h i)
    {v : Nat} (hv : v < 2 ^ h) : mfun nodes h i v ≤ (nd nodes i).subtree_count := by
  rw [sub_eq_sum hg]
  exact Finset.single_le_sum (fun x _ => mfun_nonneg hg x) (Finset.mem_range.mpr hv)

theorem mfun_eq_zero_of_sub_nonpos {nodes : List Node} {h i : Nat}
    (hg : GoodAt nodes h i) (hs : (nd nodes i).subtree_count ≤ 0)
    {v : Nat} (hv : v < 2 ^ h) : mfun nodes h i v = 0 :=
  le_antisymm (le_trans (mfun_le_sub hg hv) hs) (mfun_nonneg hg v)

/-- Full well-formedness of a trie state: sound root subtree, no sharing
among subtrees (the preorder traversal has no duplicates), every arena
index is on the tree, and the mask fits the bit width. -/
def WF (w : Nat) (t : Trie) : Prop :=
  GoodAt t.nodes w 0 ∧ (tlist t.nodes w 0).Nodup ∧
  (∀ j, j < t.nodes.length → j ∈ tlist t.nodes w 0) ∧ t.xor_mask < 2 ^ w

/-! ### Arena access/update lemmas -/

theorem nd_updN_self {nodes : List Node} {i : Nat} (hi : i < nodes.length)
    (f : Node → Node) : nd (updN nodes i f) i = f (nd nodes i) := by
  simp [nd, updN, List.getElem?_set_self hi]

theorem nd_updN_ne {nodes : List Node} {i j : Nat} (hij : i ≠ j) (f : Node → Node) :
    nd (updN nodes i f) j = nd nodes j := by
  simp [nd, updN, List.getElem?_set_ne hij]

@[simp] theorem length_updN (nodes : List Node) (i : Nat) (f : Node → Node) :
    (updN nodes i f).length = nodes.length := by
  simp [updN]

theorem nd_append_lt {nodes : List Node} {j : Nat} (hj : j < nodes.length)
    (tail : List Node) : nd (nodes ++ tail) j = nd nodes j := by
  simp [nd, List.getElem?_append_left hj]

theorem nd_append_self (nodes : List Node) (x : Node) :
    nd (nodes ++ [x]) nodes.length = x := by
  simp [nd, List.getElem?_append_right (le_refl nodes.length)]

theorem nd_of_ge {nodes : List Node} {j : Nat} (hj : nodes.length ≤ j) :
    nd nodes j = {} := by
  simp [nd, List.getElem?_eq_none hj]

theorem nd_bumpSub_self {nodes : List Node} {i : Nat} (hi : i < nodes.length)
    (count : Int) : nd (bumpSub count nodes i) i =
      { nd nodes i with subtree_count := (nd nodes i).subtree_count + count } :=
  nd_updN_self hi _

theorem nd_bumpSub_ne {nodes : List Node} {i j : Nat} (hij : i ≠ j) (count : Int) :
    nd (bumpSub count nodes i) j = nd nodes j :=
  nd_updN_ne hij _

@[simp] theorem length_bumpSub (count : Int) (nodes : List Node) (i : Nat) :
    (bumpSub count nodes i).length = nodes.length := by
  simp [bumpSub]

/-! ### Direction helpers -/

theorem dir_cases {d d' : Nat} (hd : d < 2) (hd' : d' < 2) : d' = d ∨ d' = d ^^^ 1 := by
  interval_cases d <;> interval_cases d' <;> simp

theorem getChild_zero (n : Node) : getChild n 0 = n.child0 := rfl

theorem getChild_one (n : Node) : getChild n 1 = n.child1 := by
  simp [getChild]

theorem sum_children (nodes : List Node) (n : Node) {d : Nat} (hd : d < 2) :
    SubtreeCount nodes n.child0 + SubtreeCount nodes n.child1 =
      SubtreeCount nodes (getChild n d) + SubtreeCount nodes (getChild n (d ^^^ 1)) := by
  interval_cases d
  · rw [getChild_zero]; rw [show (0 : Nat) ^^^ 1 = 1 from rfl, getChild_one]
  · rw [getChild_one]; rw [show (1 : Nat) ^^^ 1 = 0 from rfl, getChild_zero]
    exact add_comm _ _

theorem goodAt_succ_dir {nodes : List Node} {h i : Nat} {d : Nat} (hd : d < 2)
    (hg : GoodAt nodes (h + 1) i) :
    (nd nodes i).subtree_count =
      SubtreeCount nodes (getChild (nd nodes i) d) +
        SubtreeCount nodes (getChild (nd nodes i) (d ^^^ 1)) := by
  rw [hg.2.2.1, sum_children nodes _ hd]

/-- Assembling GoodAt at positive height from direction-keyed components. -/
theorem goodAt_succ_of_dir {nodes : List Node} {h i d : Nat} (hd : d < 2)
    (hlen : i < nodes.length) (hterm : (nd nodes i).terminal_count = 0)
    (hsub : (nd nodes i).subtree_count =
      SubtreeCount nodes (getChild (nd nodes i) d) +
        SubtreeCount nodes (getChild (nd nodes i) (d ^^^ 1)))
    (hch : ∀ d' c, d' < 2 → getChild (nd nodes i) d' = some c → GoodAt nodes h c) :
    GoodAt nodes (h + 1) i := by
  refine ⟨hlen, hterm, ?_, ?_, ?_⟩
  · rw [sum_children nodes _ hd]; exact hsub
  · intro c hc
    exact hch 0 c (by norm_num) (by rw [getChild_zero]; exact hc)
  · intro c hc
    exact hch 1 c (by norm_num) (by rw [getChild_one]; exact hc)

/-! ### Fresh nodes -/

theorem goodAt_fresh {nodes : List Node} {i : Nat} (hi : i < nodes.length)
    (he : nd nodes i = {}) : ∀ h, GoodAt nodes h i := by
  intro h
  cases h with
  | zero => rw [GoodAt, he]; exact ⟨hi, rfl, rfl, le_refl 0, rfl⟩
  | succ h =>
      rw [GoodAt, he]
      refine ⟨hi, rfl, ?_, ?_, ?_⟩
      · show (0 : Int) = SubtreeCount nodes none + SubtreeCount nodes none
        simp [SubtreeCount]
      · intro c hc; exact absurd hc (by simp)
      · intro c hc; exact absurd hc (by simp)

theorem mfun_fresh {nodes : List Node} {i : Nat} (he : nd nodes i = {}) :
    ∀ h v, mfun nodes h i v = 0 := by
  intro h v
  cases h with
  | zero =>
      rw [mfun, he]
      by_cases hv : v = 0 <;> simp [hv]
  | succ h =>
      rw [mfun, he]
      have hn : getChild ({} : Node) ((v >>> h) &&& 1) = none := by
        rw [getChild]
        by_cases hb : (v >>> h) &&& 1 = 0 <;> simp [hb]
      rw [hn]

theorem tlist_fresh {nodes : List Node} {i : Nat} (he : nd nodes i = {}) :
    ∀ h, tlist nodes h i = [i] := by
  intro h
  cases h with
  | zero => rfl
  | succ h => rw [tlist, he]; rfl

/-! ### Direction-keyed views of tlist and mfun -/

/-- tlist lifted to an optional child. -/
def tlo (nodes : List Node) (h : Nat) : Option Nat → List Nat
  | none => []
  | some c => tlist nodes h c

/-- mfun lifted to an optional child. -/
def mfo (nodes : List Node) (h : Nat) : Option Nat → Nat → Int
  | none, _ => 0
  | some c, u => mfun nodes h c u

theorem tlist_succ (nodes : List Node) (h i : Nat) :
    tlist nodes (h + 1) i =
      i :: (tlo nodes h (nd nodes i).child0 ++ tlo nodes h (nd nodes i).child1) := by
  rw [tlist]
  cases (nd nodes i).child0 <;> cases (nd nodes i).child1 <;> rfl

theorem mfun_succ (nodes : List Node) (h i v : Nat) :
    mfun nodes (h + 1) i v =
      mfo nodes h (getChild (nd nodes i) ((v >>> h) &&& 1)) (v % 2 ^ h) := by
  rw [mfun]
  cases getChild (nd nodes i) ((v >>> h) &&& 1) <;> rfl

theorem tlist_succ_perm_dir (nodes : List Node) {d : Nat} (hd : d < 2) (h i : Nat) :
    (tlist nodes (h + 1) i).Perm
      (i :: (tlo nodes h (getChild (nd nodes i) d) ++
             tlo nodes h (getChild (nd nodes i) (d ^^^ 1)))) := by
  rw [tlist_succ]
  interval_cases d
  · rw [getChild_zero]
    rw [show (0 : Nat) ^^^ 1 = 1 from rfl, getChild_one]
  · rw [getChild_one, show (1 : Nat) ^^^ 1 = 0 from rfl, getChild_zero]
    exact List.Perm.cons i List.perm_append_comm

theorem SubtreeCount_congr {nodes nodes' : List Node} {o : Option Nat}
    (ha : ∀ j ∈ tlo nodes' 0 o, nd nodes' j = nd nodes j) :
    SubtreeCount nodes' o = SubtreeCount nodes o := by
  cases o with
  | none => rfl
  | some c =>
      simp only [SubtreeCount]
      rw [ha c (by simp [tlo, tlist])]

theorem getChild_setChild_self (n : Node) (d : Nat) (c : Option Nat) :
    getChild (setChild n d c) d = c := by
  by_cases hd : d = 0 <;> simp [getChild, setChild, hd]

theorem getChild_setChild_ne (n : Node) {d d' : Nat} (hd : d < 2) (hd' : d' < 2)
    (hne : d' ≠ d) (c : Option Nat) : getChild (setChild n d c) d' = getChild n d' := by
  interval_cases d <;> interval_cases d' <;> simp_all [getChild, setChild]

theorem getChild_bumpSub {nodes : List Node} {i : Nat} (hi : i < nodes.length)
    (count : Int) (d : Nat) :
    getChild (nd (bumpSub count nodes i) i) d = getChild (nd nodes i) d := by
  rw [nd_bumpSub_self hi, getChild, getChild]

/-- Equality with a truncated value, split into the top bit and the rest. -/
theorem eq_mod_succ_iff {v s h : Nat} (hv : v < 2 ^ (h + 1)) :
    v = s % 2 ^ (h + 1) ↔
      ((v >>> h) &&& 1 = (s >>> h) &&& 1 ∧ v % 2 ^ h = s % 2 ^ h) := by
  constructor
  · rintro rfl
    exact ⟨hb_mod_pow s h, mod_pow_mod s h⟩
  · rintro ⟨ht, hl⟩
    calc v = v % 2 ^ (h + 1) := (mod_self_lt hv).symm
    _ = 2 ^ h * ((v >>> h) &&& 1) + v % 2 ^ h := mod_pow_split v h
    _ = 2 ^ h * ((s >>> h) &&& 1) + s % 2 ^ h := by rw [ht, hl]
    _ = s % 2 ^ (h + 1) := (mod_pow_split s h).symm

/-- Conclusions of the Insert loop about the subtree rooted at i: bounded
growth, no change off the subtree, soundness and nodup preserved, the new
traversal covering the old one and all fresh indices, the multiplicity
bumped at exactly the inserted stored suffix, and the root's subtree_count
bumped by count. -/
structure InsOut (count : Int) (stored h : Nat) (nodes N : List Node) (i : Nat) : Prop where
  len : nodes.length ≤ N.length
  frame : ∀ j, j < nodes.length → j ∉ tlist nodes h i → nd N j = nd nodes j
  good : GoodAt N h i
  nodup : (tlist N h i).Nodup
  mem_of : ∀ j, j ∈ tlist N h i → j ∈ tlist nodes h i ∨ (nodes.length ≤ j ∧ j < N.length)
  fresh_mem : ∀ j, nodes.length ≤ j → j < N.length → j ∈ tlist N h i
  old_mem : ∀ j, j ∈ tlist nodes h i → j ∈ tlist N h i
  mdelta : ∀ v, v < 2 ^ h →
    mfun N h i v = mfun nodes h i v + (if v = stored % 2 ^ h then count else 0)
  sdelta : (nd N i).subtree_count = (nd nodes i).subtree_count + count

theorem updN_append {nodes : List Node} {i : Nat} (hi : i < nodes.length)
    (f : Node → Node) (tail : List Node) :
    updN (nodes ++ tail) i f = updN nodes i f ++ tail := by
  rw [updN, updN, nd_append_lt hi, List.set_append_left _ _ hi]

theorem updN_updN_self (nodes : List Node) (i : Nat) (f g : Node → Node) :
    updN (updN nodes i f) i g = updN nodes i (fun n => g (f n)) := by
  by_cases hi : i < nodes.length
  · have h1 : nd (updN nodes i f) i = f (nd nodes i) := nd_updN_self hi f
    show (updN nodes i f).set i (g (nd (updN nodes i f) i)) =
      nodes.set i (g (f (nd nodes i)))
    rw [h1, updN, List.set_set]
  · have hset : ∀ (x : Node), nodes.set i x = nodes :=
      fun x => List.set_eq_of_length_le (by omega)
    have h2 : updN nodes i f = nodes := by rw [updN]; exact hset _
    rw [h2, updN, updN, hset, hset]

theorem xor_one_ne {d : Nat} (hd : d < 2) : d ≠ d ^^^ 1 := by
  interval_cases d <;> simp

theorem xor_one_lt {d : Nat} (hd : d < 2) : d ^^^ 1 < 2 := by
  interval_cases d <;> simp

theorem setChild_sub (n : Node) (d : Nat) (c : Option Nat) :
    (setChild n d c).subtree_count = n.subtree_count := by
  by_cases hd : d = 0 <;> simp [setChild, hd]

theorem setChild_term (n : Node) (d : Nat) (c : Option Nat) :
    (setChild n d c).terminal_count = n.terminal_count := by
  by_cases hd : d = 0 <;> simp [setChild, hd]

/-- Effect of the Insert loop (including the root subtree_count bump that
Insert performs before the loop) on the subtree it descends into. -/
theorem insertGo_spec (count : Int) (stored : Nat) (hcount : 0 ≤ count) :
    ∀ h nodes i, GoodAt nodes h i → (tlist nodes h i).Nodup →
      InsOut count stored h nodes (insertGo count stored h i (bumpSub count nodes i)) i := by
  intro h
  induction h with
  | zero =>
      intro nodes i hg hnd
      have hi : i < nodes.length := hg.1
      have hiB : i < (bumpSub count nodes i).length := by simp [hi]
      have hNi : nd (insertGo count stored 0 i (bumpSub count nodes i)) i =
          { nd nodes i with
            subtree_count := (nd nodes i).subtree_count + count,
            terminal_count := (nd nodes i).terminal_count + count } := by
        rw [insertGo, nd_updN_self hiB, nd_bumpSub_self hi]
      have hNj : ∀ j, j ≠ i →
          nd (insertGo count stored 0 i (bumpSub count nodes i)) j = nd nodes j := by
        intro j hj
        rw [insertGo, nd_updN_ne (fun hh => hj hh.symm), nd_bumpSub_ne (fun hh => hj hh.symm)]
      have hlen : (insertGo count stored 0 i (bumpSub count nodes i)).length =
          nodes.length := by
        rw [insertGo]; simp
      refine ⟨le_of_eq hlen.symm, ?_, ?_, ?_, ?_, ?_, ?_, ?_, ?_⟩
      · intro j _ hjm
        have : j ≠ i := by simpa [tlist] using hjm
        exact hNj j this
      · refine ⟨by rw [hlen]; exact hi, ?_, ?_, ?_, ?_⟩
        · rw [hNi]; exact hg.2.1
        · rw [hNi]; exact hg.2.2.1
        · rw [hNi]
          exact add_nonneg hg.2.2.2.1 hcount
        · rw [hNi]
          show (nd nodes i).subtree_count + count = (nd nodes i).terminal_count + count
          rw [hg.2.2.2.2]
      · simp [tlist]
      · intro j hj
        exact Or.inl (by simpa [tlist] using hj)
      · intro j hge hlt
        rw [hlen] at hlt; omega
      · intro j hj
        simpa [tlist] using hj
      · intro v hv
        have hv0 : v = 0 := Nat.lt_one_iff.mp (by simpa using hv)
        subst hv0
        have hs0 : stored % 2 ^ 0 = 0 := by simp [Nat.mod_one]
        rw [hs0, if_pos rfl, mfun, mfun, if_pos rfl, if_pos rfl, hNi]
      · rw [hNi]
  | succ h ih =>
      intro nodes i hg hnd
      have hd2 : (stored >>> h) &&& 1 < 2 := hb_lt_two stored h
      have hsome : ∀ (ns : List Node) (i c : Nat), GoodAt ns (h + 1) i →
          (tlist ns (h + 1) i).Nodup →
          getChild (nd ns i) ((stored >>> h) &&& 1) = some c →
          InsOut count stored (h + 1) ns
            (insertGo count stored (h + 1) i (bumpSub count ns i)) i := by
        clear hg hnd
        intro ns i c hg hnd hc
        have hi : i < ns.length := hg.1
        have hgcB : getChild (nd (bumpSub count ns i) i) ((stored >>> h) &&& 1) =
            some c := by rw [getChild_bumpSub hi]; exact hc
        have hunfold : insertGo count stored (h + 1) i (bumpSub count ns i) =
            insertGo count stored h c (bumpSub count (bumpSub count ns i) c) := by
          simp only [insertGo, hgcB]
        rw [hunfold]
        have hperm := tlist_succ_perm_dir ns hd2 h i
        rw [hc] at hperm
        simp only [tlo] at hperm
        have hndd := hperm.nodup_iff.mp hnd
        rcases List.nodup_cons.mp hndd with ⟨hi_notin, hnd_tail⟩
        rcases List.nodup_append.mp hnd_tail with ⟨hnd_c, hnd_sib, hdisj⟩
        have hi_notin_c : i ∉ tlist ns h c :=
          fun hmem => hi_notin (List.mem_append_left _ hmem)
        have hi_notin_sib :
            i ∉ tlo ns h (getChild (nd ns i) (((stored >>> h) &&& 1) ^^^ 1)) :=
          fun hmem => hi_notin (List.mem_append_right _ hmem)
        have hgc : GoodAt ns h c := goodAt_child hg hc
        have hic : i ≠ c := fun hic => hi_notin_c (by rw [hic]; exact mem_tlist_self ns h c)
        have hframeB : ∀ j ∈ tlist ns h c, nd (bumpSub count ns i) j = nd ns j := by
          intro j hj
          exact nd_bumpSub_ne (fun hij => hi_notin_c (by rw [hij]; exact hj)) count
        have htlB : tlist (bumpSub count ns i) h c = tlist ns h c := tlist_congr hframeB
        have hgBc : GoodAt (bumpSub count ns i) h c :=
          goodAt_congr hframeB (by simp) hgc
        have hndBc : (tlist (bumpSub count ns i) h c).Nodup := by rw [htlB]; exact hnd_c
        have hIH := ih (bumpSub count ns i) c hgBc hndBc
        generalize hNdef : insertGo count stored h c
            (bumpSub count (bumpSub count ns i) c) = N at hIH ⊢
        have hBlen : (bumpSub count ns i).length = ns.length := by simp
        have hlenN : ns.length ≤ N.length := hBlen ▸ hIH.len
        have hiB : i < (bumpSub count ns i).length := by simp [hi]
        have hNi : nd N i =
            { nd ns i with subtree_count := (nd ns i).subtree_count + count } := by
          rw [hIH.frame i hiB (by rw [htlB]; exact hi_notin_c), nd_bumpSub_self hi]
        have hNichild : ∀ d', getChild (nd N i) d' = getChild (nd ns i) d' := by
          intro d'; rw [hNi, getChild, getChild]
        have hsibframe :
            ∀ j ∈ tlo ns h (getChild (nd ns i) (((stored >>> h) &&& 1) ^^^ 1)),
              nd N j = nd ns j := by
          intro j hj
          have hji : i ≠ j := by rintro rfl; exact hi_notin_sib hj
          have hjc : j ∉ tlist ns h c := fun hjc => hdisj hjc hj
          have hjlen : j < ns.length := by
            cases hs : getChild (nd ns i) (((stored >>> h) &&& 1) ^^^ 1) with
            | none => rw [hs] at hj; simp [tlo] at hj
            | some s =>
                rw [hs] at hj; simp only [tlo] at hj
                exact goodAt_tlist_lt (goodAt_child hg hs) j hj
          rw [hIH.frame j (by rw [hBlen]; exact hjlen) (by rw [htlB]; exact hjc),
            nd_bumpSub_ne hji]
        have hsib_lt :
            ∀ j ∈ tlo ns h (getChild (nd ns i) (((stored >>> h) &&& 1) ^^^ 1)),
              j < ns.length := by
          intro j hj
          cases hs : getChild (nd ns i) (((stored >>> h) &&& 1) ^^^ 1) with
          | none => rw [hs] at hj; simp [tlo] at hj
          | some s =>
              rw [hs] at hj; simp only [tlo] at hj
              exact goodAt_tlist_lt (goodAt_child hg hs) j hj
        have htl_sib : tlo N h (getChild (nd ns i) (((stored >>> h) &&& 1) ^^^ 1)) =
            tlo ns h (getChild (nd ns i) (((stored >>> h) &&& 1) ^^^ 1)) := by
          cases hs : getChild (nd ns i) (((stored >>> h) &&& 1) ^^^ 1) with
          | none => rfl
          | some s =>
              simp only [tlo]
              refine tlist_congr (fun j hj => hsibframe j ?_)
              rw [hs]; simp only [tlo]; exact hj
        have hpermN := tlist_succ_perm_dir N hd2 h i
        rw [hNichild, hNichild, hc, htl_sib] at hpermN
        simp only [tlo] at hpermN
        have hmem_old : ∀ j, (j = i ∨ j ∈ tlist ns h c ∨
            j ∈ tlo ns h (getChild (nd ns i) (((stored >>> h) &&& 1) ^^^ 1))) →
            j ∈ tlist ns (h + 1) i := by
          intro j hj
          apply hperm.mem_iff.mpr
          rcases hj with rfl | hj | hj
          · exact List.mem_cons_self _ _
          · exact List.mem_cons_of_mem _ (List.mem_append_left _ hj)
          · exact List.mem_cons_of_mem _ (List.mem_append_right _ hj)
        refine ⟨hlenN, ?_, ?_, ?_, ?_, ?_, ?_, ?_, ?_⟩
        · -- frame
          intro j hjlen hjm
          have hji : i ≠ j := fun hij => hjm (by rw [← hij]; exact mem_tlist_self ns _ i)
          have hjc : j ∉ tlist ns h c :=
            fun hjc => hjm (hmem_old j (Or.inr (Or.inl hjc)))
          rw [hIH.frame j (by rw [hBlen]; exact hjlen) (by rw [htlB]; exact hjc),
            nd_bumpSub_ne hji]
        · -- good
          refine goodAt_succ_of_dir hd2 (lt_of_lt_of_le hi hlenN) ?_ ?_ ?_
          · rw [hNi]; exact hg.2.1
          · have hold := goodAt_succ_dir hd2 hg
            rw [hc] at hold
            simp only [SubtreeCount] at hold
            rw [hNichild, hNichild, hc]
            simp only [SubtreeCount]
            have hNc : (nd N c).subtree_count = (nd ns c).subtree_count + count := by
              rw [hIH.sdelta, nd_bumpSub_ne hic]
            have hSe : SubtreeCount N (getChild (nd ns i) (((stored >>> h) &&& 1) ^^^ 1)) =
                SubtreeCount ns (getChild (nd ns i) (((stored >>> h) &&& 1) ^^^ 1)) := by
              cases hs : getChild (nd ns i) (((stored >>> h) &&& 1) ^^^ 1) with
              | none => rfl
              | some s =>
                  simp only [SubtreeCount]
                  rw [hsibframe s (by rw [hs]; simp only [tlo]; exact mem_tlist_self ns h s)]
            simp only [SubtreeCount] at hSe
            rw [hNi]
            show (nd ns i).subtree_count + count = _
            rw [hNc, hSe, hold]
            ring
          · intro d' c' hd' hcc
            rw [hNichild] at hcc
            rcases dir_cases hd2 hd' with rfl | rfl
            · rw [hc] at hcc
              obtain rfl := Option.some.inj hcc
              exact hIH.good
            · refine goodAt_congr ?_ hlenN (goodAt_child hg hcc)
              intro j hj
              exact hsibframe j (by rw [hcc]; simp only [tlo]; exact hj)
        · -- nodup
          apply hpermN.nodup_iff.mpr
          refine List.nodup_cons.mpr ⟨?_, List.nodup_append.mpr ⟨hIH.nodup, hnd_sib, ?_⟩⟩
          · intro hmem
            rcases List.mem_append.mp hmem with hmem | hmem
            · rcases hIH.mem_of i hmem with hold | ⟨hge, _⟩
              · rw [htlB] at hold; exact hi_notin_c hold
              · rw [hBlen] at hge; omega
            · exact hi_notin_sib hmem
          · intro a ha hb
            rcases hIH.mem_of a ha with hold | ⟨hge, _⟩
            · rw [htlB] at hold; exact hdisj hold hb
            · rw [hBlen] at hge
              have := hsib_lt a hb
              omega
        · -- mem_of
          intro j hj
          rcases List.mem_cons.mp (hpermN.mem_iff.mp hj) with rfl | hj
          · exact Or.inl (mem_tlist_self ns _ j)
          rcases List.mem_append.mp hj with hj | hj
          · rcases hIH.mem_of j hj with hold | ⟨hge, hlt⟩
            · rw [htlB] at hold
              exact Or.inl (hmem_old j (Or.inr (Or.inl hold)))
            · rw [hBlen] at hge
              exact Or.inr ⟨hge, hlt⟩
          · exact Or.inl (hmem_old j (Or.inr (Or.inr hj)))
        · -- fresh_mem
          intro j hge hlt
          have : j ∈ tlist N h c := hIH.fresh_mem j (by rw [hBlen]; exact hge) hlt
          exact hpermN.mem_iff.mpr (List.mem_cons_of_mem _ (List.mem_append_left _ this))
        · -- old_mem
          intro j hj
          rcases List.mem_cons.mp (hperm.mem_iff.mp hj) with rfl | hj
          · exact hpermN.mem_iff.mpr (List.mem_cons_self _ _)
          rcases List.mem_append.mp hj with hj | hj
          · have : j ∈ tlist N h c := hIH.old_mem j (by rw [htlB]; exact hj)
            exact hpermN.mem_iff.mpr (List.mem_cons_of_mem _ (List.mem_append_left _ this))
          · exact hpermN.mem_iff.mpr (List.mem_cons_of_mem _ (List.mem_append_right _ hj))
        · -- mdelta
          intro v hv
          rw [mfun_succ, mfun_succ, hNichild]
          have hb2 : (v >>> h) &&& 1 < 2 := hb_lt_two v h
          rcases dir_cases hd2 hb2 with hbd | hbe
          · rw [hbd, hc]
            simp only [mfo]
            have hlow : v % 2 ^ h < 2 ^ h := mod_two_pow_lt v h
            have := hIH.mdelta (v % 2 ^ h) hlow
            rw [this, mfun_congr hframeB]
            have hiff : (v % 2 ^ h = stored % 2 ^ h) ↔ (v = stored % 2 ^ (h + 1)) := by
              rw [eq_mod_succ_iff hv]
              exact ⟨fun hl => ⟨hbd, hl⟩, fun hh => hh.2⟩
            congr 1
            by_cases hcase : v = stored % 2 ^ (h + 1)
            · rw [if_pos hcase, if_pos (hiff.mpr hcase)]
            · rw [if_neg hcase, if_neg (fun hl => hcase (hiff.mp hl))]
          · rw [hbe]
            have hitef : ¬ v = stored % 2 ^ (h + 1) := by
              intro heq
              have := ((eq_mod_succ_iff hv).mp heq).1
              rw [hbe] at this
              exact xor_one_ne hd2 this.symm
            rw [if_neg hitef, add_zero]
            cases hs : getChild (nd ns i) (((stored >>> h) &&& 1) ^^^ 1) with
            | none => rfl
            | some s =>
                simp only [mfo]
                refine mfun_congr ?_ _
                intro j hj
                exact hsibframe j (by rw [hs]; simp only [tlo]; exact hj)
        · -- sdelta
          rw [hNi]
      cases hc : getChild (nd nodes i) ((stored >>> h) &&& 1) with
      | some c => exact hsome nodes i c hg hnd hc
      | none =>
          -- allocate a fresh child first, then reduce to the some-branch
          have hi : i < nodes.length := hg.1
          have he2 : ((stored >>> h) &&& 1) ^^^ 1 < 2 := xor_one_lt hd2
          set ns' := updN (nodes ++ [({} : Node)]) i
            (fun n => setChild n ((stored >>> h) &&& 1) (some nodes.length)) with hns'
          have hlen' : ns'.length = nodes.length + 1 := by
            rw [hns']; simp
          have hiLT : i < (nodes ++ [({} : Node)]).length := by simp; omega
          have hnd'_i : nd ns' i =
              setChild (nd nodes i) ((stored >>> h) &&& 1) (some nodes.length) := by
            rw [hns', nd_updN_self hiLT, nd_append_lt hi]
          have hnd'_j : ∀ j, j ≠ i → j < nodes.length → nd ns' j = nd nodes j := by
            intro j hj hjl
            rw [hns', nd_updN_ne (fun hh => hj hh.symm), nd_append_lt hjl]
          have hiL : i ≠ nodes.length := by omega
          have hnd'_L : nd ns' nodes.length = {} := by
            rw [hns', nd_updN_ne hiL, nd_append_self]
          have hchd' : getChild (nd ns' i) ((stored >>> h) &&& 1) = some nodes.length := by
            rw [hnd'_i, getChild_setChild_self]
          have hche' : getChild (nd ns' i) (((stored >>> h) &&& 1) ^^^ 1) =
              getChild (nd nodes i) (((stored >>> h) &&& 1) ^^^ 1) := by
            rw [hnd'_i, getChild_setChild_ne _ hd2 he2 ((xor_one_ne hd2).symm)]
          have hperm := tlist_succ_perm_dir nodes hd2 h i
          rw [hc] at hperm
          simp only [tlo, List.nil_append] at hperm
          have hndd := hperm.nodup_iff.mp hnd
          rcases List.nodup_cons.mp hndd with ⟨hi_notin_sib, hnd_sib⟩
          have hsib_lt :
              ∀ j ∈ tlo nodes h (getChild (nd nodes i) (((stored >>> h) &&& 1) ^^^ 1)),
                j < nodes.length := by
            intro j hj
            cases hs : getChild (nd nodes i) (((stored >>> h) &&& 1) ^^^ 1) with
            | none => rw [hs] at hj; simp [tlo] at hj
            | some s =>
                rw [hs] at hj; simp only [tlo] at hj
                exact goodAt_tlist_lt (goodAt_child hg hs) j hj
          have hsibframe' :
              ∀ j ∈ tlo nodes h (getChild (nd nodes i) (((stored >>> h) &&& 1) ^^^ 1)),
                nd ns' j = nd nodes j := by
            intro j hj
            have hji : j ≠ i := by rintro rfl; exact hi_notin_sib hj
            exact hnd'_j j hji (hsib_lt j hj)
          have htl_sib' : tlo ns' h (getChild (nd nodes i) (((stored >>> h) &&& 1) ^^^ 1)) =
              tlo nodes h (getChild (nd nodes i) (((stored >>> h) &&& 1) ^^^ 1)) := by
            cases hs : getChild (nd nodes i) (((stored >>> h) &&& 1) ^^^ 1) with
            | none => rfl
            | some s =>
                simp only [tlo]
                refine tlist_congr fun j hj => hsibframe' j ?_
                rw [hs]; simp only [tlo]; exact hj
          have hg' : GoodAt ns' (h + 1) i := by
            refine goodAt_succ_of_dir hd2 (by omega) ?_ ?_ ?_
            · rw [hnd'_i, setChild_term]; exact hg.2.1
            · rw [hchd', hche']
              have h1 : SubtreeCount ns' (some nodes.length) = 0 := by
                simp only [SubtreeCount]
                rw [hnd'_L]
              have h2 : SubtreeCount ns'
                    (getChild (nd nodes i) (((stored >>> h) &&& 1) ^^^ 1)) =
                  SubtreeCount nodes
                    (getChild (nd nodes i) (((stored >>> h) &&& 1) ^^^ 1)) := by
                cases hs : getChild (nd nodes i) (((stored >>> h) &&& 1) ^^^ 1) with
                | none => rfl
                | some s =>
                    simp only [SubtreeCount]
                    exact congrArg Node.subtree_count (hsibframe' s
                      (by rw [hs]; simp only [tlo]; exact mem_tlist_self nodes h s))
              have hold := goodAt_succ_dir hd2 hg
              rw [hc] at hold
              have h3 : SubtreeCount nodes (none : Option Nat) = 0 := rfl
              rw [hnd'_i, setChild_sub, h1, h2, hold, h3]
            · intro d' c' hd' hcc
              rcases dir_cases hd2 hd' with rfl | rfl
              · rw [hchd'] at hcc
                obtain rfl := Option.some.inj hcc
                exact goodAt_fresh (by omega) hnd'_L h
              · rw [hche'] at hcc
                refine goodAt_congr ?_ (by omega) (goodAt_child hg hcc)
                intro j hj
                exact hsibframe' j (by rw [hcc]; simp only [tlo]; exact hj)
          have hperm' := tlist_succ_perm_dir ns' hd2 h i
          rw [hchd', hche', htl_sib'] at hperm'
          have htlL : tlist ns' h nodes.length = [nodes.length] := tlist_fresh hnd'_L h
          simp only [tlo] at hperm'
          rw [htlL] at hperm'
          have hnd' : (tlist ns' (h + 1) i).Nodup := by
            apply hperm'.nodup_iff.mpr
            refine List.nodup_cons.mpr
              ⟨?_, List.nodup_append.mpr ⟨List.nodup_singleton _, hnd_sib, ?_⟩⟩
            · intro hmem
              rcases List.mem_append.mp hmem with hmem | hmem
              · simp at hmem; omega
              · exact hi_notin_sib hmem
            · intro a ha hb
              simp at ha
              subst ha
              have := hsib_lt _ hb
              omega
          have hres := hsome ns' i nodes.length hg' hnd' hchd'
          have hEQ : insertGo count stored (h + 1) i (bumpSub count nodes i) =
              insertGo count stored (h + 1) i (bumpSub count ns' i) := by
            have hL1 : getChild (nd (bumpSub count nodes i) i) ((stored >>> h) &&& 1) =
                none := by
              rw [getChild_bumpSub hi]; exact hc
            have hL2 : getChild (nd (bumpSub count ns' i) i) ((stored >>> h) &&& 1) =
                some nodes.length := by
              rw [getChild_bumpSub (by omega), hchd']
            have hAEQ : updN ((bumpSub count nodes i) ++ [({} : Node)]) i
                (fun n => setChild n ((stored >>> h) &&& 1) (some nodes.length)) =
                bumpSub count ns' i := by
              rw [hns']
              simp only [bumpSub]
              rw [← updN_append hi, updN_updN_self, updN_updN_self]
              congr 1
              funext n
              simp only [setChild, Nat.and_one_is_mod]
              by_cases hz : stored >>> h % 2 = 0 <;> simp [hz]
            simp only [insertGo, hL1, hL2]
            have hBl : (bumpSub count nodes i).length = nodes.length := by simp
            rw [hBl, hAEQ]
          rw [hEQ]
          generalize hNdef :
            insertGo count stored (h + 1) i (bumpSub count ns' i) = N at hres ⊢
          have hmemN' : ∀ j, j ∈ tlist ns' (h + 1) i ↔
              (j = i ∨ j = nodes.length ∨
                j ∈ tlo nodes h (getChild (nd nodes i) (((stored >>> h) &&& 1) ^^^ 1))) := by
            intro j
            rw [hperm'.mem_iff]
            cases getChild (nd nodes i) (((stored >>> h) &&& 1) ^^^ 1) <;> simp [tlo]
          have hmemO : ∀ j, j ∈ tlist nodes (h + 1) i ↔
              (j = i ∨
                j ∈ tlo nodes h (getChild (nd nodes i) (((stored >>> h) &&& 1) ^^^ 1))) := by
            intro j
            rw [hperm.mem_iff]
            cases getChild (nd nodes i) (((stored >>> h) &&& 1) ^^^ 1) <;> simp [tlo]
          have hmf : ∀ v, v < 2 ^ (h + 1) →
              mfun ns' (h + 1) i v = mfun nodes (h + 1) i v := by
            intro v hv
            rw [mfun_succ, mfun_succ]
            have hb2 : (v >>> h) &&& 1 < 2 := hb_lt_two v h
            rcases dir_cases hd2 hb2 with hbd | hbe
            · rw [hbd, hchd', hc]
              simp only [mfo]
              exact mfun_fresh hnd'_L h _
            · rw [hbe, hche']
              cases hs : getChild (nd nodes i) (((stored >>> h) &&& 1) ^^^ 1) with
              | none => rfl
              | some s =>
                  simp only [mfo]
                  refine mfun_congr ?_ _
                  intro j hj
                  exact hsibframe' j (by rw [hs]; simp only [tlo]; exact hj)
          refine ⟨?_, ?_, hres.good, hres.nodup, ?_, ?_, ?_, ?_, ?_⟩
          · have := hres.len; omega
          · intro j hjl hjm
            have hji : j ≠ i := by rintro rfl; exact hjm (mem_tlist_self nodes _ j)
            have hj' : j ∉ tlist ns' (h + 1) i := by
              rw [hmemN']
              rintro (rfl | rfl | hmem)
              · exact hji rfl
              · omega
              · exact hjm ((hmemO j).mpr (Or.inr hmem))
            rw [hres.frame j (by omega) hj', hnd'_j j hji hjl]
          · intro j hj
            rcases hres.mem_of j hj with hmem | ⟨hge, hlt⟩
            · rcases (hmemN' j).mp hmem with rfl | rfl | hmem
              · exact Or.inl (mem_tlist_self nodes _ j)
              · exact Or.inr ⟨le_refl _, by have := hres.len; omega⟩
              · exact Or.inl ((hmemO j).mpr (Or.inr hmem))
            · exact Or.inr ⟨by omega, hlt⟩
          · intro j hge hlt
            by_cases hjL : j = nodes.length
            · subst hjL
              exact hres.old_mem _ ((hmemN' _).mpr (Or.inr (Or.inl rfl)))
            · exact hres.fresh_mem j (by omega) hlt
          · intro j hj
            rcases (hmemO j).mp hj with rfl | hmem
            · exact hres.old_mem j ((hmemN' j).mpr (Or.inl rfl))
            · exact hres.old_mem j ((hmemN' j).mpr (Or.inr (Or.inr hmem)))
          · intro v hv
            rw [hres.mdelta v hv, hmf v hv]
          · rw [hres.sdelta, hnd'_i, setChild_sub]

theorem stored_inj {w xm x v : Nat} (hx : x < 2 ^ w) (hv : v < 2 ^ w) :
    (x ^^^ xm) % 2 ^ w = (v ^^^ xm) % 2 ^ w ↔ x = v := by
  constructor
  · intro hh
    have h1 : (x ^^^ xm) % 2 ^ w ^^^ xm % 2 ^ w = x := by
      rw [xor_mod_two_pow, xor_cancel_r, mod_self_lt hx]
    have h2 : (v ^^^ xm) % 2 ^ w ^^^ xm % 2 ^ w = v := by
      rw [xor_mod_two_pow, xor_cancel_r, mod_self_lt hv]
    rw [← h1, ← h2, hh]
  · rintro rfl; rfl

theorem ToStored_lt (w xm v : Nat) : ToStored w xm v < 2 ^ w := by
  rw [ToStored, mask_eq_mod]
  exact mod_two_pow_lt _ w

theorem ToStored_eq_mod (w xm v : Nat) : ToStored w xm v = (v ^^^ xm) % 2 ^ w := by
  rw [ToStored, mask_eq_mod]

/-- Effect of Insert on a well-formed trie: WF is preserved, Count(v) grows
by count, other Counts are unchanged, TotalCount grows by count. -/
theorem Insert_WF {w : Nat} {t : Trie} (hwf : WF w t) {v : Nat} (hv : v < 2 ^ w)
    {c : Int} (hc : 0 ≤ c) :
    WF w (Insert w t v c) ∧
    (∀ x, x < 2 ^ w → Count w (Insert w t v c) x =
      Count w t x + (if x = v then c else 0)) ∧
    TotalCount (Insert w t v c) = TotalCount t + c ∧
    (Insert w t v c).xor_mask = t.xor_mask := by
  by_cases hc0 : c = 0
  · subst hc0
    have : Insert w t v 0 = t := by rw [Insert, if_pos rfl]
    rw [this]
    refine ⟨hwf, fun x _ => ?_, by ring, rfl⟩
    by_cases hxv : x = v <;> simp [hxv]
  · have hins : Insert w t v c =
        { t with nodes :=
            insertGo c (ToStored w t.xor_mask v) w 0 (bumpSub c t.nodes 0) } := by
      rw [Insert, if_neg hc0]
    have spec := insertGo_spec c (ToStored w t.xor_mask v) hc w t.nodes 0 hwf.1 hwf.2.1
    rw [hins]
    refine ⟨⟨spec.good, spec.nodup, ?_, hwf.2.2.2⟩, ?_, ?_, rfl⟩
    · intro j hj
      by_cases hjo : j < t.nodes.length
      · exact spec.old_mem j (hwf.2.2.1 j hjo)
      · exact spec.fresh_mem j (by omega) hj
    · intro x hx
      rw [Count_eq_mfun, Count_eq_mfun]
      have hlt : (x ^^^ t.xor_mask) % 2 ^ w < 2 ^ w := mod_two_pow_lt _ w
      have := spec.mdelta ((x ^^^ t.xor_mask) % 2 ^ w) hlt
      rw [this]
      congr 1
      have hsm : ToStored w t.xor_mask v % 2 ^ w = (v ^^^ t.xor_mask) % 2 ^ w := by
        rw [ToStored_eq_mod, mod_mod_pow]
      rw [hsm]
      by_cases hxv : x = v
      · rw [if_pos hxv, if_pos (by rw [hxv])]
      · rw [if_neg hxv, if_neg (fun hh => hxv ((stored_inj hx hv).mp hh))]
    · show (nd _ 0).subtree_count = _ + c
      rw [spec.sdelta]
      rfl

/-! ### Erase path lemmas -/

theorem erasePath_len (nodes : List Node) (s : Nat) :
    ∀ h i p, erasePath nodes s h i = some p → p.length = h + 1 := by
  intro h
  induction h with
  | zero =>
      intro i p hp
      rw [erasePath] at hp
      cases hp
      rfl
  | succ h ih =>
      intro i p hp
      rw [erasePath] at hp
      cases hc : getChild (nd nodes i) ((s >>> h) &&& 1) with
      | none => rw [hc] at hp; simp at hp
      | some c =>
          rw [hc] at hp
          simp only [Option.map_eq_some'] at hp
          obtain ⟨q, hq, rfl⟩ := hp
          simp [ih c q hq]

theorem erasePath_mem (nodes : List Node) (s : Nat) :
    ∀ h i p, erasePath nodes s h i = some p → ∀ j ∈ p, j ∈ tlist nodes h i := by
  intro h
  induction h with
  | zero =>
      intro i p hp j hj
      rw [erasePath] at hp
      cases hp
      simpa [tlist] using hj
  | succ h ih =>
      intro i p hp j hj
      rw [erasePath] at hp
      cases hc : getChild (nd nodes i) ((s >>> h) &&& 1) with
      | none => rw [hc] at hp; simp at hp
      | some c =>
          rw [hc] at hp
          simp only [Option.map_eq_some'] at hp
          obtain ⟨q, hq, rfl⟩ := hp
          rcases List.mem_cons.mp hj with rfl | hj
          · exact mem_tlist_self nodes _ j
          · exact tlist_child_mem hc j (ih c q hq j hj)

theorem getLastD_cons_of_ne_nil {p : List Nat} (hp : p ≠ []) (i : Nat) :
    (i :: p).getLastD 0 = p.getLastD 0 := by
  rw [List.getLastD_cons]
  cases p with
  | nil => exact absurd rfl hp
  | cons a q =>
      rw [List.getLastD_cons, List.getLastD_cons]

theorem findNode_eq_erasePath (nodes : List Node) (s : Nat) :
    ∀ h i, findNode nodes s h i =
      Option.map (fun p => p.getLastD 0) (erasePath nodes s h i) := by
  intro h
  induction h with
  | zero => intro i; rfl
  | succ h ih =>
      intro i
      rw [findNode, erasePath]
      cases hc : getChild (nd nodes i) ((s >>> h) &&& 1) with
      | none => rfl
      | some c =>
          show findNode nodes s h c = Option.map (fun p => p.getLastD 0)
            (Option.map (fun p => i :: p) (erasePath nodes s h c))
          rw [ih c]
          cases hq : erasePath nodes s h c with
          | none => rfl
          | some q =>
              have hlen := erasePath_len nodes s h c q hq
              have hne : q ≠ [] := by
                intro hq0; rw [hq0] at hlen; simp at hlen
              simp only [Option.map]
              rw [getLastD_cons_of_ne_nil hne]

/-! ### Count-only updates preserve the tree structure -/

/-- An updN whose function keeps both child links preserves every child
link in the arena. -/
theorem updN_children (nodes : List Node) (i : Nat) {f : Node → Node}
    (hf : ∀ n, (f n).child0 = n.child0 ∧ (f n).child1 = n.child1) :
    ∀ j, (nd (updN nodes i f) j).child0 = (nd nodes j).child0 ∧
      (nd (updN nodes i f) j).child1 = (nd nodes j).child1 := by
  intro j
  by_cases hij : i = j
  · subst hij
    by_cases hi : i < nodes.length
    · rw [nd_updN_self hi]; exact hf _
    · rw [updN, List.set_eq_of_length_le (by omega)]
      exact ⟨rfl, rfl⟩
  · rw [nd_updN_ne hij]
    exact ⟨rfl, rfl⟩

theorem tlist_congr_children {nodes nodes' : List Node}
    (hch : ∀ j, (nd nodes' j).child0 = (nd nodes j).child0 ∧
      (nd nodes' j).child1 = (nd nodes j).child1) :
    ∀ h i, tlist nodes' h i = tlist nodes h i := by
  intro h
  induction h with
  | zero => intro i; rfl
  | succ h ih =>
      intro i
      rw [tlist_succ, tlist_succ, (hch i).1, (hch i).2]
      congr 1
      congr 1
      · cases (nd nodes i).child0 with
        | none => rfl
        | some c => exact ih c
      · cases (nd nodes i).child1 with
        | none => rfl
        | some c => exact ih c

/-- Conclusions of the Erase decrement pass about the subtree at i. -/
structure EraseOut (rm : Int) (stored h : Nat) (nodes N : List Node) (i : Nat) : Prop where
  len : N.length = nodes.length
  frame : ∀ j, j ∉ tlist nodes h i → nd N j = nd nodes j
  children : ∀ j, (nd N j).child0 = (nd nodes j).child0 ∧
    (nd N j).child1 = (nd nodes j).child1
  good : GoodAt N h i
  mdelta : ∀ v, v < 2 ^ h →
    mfun N h i v = mfun nodes h i v - (if v = stored % 2 ^ h then rm else 0)
  sdelta : (nd N i).subtree_count = (nd nodes i).subtree_count - rm

theorem getChild_of_children_eq {n n' : Node}
    (h0 : n'.child0 = n.child0) (h1 : n'.child1 = n.child1) (d : Nat) :
    getChild n' d = getChild n d := by
  by_cases hd : d = 0 <;> simp [getChild, hd, h0, h1]

/-- Effect of the Erase decrement pass (terminal_count at the leaf, then
subtree_count at every path node, leaf first) on the subtree at i. -/
theorem eraseGo_spec (rm : Int) (stored : Nat) (hrm : 0 ≤ rm) :
    ∀ h nodes i p, GoodAt nodes h i → (tlist nodes h i).Nodup →
      erasePath nodes stored h i = some p →
      rm ≤ (nd nodes (p.getLastD 0)).terminal_count →
      EraseOut rm stored h nodes
        (p.foldr (fun j ns => decSub rm ns j)
          (updN nodes (p.getLastD 0)
            (fun n => { n with terminal_count := n.terminal_count - rm }))) i := by
  intro h
  induction h with
  | zero =>
      intro nodes i p hg hnd hp hterm
      rw [erasePath] at hp
      obtain rfl : [i] = p := by cases hp; rfl
      have hleaf : ([i] : List Nat).getLastD 0 = i := rfl
      rw [hleaf] at hterm ⊢
      simp only [List.foldr_cons, List.foldr_nil]
      have hi : i < nodes.length := hg.1
      have hiU : i < (updN nodes i
          (fun n => { n with terminal_count := n.terminal_count - rm })).length := by
        simp [hi]
      have hNi : nd (decSub rm
          (updN nodes i (fun n => { n with terminal_count := n.terminal_count - rm })) i) i =
          { nd nodes i with
            subtree_count := (nd nodes i).subtree_count - rm,
            terminal_count := (nd nodes i).terminal_count - rm } := by
        rw [decSub, nd_updN_self hiU, nd_updN_self hi]
      have hNj : ∀ j, j ≠ i → nd (decSub rm
          (updN nodes i (fun n => { n with terminal_count := n.terminal_count - rm })) i) j =
          nd nodes j := by
        intro j hj
        rw [decSub, nd_updN_ne (fun hh => hj hh.symm), nd_updN_ne (fun hh => hj hh.symm)]
      refine ⟨by simp [decSub], ?_, ?_, ?_, ?_, ?_⟩
      · intro j hjm
        exact hNj j (by simpa [tlist] using hjm)
      · intro j
        by_cases hji : j = i
        · subst hji; rw [hNi]; exact ⟨rfl, rfl⟩
        · rw [hNj j hji]; exact ⟨rfl, rfl⟩
      · refine ⟨by simpa [decSub] using hi, ?_, ?_, ?_, ?_⟩
        · rw [hNi]; exact hg.2.1
        · rw [hNi]; exact hg.2.2.1
        · rw [hNi]
          show 0 ≤ (nd nodes i).terminal_count - rm
          omega
        · rw [hNi]
          show (nd nodes i).subtree_count - rm = (nd nodes i).terminal_count - rm
          rw [hg.2.2.2.2]
      · intro v hv
        have hv0 : v = 0 := Nat.lt_one_iff.mp (by simpa using hv)
        subst hv0
        rw [show stored % 2 ^ 0 = 0 by simp [Nat.mod_one], if_pos rfl, mfun, mfun,
          if_pos rfl, if_pos rfl, hNi]
      · rw [hNi]
  | succ h ih =>
      intro nodes i p hg hnd hp hterm
      have hd2 : (stored >>> h) &&& 1 < 2 := hb_lt_two stored h
      rw [erasePath] at hp
      cases hc : getChild (nd nodes i) ((stored >>> h) &&& 1) with
      | none => rw [hc] at hp; simp at hp
      | some c =>
          rw [hc] at hp
          simp only [Option.map_eq_some'] at hp
          obtain ⟨q, hq, rfl⟩ := hp
          have hqlen := erasePath_len nodes stored h c q hq
          have hqne : q ≠ [] := by intro h0; rw [h0] at hqlen; simp at hqlen
          have hleaf : ((i :: q) : List Nat).getLastD 0 = q.getLastD 0 :=
            getLastD_cons_of_ne_nil hqne i
          rw [hleaf] at hterm ⊢
          have hi : i < nodes.length := hg.1
          -- nodup decomposition
          have hperm := tlist_succ_perm_dir nodes hd2 h i
          rw [hc] at hperm
          simp only [tlo] at hperm
          have hndd := hperm.nodup_iff.mp hnd
          rcases List.nodup_cons.mp hndd with ⟨hi_notin, hnd_tail⟩
          rcases List.nodup_append.mp hnd_tail with ⟨hnd_c, hnd_sib, hdisj⟩
          have hi_notin_c : i ∉ tlist nodes h c :=
            fun hmem => hi_notin (List.mem_append_left _ hmem)
          have hi_notin_sib :
              i ∉ tlo nodes h (getChild (nd nodes i) (((stored >>> h) &&& 1) ^^^ 1)) :=
            fun hmem => hi_notin (List.mem_append_right _ hmem)
          have hgc : GoodAt nodes h c := goodAt_child hg hc
          have hic : i ≠ c :=
            fun hic => hi_notin_c (by rw [hic]; exact mem_tlist_self nodes h c)
          have hE := ih nodes c q hgc hnd_c hq hterm
          rw [List.foldr_cons]
          generalize hN1def : q.foldr (fun j ns => decSub rm ns j)
            (updN nodes (q.getLastD 0)
              (fun n => { n with terminal_count := n.terminal_count - rm })) = N1 at hE ⊢
          have htlN1c : tlist N1 h c = tlist nodes h c := tlist_congr_children hE.children h c
          have hN1i : nd N1 i = nd nodes i := hE.frame i hi_notin_c
          have hiN1 : i < N1.length := by rw [hE.len]; exact hi
          have hNi : nd (decSub rm N1 i) i =
              { nd nodes i with subtree_count := (nd nodes i).subtree_count - rm } := by
            rw [decSub, nd_updN_self hiN1, hN1i]
          have hNne : ∀ j, j ≠ i → nd (decSub rm N1 i) j = nd N1 j := by
            intro j hj
            rw [decSub, nd_updN_ne (fun hh => hj hh.symm)]
          have hchildren : ∀ j, (nd (decSub rm N1 i) j).child0 = (nd nodes j).child0 ∧
              (nd (decSub rm N1 i) j).child1 = (nd nodes j).child1 := by
            intro j
            have h1 := updN_children N1 i
              (f := fun n => { n with subtree_count := n.subtree_count - rm })
              (fun n => ⟨rfl, rfl⟩) j
            rw [decSub]
            exact ⟨h1.1.trans (hE.children j).1, h1.2.trans (hE.children j).2⟩
          have hgetChild : ∀ d', getChild (nd (decSub rm N1 i) i) d' =
              getChild (nd nodes i) d' :=
            getChild_of_children_eq (hchildren i).1 (hchildren i).2
          have hsibframe :
              ∀ j ∈ tlo nodes h (getChild (nd nodes i) (((stored >>> h) &&& 1) ^^^ 1)),
                nd (decSub rm N1 i) j = nd nodes j := by
            intro j hj
            have hji : j ≠ i := by rintro rfl; exact hi_notin_sib hj
            have hjc : j ∉ tlist nodes h c := fun hjc => hdisj hjc hj
            rw [hNne j hji, hE.frame j hjc]
          refine ⟨?_, ?_, hchildren, ?_, ?_, ?_⟩
          · rw [decSub]; simp [hE.len]
          · intro j hjm
            have hji : j ≠ i := by
              rintro rfl; exact hjm (mem_tlist_self nodes _ j)
            have hjc : j ∉ tlist nodes h c :=
              fun hjc => hjm (tlist_child_mem hc j hjc)
            rw [hNne j hji, hE.frame j hjc]
          · -- GoodAt
            refine goodAt_succ_of_dir hd2 (by rw [decSub]; simpa [hE.len] using hi) ?_ ?_ ?_
            · rw [hNi]; exact hg.2.1
            · rw [hgetChild, hgetChild, hc, hNi]
              have hold := goodAt_succ_dir hd2 hg
              rw [hc] at hold
              simp only [SubtreeCount] at hold ⊢
              have hNc : (nd (decSub rm N1 i) c).subtree_count =
                  (nd nodes c).subtree_count - rm := by
                rw [hNne c (fun hh => hic hh.symm), hE.sdelta]
              have hSe : SubtreeCount (decSub rm N1 i)
                    (getChild (nd nodes i) (((stored >>> h) &&& 1) ^^^ 1)) =
                  SubtreeCount nodes
                    (getChild (nd nodes i) (((stored >>> h) &&& 1) ^^^ 1)) := by
                cases hs : getChild (nd nodes i) (((stored >>> h) &&& 1) ^^^ 1) with
                | none => rfl
                | some s =>
                    simp only [SubtreeCount]
                    exact congrArg Node.subtree_count (hsibframe s
                      (by rw [hs]; simp only [tlo]; exact mem_tlist_self nodes h s))
              simp only [SubtreeCount] at hSe
              rw [hNc, hSe]
              show (nd nodes i).subtree_count - rm = _
              omega
            · intro d' c' hd' hcc
              rw [hgetChild] at hcc
              rcases dir_cases hd2 hd' with rfl | rfl
              · rw [hc] at hcc
                obtain rfl := Option.some.inj hcc
                refine goodAt_congr ?_ (by rw [decSub]; simp [hE.len]) hE.good
                intro j hj
                rw [htlN1c] at hj
                exact hNne j (by rintro rfl; exact hi_notin_c hj)
              · refine goodAt_congr ?_ (by rw [decSub]; simp [hE.len]) (goodAt_child hg hcc)
                intro j hj
                exact hsibframe j (by rw [hcc]; simp only [tlo]; exact hj)
          · -- mdelta
            intro v hv
            rw [mfun_succ, mfun_succ, hgetChild]
            have hb2 : (v >>> h) &&& 1 < 2 := hb_lt_two v h
            rcases dir_cases hd2 hb2 with hbd | hbe
            · rw [hbd, hc]
              simp only [mfo]
              have hlow : v % 2 ^ h < 2 ^ h := mod_two_pow_lt v h
              have hmc : mfun (decSub rm N1 i) h c (v % 2 ^ h) =
                  mfun N1 h c (v % 2 ^ h) := by
                refine mfun_congr ?_ _
                intro j hj
                exact hNne j (by rintro rfl; rw [htlN1c] at hj; exact hi_notin_c hj)
              rw [hmc, hE.mdelta (v % 2 ^ h) hlow]
              have hiff : (v % 2 ^ h = stored % 2 ^ h) ↔ (v = stored % 2 ^ (h + 1)) := by
                rw [eq_mod_succ_iff hv]
                exact ⟨fun hl => ⟨hbd, hl⟩, fun hh => hh.2⟩
              congr 1
              by_cases hcase : v = stored % 2 ^ (h + 1)
              · rw [if_pos hcase, if_pos (hiff.mpr hcase)]
              · rw [if_neg hcase, if_neg (fun hl => hcase (hiff.mp hl))]
            · rw [hbe]
              have hitef : ¬ v = stored % 2 ^ (h + 1) := by
                intro heq
                have := ((eq_mod_succ_iff hv).mp heq).1
                rw [hbe] at this
                exact xor_one_ne hd2 this.symm
              rw [if_neg hitef]
              cases hs : getChild (nd nodes i) (((stored >>> h) &&& 1) ^^^ 1) with
              | none => simp [mfo]
              | some s =>
                  simp only [mfo]
                  rw [sub_zero]
                  refine mfun_congr ?_ _
                  intro j hj
                  exact hsibframe j (by rw [hs]; simp only [tlo]; exact hj)
          · rw [hNi]

theorem Count_nonneg {w : Nat} {t : Trie} (hwf : WF w t) (v : Nat) :
    0 ≤ Count w t v := by
  rw [Count_eq_mfun]
  exact mfun_nonneg hwf.1 _

theorem Count_mk (w : Nat) (ns : List Node) (xm v : Nat) :
    Count w { nodes := ns, xor_mask := xm } v = mfun ns w 0 ((v ^^^ xm) % 2 ^ w) :=
  Count_eq_mfun w { nodes := ns, xor_mask := xm } v

theorem TotalCount_mk (ns : List Node) (xm : Nat) :
    TotalCount { nodes := ns, xor_mask := xm } = (nd ns 0).subtree_count := rfl

/-- Effect of Erase on a well-formed trie: WF is preserved, Count(v) and
TotalCount drop by min(count, Count(v)). -/
theorem Erase_WF {w : Nat} {t : Trie} (hwf : WF w t) {v : Nat} (hv : v < 2 ^ w)
    {c : Int} (hc : 0 ≤ c) :
    WF w (Erase w t v c) ∧
    Count w (Erase w t v c) v = Count w t v - min c (Count w t v) ∧
    TotalCount (Erase w t v c) = TotalCount t - min c (Count w t v) ∧
    (Erase w t v c).xor_mask = t.xor_mask := by
  have hCnn : 0 ≤ Count w t v := Count_nonneg hwf v
  by_cases hc0 : c = 0
  · subst hc0
    have hmin : min (0 : Int) (Count w t v) = 0 := min_eq_left hCnn
    have hid : Erase w t v 0 = t := by rw [Erase, if_pos rfl]
    rw [hid, hmin]
    exact ⟨hwf, by ring, by ring, rfl⟩
  · cases hep : erasePath t.nodes (ToStored w t.xor_mask v) w 0 with
    | none =>
        have hid : Erase w t v c = t := by
          simp only [Erase, hep, if_neg hc0]
        have hfn : findNode t.nodes (ToStored w t.xor_mask v) w 0 = none := by
          rw [findNode_eq_erasePath, hep]; rfl
        have hCz : Count w t v = 0 := by rw [Count, hfn]
        have hmin : min c (Count w t v) = 0 := by rw [hCz]; exact min_eq_right hc
        rw [hid, hmin]
        exact ⟨hwf, by ring, by ring, rfl⟩
    | some p =>
        have hfn : findNode t.nodes (ToStored w t.xor_mask v) w 0 =
            some (p.getLastD 0) := by
          rw [findNode_eq_erasePath, hep]; rfl
        have hCeq : Count w t v = (nd t.nodes (p.getLastD 0)).terminal_count := by
          rw [Count, hfn]
        by_cases hrm0 : min c (nd t.nodes (p.getLastD 0)).terminal_count = 0
        · have hid : Erase w t v c = t := by
            simp only [Erase, hep, if_neg hc0, if_pos hrm0]
          have hmin : min c (Count w t v) = 0 := by rw [hCeq]; exact hrm0
          rw [hid, hmin]
          exact ⟨hwf, by ring, by ring, rfl⟩
        · have hrmnn : 0 ≤ min c (nd t.nodes (p.getLastD 0)).terminal_count :=
            le_min hc (hCeq ▸ hCnn)
          have spec := eraseGo_spec (min c (nd t.nodes (p.getLastD 0)).terminal_count)
            (ToStored w t.xor_mask v) hrmnn w t.nodes 0 p hwf.1 hwf.2.1 hep
            (min_le_right _ _)
          have htle := tlist_congr_children spec.children
          simp only [Erase, hep, if_neg hc0, if_neg hrm0]
          refine ⟨⟨spec.good, ?_, ?_, hwf.2.2.2⟩, ?_, ?_, trivial⟩
          · rw [htle]; exact hwf.2.1
          · intro j hj
            rw [htle]
            refine hwf.2.2.1 j ?_
            rw [← spec.len]
            exact hj
          · rw [Count_mk, Count_eq_mfun]
            have hlt : (v ^^^ t.xor_mask) % 2 ^ w < 2 ^ w := mod_two_pow_lt _ w
            rw [spec.mdelta ((v ^^^ t.xor_mask) % 2 ^ w) hlt,
              if_pos (by rw [ToStored_eq_mod, mod_mod_pow]),
              hCeq.symm.trans (Count_eq_mfun w t v)]
          · rw [TotalCount_mk, spec.sdelta, hCeq]
            rfl

/-- The freshly constructed trie is well-formed. -/
theorem nd_empty : nd emptyTrie.nodes 0 = {} := rfl

theorem WF_empty (w : Nat) : WF w emptyTrie := by
  refine ⟨goodAt_fresh (by simp [emptyTrie]) nd_empty w, ?_, ?_, ?_⟩
  · rw [tlist_fresh nd_empty w]
    simp
  · intro j hj
    rw [tlist_fresh nd_empty w]
    have hj0 : j = 0 := by simp [emptyTrie] at hj; omega
    simp [hj0]
  · show 0 < 2 ^ w
    exact Nat.two_pow_pos w

/-- Every reachable state is well-formed. -/
theorem Reachable.wf {w : Nat} {t : Trie} (hr : Reachable w t) : WF w t := by
  induction hr with
  | empty => exact WF_empty w
  | insert hr hv hc ih => exact (Insert_WF ih hv hc).1
  | erase hr hv hc ih => exact (Erase_WF ih hv hc).1
  | @xorAll t m hr ih =>
      refine ⟨ih.1, ih.2.1, ih.2.2.1, ?_⟩
      show t.xor_mask ^^^ (m &&& BitMask w) < 2 ^ w
      rw [mask_eq_mod]
      exact Nat.xor_lt_two_pow ih.2.2.2 (mod_two_pow_lt m w)

/-! ### Per-node extraction of the invariants -/

theorem goodAt_nodeOk {nodes : List Node} {h i : Nat} (hg : GoodAt nodes h i) :
    ∀ j ∈ tlist nodes h i,
      (nd nodes j).subtree_count = (nd nodes j).terminal_count +
        SubtreeCount nodes (nd nodes j).child0 +
        SubtreeCount nodes (nd nodes j).child1 := by
  induction h generalizing i with
  | zero =>
      intro j hj
      have hji : j = i := by simpa [tlist] using hj
      subst hji
      rw [hg.2.1, hg.2.2.1, hg.2.2.2.2]
      simp [SubtreeCount]
  | succ h ih =>
      intro j hj
      rw [tlist_succ] at hj
      rcases List.mem_cons.mp hj with rfl | hj
      · rw [hg.2.1, hg.2.2.1]
        ring
      · rcases List.mem_append.mp hj with hj | hj
        · cases hc : (nd nodes i).child0 with
          | none => rw [hc] at hj; simp [tlo] at hj
          | some c =>
              rw [hc] at hj; simp only [tlo] at hj
              exact ih (hg.2.2.2.1 c hc) j hj
        · cases hc : (nd nodes i).child1 with
          | none => rw [hc] at hj; simp [tlo] at hj
          | some c =>
              rw [hc] at hj; simp only [tlo] at hj
              exact ih (hg.2.2.2.2 c hc) j hj

theorem goodAt_nonnegOk {nodes : List Node} {h i : Nat} (hg : GoodAt nodes h i) :
    ∀ j ∈ tlist nodes h i,
      0 ≤ (nd nodes j).subtree_count ∧ 0 ≤ (nd nodes j).terminal_count := by
  induction h generalizing i with
  | zero =>
      intro j hj
      have hji : j = i := by simpa [tlist] using hj
      subst hji
      exact ⟨goodAt_sub_nonneg hg, hg.2.2.2.1⟩
  | succ h ih =>
      intro j hj
      rw [tlist_succ] at hj
      rcases List.mem_cons.mp hj with rfl | hj
      · exact ⟨goodAt_sub_nonneg hg, le_of_eq hg.2.1.symm⟩
      · rcases List.mem_append.mp hj with hj | hj
        · cases hc : (nd nodes i).child0 with
          | none => rw [hc] at hj; simp [tlo] at hj
          | some c =>
              rw [hc] at hj; simp only [tlo] at hj
              exact ih (hg.2.2.2.1 c hc) j hj
        · cases hc : (nd nodes i).child1 with
          | none => rw [hc] at hj; simp [tlo] at hj
          | some c =>
              rw [hc] at hj; simp only [tlo] at hj
              exact ih (hg.2.2.2.2 c hc) j hj

/-- C3: in every reachable trie state (every finite sequence of Insert,
Erase and XorAll calls obeying the asserted preconditions, from the empty
trie), every node of the arena satisfies
subtree_count = terminal_count + subtree_count(child0) + subtree_count(child1),
an absent child contributing 0. -/
theorem C3_subtree_count_invariant {w : Nat} {t : Trie} (hr : Reachable w t) :
    ∀ j, j < t.nodes.length →
      (nd t.nodes j).subtree_count = (nd t.nodes j).terminal_count +
        SubtreeCount t.nodes (nd t.nodes j).child0 +
        SubtreeCount t.nodes (nd t.nodes j).child1 := by
  intro j hj
  have hwf := hr.wf
  exact goodAt_nodeOk hwf.1 j (hwf.2.2.1 j hj)

/-- C3 witness: the invariant holds concretely after Insert(5,2); Insert(3,1);
XorAll(6); Erase(5,1) on a 3-bit trie. -/
theorem C3_witness :
    Reachable 3 (Erase 3 (XorAll 3 (Insert 3 (Insert 3 emptyTrie 5 2) 3 1) 6) 5 1) ∧
    (∀ j, j < (Erase 3 (XorAll 3 (Insert 3 (Insert 3 emptyTrie 5 2) 3 1) 6) 5 1).nodes.length →
      (nd (Erase 3 (XorAll 3 (Insert 3 (Insert 3 emptyTrie 5 2) 3 1) 6) 5 1).nodes j).subtree_count =
        (nd (Erase 3 (XorAll 3 (Insert 3 (Insert 3 emptyTrie 5 2) 3 1) 6) 5 1).nodes j).terminal_count +
        SubtreeCount (Erase 3 (XorAll 3 (Insert 3 (Insert 3 emptyTrie 5 2) 3 1) 6) 5 1).nodes
          (nd (Erase 3 (XorAll 3 (Insert 3 (Insert 3 emptyTrie 5 2) 3 1) 6) 5 1).nodes j).child0 +
        SubtreeCount (Erase 3 (XorAll 3 (Insert 3 (Insert 3 emptyTrie 5 2) 3 1) 6) 5 1).nodes
          (nd (Erase 3 (XorAll 3 (Insert 3 (Insert 3 emptyTrie 5 2) 3 1) 6) 5 1).nodes j).child1) := by
  have hR : Reachable 3 (Erase 3 (XorAll 3 (Insert 3 (Insert 3 emptyTrie 5 2) 3 1) 6) 5 1) :=
    Reachable.erase (Reachable.xorAll (Reachable.insert
      (Reachable.insert Reachable.empty (by decide) (by decide))
      (by decide) (by decide))) (by decide) (by decide)
  exact ⟨hR, C3_subtree_count_invariant hR⟩

/-- C10: starting from the empty trie, along every sequence of calls whose
count arguments are nonnegative and whose value arguments fit the bit width,
every node's subtree_count and terminal_count stay nonnegative, and
TotalCount() is never negative. -/
theorem C10_counters_never_negative {w : Nat} {t : Trie} (hr : Reachable w t) :
    (∀ j, j < t.nodes.length →
      0 ≤ (nd t.nodes j).subtree_count ∧ 0 ≤ (nd t.nodes j).terminal_count) ∧
    0 ≤ TotalCount t := by
  have hwf := hr.wf
  refine ⟨fun j hj => goodAt_nonnegOk hwf.1 j (hwf.2.2.1 j hj), ?_⟩
  exact goodAt_sub_nonneg hwf.1

/-- C10 witness: counters stay nonnegative after over-erasing (Erase(5,7)
against multiplicity 2). -/
theorem C10_witness :
    Reachable 3 (Erase 3 (Insert 3 emptyTrie 5 2) 5 7) ∧
    ((∀ j, j < (Erase 3 (Insert 3 emptyTrie 5 2) 5 7).nodes.length →
      0 ≤ (nd (Erase 3 (Insert 3 emptyTrie 5 2) 5 7).nodes j).subtree_count ∧
      0 ≤ (nd (Erase 3 (Insert 3 emptyTrie 5 2) 5 7).nodes j).terminal_count) ∧
    0 ≤ TotalCount (Erase 3 (Insert 3 emptyTrie 5 2) 5 7)) := by
  have hR : Reachable 3 (Erase 3 (Insert 3 emptyTrie 5 2) 5 7) :=
    Reachable.erase (Reachable.insert Reachable.empty (by decide) (by decide))
      (by decide) (by decide)
  exact ⟨hR, C10_counters_never_negative hR⟩

/-- C6: on a reachable state, Erase(v, c) with c >= 0 and v within the bit
width decreases Count(v) and TotalCount() by exactly min(c, Count(v));
and when c = 0, when the stored bit-path of v does not fully exist
(findNode returns none), or when the terminal count at the path's end is 0,
the entire structure is left unchanged. -/
theorem C6_erase_clamps_to_min {w : Nat} {t : Trie} (hr : Reachable w t)
    {v : Nat} (hv : v < 2 ^ w) {c : Int} (hc : 0 ≤ c) :
    Count w (Erase w t v c) v = Count w t v - min c (Count w t v) ∧
    TotalCount (Erase w t v c) = TotalCount t - min c (Count w t v) ∧
    (c = 0 → Erase w t v c = t) ∧
    (findNode t.nodes (ToStored w t.xor_mask v) w 0 = none → Erase w t v c = t) ∧
    (∀ leaf, findNode t.nodes (ToStored w t.xor_mask v) w 0 = some leaf →
      (nd t.nodes leaf).terminal_count = 0 → Erase w t v c = t) := by
  have hE := Erase_WF hr.wf hv hc
  refine ⟨hE.2.1, hE.2.2.1, ?_, ?_, ?_⟩
  · rintro rfl
    rw [Erase, if_pos rfl]
  · intro hfn
    by_cases hc0 : c = 0
    · subst hc0; rw [Erase, if_pos rfl]
    · have hep : erasePath t.nodes (ToStored w t.xor_mask v) w 0 = none := by
        cases herp : erasePath t.nodes (ToStored w t.xor_mask v) w 0 with
        | none => rfl
        | some p =>
            rw [findNode_eq_erasePath, herp] at hfn
            simp at hfn
      simp only [Erase, hep, if_neg hc0]
  · intro leaf hfn hterm0
    by_cases hc0 : c = 0
    · subst hc0; rw [Erase, if_pos rfl]
    · cases herp : erasePath t.nodes (ToStored w t.xor_mask v) w 0 with
      | none => simp only [Erase, herp, if_neg hc0]
      | some p =>
          rw [findNode_eq_erasePath, herp] at hfn
          obtain rfl : p.getLastD 0 = leaf := Option.some.inj hfn
          have hmin : min c (nd t.nodes (p.getLastD 0)).terminal_count = 0 := by
            rw [hterm0]; exact min_eq_right hc
          simp only [Erase, herp, if_neg hc0, if_pos hmin]

/-- C6 witness at w = 3, trie {5,5}, Erase(5,7). -/
theorem C6_witness :
    Reachable 3 (Insert 3 emptyTrie 5 2) ∧ (5 : Nat) < 2 ^ 3 ∧ (0 : Int) ≤ 7 ∧
    (Count 3 (Erase 3 (Insert 3 emptyTrie 5 2) 5 7) 5 =
        Count 3 (Insert 3 emptyTrie 5 2) 5 -
          min 7 (Count 3 (Insert 3 emptyTrie 5 2) 5) ∧
      TotalCount (Erase 3 (Insert 3 emptyTrie 5 2) 5 7) =
        TotalCount (Insert 3 emptyTrie 5 2) -
          min 7 (Count 3 (Insert 3 emptyTrie 5 2) 5) ∧
      ((7 : Int) = 0 → Erase 3 (Insert 3 emptyTrie 5 2) 5 7 = Insert 3 emptyTrie 5 2) ∧
      (findNode (Insert 3 emptyTrie 5 2).nodes
          (ToStored 3 (Insert 3 emptyTrie 5 2).xor_mask 5) 3 0 = none →
        Erase 3 (Insert 3 emptyTrie 5 2) 5 7 = Insert 3 emptyTrie 5 2) ∧
      (∀ leaf, findNode (Insert 3 emptyTrie 5 2).nodes
          (ToStored 3 (Insert 3 emptyTrie 5 2).xor_mask 5) 3 0 = some leaf →
        (nd (Insert 3 emptyTrie 5 2).nodes leaf).terminal_count = 0 →
        Erase 3 (Insert 3 emptyTrie 5 2) 5 7 = Insert 3 emptyTrie 5 2)) := by
  have hR : Reachable 3 (Insert 3 emptyTrie 5 2) :=
    Reachable.insert Reachable.empty (by decide) (by decide)
  exact ⟨hR, by decide, by decide, C6_erase_clamps_to_min hR (by decide) (by decide)⟩

/-- C7: round-trip — on a reachable state, Insert(v, c) followed by
Erase(v, c) restores Count(v) and leaves TotalCount() unchanged. -/
theorem C7_insert_erase_roundtrip {w : Nat} {t : Trie} (hr : Reachable w t)
    {v : Nat} (hv : v < 2 ^ w) {c : Int} (hc : 0 ≤ c) :
    Count w (Erase w (Insert w t v c) v c) v = Count w t v ∧
    TotalCount (Erase w (Insert w t v c) v c) = TotalCount t := by
  have hI := Insert_WF hr.wf hv hc
  have hCv : Count w (Insert w t v c) v = Count w t v + c := by
    rw [hI.2.1 v hv, if_pos rfl]
  have hE := Erase_WF hI.1 hv hc
  have hCnn : 0 ≤ Count w t v := Count_nonneg hr.wf v
  have hmin : min c (Count w (Insert w t v c) v) = c := by
    rw [hCv]
    exact min_eq_left (by omega)
  constructor
  · rw [hE.2.1, hmin, hCv]
    ring
  · rw [hE.2.2.1, hmin, hI.2.2.1]
    ring

/-- C7 witness at w = 3, trie {5,5}, Insert(3,4); Erase(3,4). -/
theorem C7_witness :
    Reachable 3 (Insert 3 emptyTrie 5 2) ∧ (3 : Nat) < 2 ^ 3 ∧ (0 : Int) ≤ 4 ∧
    (Count 3 (Erase 3 (Insert 3 (Insert 3 emptyTrie 5 2) 3 4) 3 4) 3 =
        Count 3 (Insert 3 emptyTrie 5 2) 3 ∧
      TotalCount (Erase 3 (Insert 3 (Insert 3 emptyTrie 5 2) 3 4) 3 4) =
        TotalCount (Insert 3 emptyTrie 5 2)) := by
  have hR : Reachable 3 (Insert 3 emptyTrie 5 2) :=
    Reachable.insert Reachable.empty (by decide) (by decide)
  exact ⟨hR, by decide, by decide, C7_insert_erase_roundtrip hR (by decide) (by decide)⟩

/-! ### Logical multiplicities: the mask-decoded view of a subtree -/

/-- Multiplicity of the logical value x (0 <= x < 2^h) in the height-h
subtree at index i, the low h bits of the mask applied. -/
def lmf (nodes : List Node) (xm h i x : Nat) : Int :=
  mfun nodes h i ((x ^^^ xm) % 2 ^ h)

theorem shiftRight_xor_distrib (a b h : Nat) :
    (a ^^^ b) >>> h = (a >>> h) ^^^ (b >>> h) := by
  apply Nat.eq_of_testBit_eq
  intro i
  simp [Nat.testBit_shiftRight, Nat.testBit_xor]

theorem hb_xor (a b h : Nat) :
    ((a ^^^ b) >>> h) &&& 1 = ((a >>> h) &&& 1) ^^^ ((b >>> h) &&& 1) := by
  rw [shiftRight_xor_distrib, Nat.and_xor_distrib_right]

theorem lmf_Count (w : Nat) (t : Trie) (x : Nat) :
    Count w t x = lmf t.nodes t.xor_mask w 0 x :=
  Count_eq_mfun w t x

theorem lmf_zero (nodes : List Node) (xm i x : Nat) :
    lmf nodes xm 0 i x = (nd nodes i).terminal_count := by
  rw [lmf, Nat.pow_zero, Nat.mod_one, mfun, if_pos rfl]

theorem lmf_succ_lo (nodes : List Node) (xm : Nat) (h i : Nat) {x : Nat}
    (hx : x < 2 ^ h) :
    lmf nodes xm (h + 1) i x =
      (match getChild (nd nodes i) (maskBit xm h) with
       | none => 0
       | some c => lmf nodes xm h c x) := by
  rw [lmf, mfun, hb_mod_pow, hb_xor, hb_of_lt hx, Nat.zero_xor, mod_pow_mod]
  rw [show (xm >>> h) &&& 1 = maskBit xm h from rfl]
  cases getChild (nd nodes i) (maskBit xm h) with
  | none => rfl
  | some c => rfl

theorem lmf_succ_hi (nodes : List Node) (xm : Nat) (h i : Nat) {x : Nat}
    (hx : x < 2 ^ h) :
    lmf nodes xm (h + 1) i (2 ^ h + x) =
      (match getChild (nd nodes i) (maskBit xm h ^^^ 1) with
       | none => 0
       | some c => lmf nodes xm h c x) := by
  rw [lmf, mfun, hb_mod_pow, hb_xor, hb_of_ge hx]
  rw [show (1 : Nat) ^^^ ((xm >>> h) &&& 1) = maskBit xm h ^^^ 1 from Nat.xor_comm 1 _]
  have hlow : ((2 ^ h + x) ^^^ xm) % 2 ^ (h + 1) % 2 ^ h = (x ^^^ xm) % 2 ^ h := by
    rw [mod_pow_mod, xor_mod_two_pow, mod_add_high hx, xor_mod_two_pow x xm,
      mod_self_lt hx]
  rw [hlow]
  cases getChild (nd nodes i) (maskBit xm h ^^^ 1) with
  | none => rfl
  | some c => rfl

theorem lmf_nonneg {nodes : List Node} {h i : Nat} (hg : GoodAt nodes h i)
    (xm x : Nat) : 0 ≤ lmf nodes xm h i x :=
  mfun_nonneg hg _

theorem maskBit_lt (xm h : Nat) : maskBit xm h < 2 := hb_lt_two xm h

/-- The subtree_count of a sound subtree equals the total logical
multiplicity it holds. -/
theorem sum_lmf {nodes : List Node} (xm : Nat) :
    ∀ h i, GoodAt nodes h i →
      ∑ x ∈ Finset.range (2 ^ h), lmf nodes xm h i x = (nd nodes i).subtree_count := by
  intro h
  induction h with
  | zero =>
      intro i hg
      rw [pow_zero, Finset.sum_range_one, lmf_zero, hg.2.2.2.2]
  | succ h ih =>
      intro i hg
      have h2 : 2 ^ (h + 1) = 2 ^ h + 2 ^ h := by rw [pow_succ]; ring
      rw [h2, Finset.sum_range_add]
      have hlo : ∑ x ∈ Finset.range (2 ^ h), lmf nodes xm (h + 1) i x =
          SubtreeCount nodes (getChild (nd nodes i) (maskBit xm h)) := by
        cases hc : getChild (nd nodes i) (maskBit xm h) with
        | none =>
            simp only [SubtreeCount]
            refine Finset.sum_eq_zero fun x hx => ?_
            rw [lmf_succ_lo nodes xm h i (Finset.mem_range.mp hx), hc]
        | some c =>
            simp only [SubtreeCount]
            rw [← ih c (goodAt_child hg hc)]
            refine Finset.sum_congr rfl fun x hx => ?_
            rw [lmf_succ_lo nodes xm h i (Finset.mem_range.mp hx), hc]
      have hhi : ∑ x ∈ Finset.range (2 ^ h), lmf nodes xm (h + 1) i (2 ^ h + x) =
          SubtreeCount nodes (getChild (nd nodes i) (maskBit xm h ^^^ 1)) := by
        cases hc : getChild (nd nodes i) (maskBit xm h ^^^ 1) with
        | none =>
            simp only [SubtreeCount]
            refine Finset.sum_eq_zero fun x hx => ?_
            rw [lmf_succ_hi nodes xm h i (Finset.mem_range.mp hx), hc]
        | some c =>
            simp only [SubtreeCount]
            rw [← ih c (goodAt_child hg hc)]
            refine Finset.sum_congr rfl fun x hx => ?_
            rw [lmf_succ_hi nodes xm h i (Finset.mem_range.mp hx), hc]
      rw [hlo, hhi, ← goodAt_succ_dir (maskBit_lt xm h) hg]

theorem sum_lmf_lo {nodes : List Node} {h i : Nat} (hg : GoodAt nodes (h + 1) i)
    (xm : Nat) :
    ∑ x ∈ Finset.range (2 ^ h), lmf nodes xm (h + 1) i x =
      SubtreeCount nodes (getChild (nd nodes i) (maskBit xm h)) := by
  cases hc : getChild (nd nodes i) (maskBit xm h) with
  | none =>
      simp only [SubtreeCount]
      refine Finset.sum_eq_zero fun x hx => ?_
      rw [lmf_succ_lo nodes xm h i (Finset.mem_range.mp hx), hc]
  | some c =>
      simp only [SubtreeCount]
      rw [← sum_lmf xm h c (goodAt_child hg hc)]
      refine Finset.sum_congr rfl fun x hx => ?_
      rw [lmf_succ_lo nodes xm h i (Finset.mem_range.mp hx), hc]

/-- The CountLess loop computes, on a sound subtree, the number of stored
logical values strictly below the low h bits of the query value, plus the
accumulator. -/
theorem countLessGo_spec (nodes : List Node) (xm value : Nat) :
    ∀ h i acc, GoodAt nodes h i →
      countLessGo nodes xm value h (some i) acc =
        acc + ∑ y ∈ Finset.range (value % 2 ^ h), lmf nodes xm h i y := by
  intro h
  induction h with
  | zero =>
      intro i acc hg
      rw [countLessGo, Nat.pow_zero, Nat.mod_one]
      simp
  | succ h ih =>
      intro i acc hg
      rw [countLessGo]
      have hsplit := mod_pow_split value h
      by_cases hb : (value >>> h) &&& 1 = 1
      · rw [if_pos hb]
        rw [hb] at hsplit
        rw [hsplit, mul_one, Finset.sum_range_add]
        have hlo := sum_lmf_lo hg xm
        have hhi : ∀ y, y < value % 2 ^ h →
            lmf nodes xm (h + 1) i (2 ^ h + y) =
              (match getChild (nd nodes i) (maskBit xm h ^^^ 1) with
               | none => 0
               | some c => lmf nodes xm h c y) := by
          intro y hy
          exact lmf_succ_hi nodes xm h i (lt_trans hy (mod_two_pow_lt value h))
        cases hc : getChild (nd nodes i) (maskBit xm h ^^^ 1) with
        | none =>
            rw [countLessGo]
            have : ∑ y ∈ Finset.range (value % 2 ^ h),
                lmf nodes xm (h + 1) i (2 ^ h + y) = 0 := by
              refine Finset.sum_eq_zero fun y hy => ?_
              rw [hhi y (Finset.mem_range.mp hy), hc]
            rw [this, hlo]
            ring
        | some oc =>
            rw [ih oc _ (goodAt_child hg hc)]
            have : ∑ y ∈ Finset.range (value % 2 ^ h),
                lmf nodes xm (h + 1) i (2 ^ h + y) =
                ∑ y ∈ Finset.range (value % 2 ^ h), lmf nodes xm h oc y := by
              refine Finset.sum_congr rfl fun y hy => ?_
              rw [hhi y (Finset.mem_range.mp hy), hc]
            rw [this, hlo]
            ring
      · have hb0 : (value >>> h) &&& 1 = 0 := by
          have := hb_lt_two value h
          omega
        rw [if_neg hb]
        rw [hb0] at hsplit
        rw [hsplit, mul_zero, zero_add]
        have hlo' : ∀ y, y < value % 2 ^ h →
            lmf nodes xm (h + 1) i y =
              (match getChild (nd nodes i) (maskBit xm h) with
               | none => 0
               | some c => lmf nodes xm h c y) := by
          intro y hy
          exact lmf_succ_lo nodes xm h i (lt_trans hy (mod_two_pow_lt value h))
        cases hc : getChild (nd nodes i) (maskBit xm h) with
        | none =>
            rw [countLessGo]
            have : ∑ y ∈ Finset.range (value % 2 ^ h),
                lmf nodes xm (h + 1) i y = 0 := by
              refine Finset.sum_eq_zero fun y hy => ?_
              rw [hlo' y (Finset.mem_range.mp hy), hc]
            rw [this]
            ring
        | some zc =>
            rw [ih zc _ (goodAt_child hg hc)]
            congr 1
            refine Finset.sum_congr rfl fun y hy => ?_
            rw [hlo' y (Finset.mem_range.mp hy), hc]

/-- CountLess computes the number of stored values strictly below the query
value. -/
theorem CountLess_correct {w : Nat} {t : Trie} (hwf : WF w t) {v : Nat}
    (hv : v < 2 ^ w) :
    CountLess w t v = ∑ y ∈ Finset.range v, Count w t y := by
  rw [CountLess, countLessGo_spec t.nodes t.xor_mask v w 0 0 hwf.1, mod_self_lt hv,
    zero_add]
  exact Finset.sum_congr rfl fun y _ => (lmf_Count w t y).symm

theorem xor_mod_add_high {x xm h : Nat} (hx : x < 2 ^ h) :
    ((2 ^ h + x) ^^^ xm) % 2 ^ h = (x ^^^ xm) % 2 ^ h := by
  rw [xor_mod_two_pow, mod_add_high hx, xor_mod_two_pow x xm, mod_self_lt hx]

/-- The stored-bit accumulator of the Kth descent factors out as an OR. -/
theorem kthGo_acc (nodes : List Node) (xm : Nat) :
    ∀ h i stored r, kthGo nodes xm h i stored r =
      (kthGo nodes xm h i 0 r).map (fun s => stored ||| s) := by
  intro h
  induction h with
  | zero =>
      intro i stored r
      rw [kthGo, kthGo]
      simp
  | succ h ih =>
      intro i stored r
      by_cases hlt : r < (SubtreeCount nodes (getChild (nd nodes i) (maskBit xm h))).toNat
      · simp only [kthGo, if_pos hlt]
        rw [ih _ (if maskBit xm h = 1 then stored ||| 1 <<< h else stored) r,
          ih _ (if maskBit xm h = 1 then 0 ||| 1 <<< h else 0) r, Option.map_map]
        congr 1
        funext s
        by_cases hmb : maskBit xm h = 1 <;> simp [hmb, Nat.or_assoc]
      · cases hc : getChild (nd nodes i) (maskBit xm h ^^^ 1) with
        | none => simp only [kthGo, if_neg hlt, hc]; rfl
        | some oc =>
            by_cases hso : (nd nodes oc).subtree_count ≤ 0
            · simp only [kthGo, if_neg hlt, hc, if_pos hso]; rfl
            · simp only [kthGo, if_neg hlt, hc, if_neg hso]
              rw [ih _ (if maskBit xm h ^^^ 1 = 1 then stored ||| 1 <<< h else stored) _,
                ih _ (if maskBit xm h ^^^ 1 = 1 then 0 ||| 1 <<< h else 0) _,
                Option.map_map]
              congr 1
              funext s
              by_cases hmb : maskBit xm h ^^^ 1 = 1 <;> simp [hmb, Nat.or_assoc]

/-- Rank correctness of the Kth descent on a sound subtree: for
0 <= r < subtree_count, the returned stored value decodes to the logical
value whose rank interval contains r. -/
theorem kthGo_spec (nodes : List Node) (xm : Nat) :
    ∀ h i, GoodAt nodes h i → ∀ r : Nat, (r : Int) < (nd nodes i).subtree_count →
      ∃ s, s < 2 ^ h ∧ kthGo nodes xm h i 0 r = some s ∧
        (∑ y ∈ Finset.range ((s ^^^ xm) % 2 ^ h), lmf nodes xm h i y) ≤ (r : Int) ∧
        (r : Int) < (∑ y ∈ Finset.range ((s ^^^ xm) % 2 ^ h), lmf nodes xm h i y) +
          lmf nodes xm h i ((s ^^^ xm) % 2 ^ h) := by
  intro h
  induction h with
  | zero =>
      intro i hg r hr
      refine ⟨0, by norm_num, by rw [kthGo], ?_, ?_⟩
      · rw [Nat.pow_zero, Nat.mod_one]
        simp
      · rw [Nat.pow_zero, Nat.mod_one, lmf_zero]
        simp only [Finset.range_zero, Finset.sum_empty, zero_add]
        rw [← hg.2.2.2.2]
        exact hr
  | succ h ih =>
      intro i hg r hr
      have hmb2 := maskBit_lt xm h
      have hsplit := goodAt_succ_dir hmb2 hg
      have hS0nn : 0 ≤ SubtreeCount nodes (getChild (nd nodes i) (maskBit xm h)) := by
        cases hzc : getChild (nd nodes i) (maskBit xm h) with
        | none => rw [SubtreeCount]
        | some z => exact goodAt_sub_nonneg (goodAt_child hg hzc)
      by_cases hlt : r < (SubtreeCount nodes (getChild (nd nodes i) (maskBit xm h))).toNat
      · obtain ⟨z, hzc⟩ : ∃ z, getChild (nd nodes i) (maskBit xm h) = some z := by
          cases hzc : getChild (nd nodes i) (maskBit xm h) with
          | none => rw [hzc, SubtreeCount] at hlt; simp at hlt
          | some z => exact ⟨z, rfl⟩
        have hgz : GoodAt nodes h z := goodAt_child hg hzc
        have hrz : (r : Int) < (nd nodes z).subtree_count := by
          rw [hzc] at hlt
          simp only [SubtreeCount] at hlt
          have h1 := Int.toNat_of_nonneg (goodAt_sub_nonneg hgz)
          omega
        obtain ⟨s', hs'lt, hs'eq, hlb, hub⟩ := ih z hgz r hrz
        have hrun : kthGo nodes xm (h + 1) i 0 r =
            some (if maskBit xm h = 1 then 2 ^ h + s' else s') := by
          simp only [kthGo]
          rw [if_pos hlt, hzc]
          simp only [Option.getD_some]
          rw [kthGo_acc nodes xm h z _ r, hs'eq]
          by_cases hmb : maskBit xm h = 1 <;>
            simp [hmb, Nat.one_shiftLeft, two_pow_or_eq_add hs'lt]
        have hdec : ((if maskBit xm h = 1 then 2 ^ h + s' else s') ^^^ xm) %
            2 ^ (h + 1) = (s' ^^^ xm) % 2 ^ h := by
          by_cases hmb : maskBit xm h = 1
          · rw [if_pos hmb, mod_pow_split, hb_xor, hb_of_ge hs'lt,
              show (xm >>> h) &&& 1 = maskBit xm h from rfl, hmb,
              xor_mod_add_high hs'lt]
            simp
          · have hmb0 : maskBit xm h = 0 := by omega
            rw [if_neg hmb, mod_pow_split, hb_xor, hb_of_lt hs'lt,
              show (xm >>> h) &&& 1 = maskBit xm h from rfl, hmb0]
            simp
        refine ⟨(if maskBit xm h = 1 then 2 ^ h + s' else s'), ?_, hrun, ?_, ?_⟩
        · by_cases hmb : maskBit xm h = 1 <;> simp [hmb]
          · have : (2 : Nat) ^ (h + 1) = 2 ^ h + 2 ^ h := by rw [pow_succ]; ring
            omega
          · calc s' < 2 ^ h := hs'lt
            _ ≤ 2 ^ (h + 1) := Nat.pow_le_pow_right (by norm_num) (Nat.le_succ h)
        · rw [hdec]
          have hsum : ∑ y ∈ Finset.range ((s' ^^^ xm) % 2 ^ h),
              lmf nodes xm (h + 1) i y =
              ∑ y ∈ Finset.range ((s' ^^^ xm) % 2 ^ h), lmf nodes xm h z y := by
            refine Finset.sum_congr rfl fun y hy => ?_
            have hy' : y < 2 ^ h :=
              lt_trans (Finset.mem_range.mp hy) (mod_two_pow_lt _ h)
            rw [lmf_succ_lo nodes xm h i hy', hzc]
          rw [hsum]
          exact hlb
        · rw [hdec]
          have hsum : ∑ y ∈ Finset.range ((s' ^^^ xm) % 2 ^ h),
              lmf nodes xm (h + 1) i y =
              ∑ y ∈ Finset.range ((s' ^^^ xm) % 2 ^ h), lmf nodes xm h z y := by
            refine Finset.sum_congr rfl fun y hy => ?_
            have hy' : y < 2 ^ h :=
              lt_trans (Finset.mem_range.mp hy) (mod_two_pow_lt _ h)
            rw [lmf_succ_lo nodes xm h i hy', hzc]
          rw [hsum, lmf_succ_lo nodes xm h i (mod_two_pow_lt _ h), hzc]
          exact hub
      · -- descend into the logical one-child
        have hS0le : SubtreeCount nodes (getChild (nd nodes i) (maskBit xm h)) ≤
            (r : Int) := by
          have h1 := Int.toNat_of_nonneg hS0nn
          omega
        obtain ⟨oc, hoc⟩ : ∃ oc,
            getChild (nd nodes i) (maskBit xm h ^^^ 1) = some oc := by
          cases hoc : getChild (nd nodes i) (maskBit xm h ^^^ 1) with
          | none =>
              rw [hoc, SubtreeCount] at hsplit
              omega
          | some oc => exact ⟨oc, rfl⟩
        have hgoc : GoodAt nodes h oc := goodAt_child hg hoc
        have hS1 : SubtreeCount nodes (getChild (nd nodes i) (maskBit xm h ^^^ 1)) =
            (nd nodes oc).subtree_count := by rw [hoc, SubtreeCount]
        have hocpos : 0 < (nd nodes oc).subtree_count := by omega
        have hrcast : ((r - (SubtreeCount nodes
            (getChild (nd nodes i) (maskBit xm h))).toNat : Nat) : Int) =
            (r : Int) - SubtreeCount nodes (getChild (nd nodes i) (maskBit xm h)) := by
          have h1 := Int.toNat_of_nonneg hS0nn
          omega
        have hroc : (((r - (SubtreeCount nodes
            (getChild (nd nodes i) (maskBit xm h))).toNat : Nat)) : Int) <
            (nd nodes oc).subtree_count := by
          rw [hrcast]; omega
        obtain ⟨s', hs'lt, hs'eq, hlb, hub⟩ := ih oc hgoc _ hroc
        have hrun : kthGo nodes xm (h + 1) i 0 r =
            some (if maskBit xm h = 1 then s' else 2 ^ h + s') := by
          simp only [kthGo]
          rw [if_neg hlt, hoc]
          simp only [if_neg (not_le.mpr hocpos)]
          rw [kthGo_acc nodes xm h oc _ _, hs'eq]
          by_cases hmb : maskBit xm h = 1
          · have : maskBit xm h ^^^ 1 = 0 := by rw [hmb]; decide
            simp [hmb, this]
          · have hmb0 : maskBit xm h = 0 := by omega
            have : maskBit xm h ^^^ 1 = 1 := by rw [hmb0]; decide
            simp [hmb, this, Nat.one_shiftLeft, two_pow_or_eq_add hs'lt]
        have hdec : ((if maskBit xm h = 1 then s' else 2 ^ h + s') ^^^ xm) %
            2 ^ (h + 1) = 2 ^ h + (s' ^^^ xm) % 2 ^ h := by
          by_cases hmb : maskBit xm h = 1
          · rw [if_pos hmb, mod_pow_split, hb_xor, hb_of_lt hs'lt,
              show (xm >>> h) &&& 1 = maskBit xm h from rfl, hmb]
            simp
          · have hmb0 : maskBit xm h = 0 := by omega
            rw [if_neg hmb, mod_pow_split, hb_xor, hb_of_ge hs'lt,
              show (xm >>> h) &&& 1 = maskBit xm h from rfl, hmb0,
              xor_mod_add_high hs'lt]
            simp
        have hsumsplit : ∑ y ∈ Finset.range (2 ^ h + (s' ^^^ xm) % 2 ^ h),
            lmf nodes xm (h + 1) i y =
            SubtreeCount nodes (getChild (nd nodes i) (maskBit xm h)) +
              ∑ y ∈ Finset.range ((s' ^^^ xm) % 2 ^ h), lmf nodes xm h oc y := by
          rw [Finset.sum_range_add, sum_lmf_lo hg xm]
          congr 1
          refine Finset.sum_congr rfl fun y hy => ?_
          have hy' : y < 2 ^ h :=
            lt_trans (Finset.mem_range.mp hy) (mod_two_pow_lt _ h)
          rw [lmf_succ_hi nodes xm h i hy', hoc]
        refine ⟨(if maskBit xm h = 1 then s' else 2 ^ h + s'), ?_, hrun, ?_, ?_⟩
        · by_cases hmb : maskBit xm h = 1 <;> simp [hmb]
          · calc s' < 2 ^ h := hs'lt
            _ ≤ 2 ^ (h + 1) := Nat.pow_le_pow_right (by norm_num) (Nat.le_succ h)
          · have : (2 : Nat) ^ (h + 1) = 2 ^ h + 2 ^ h := by rw [pow_succ]; ring
            omega
        · rw [hdec, hsumsplit]
          rw [hrcast] at hlb
          omega
        · rw [hdec, hsumsplit, lmf_succ_hi nodes xm h i (mod_two_pow_lt _ h), hoc]
          rw [hrcast] at hub
          show (r : Int) <
              SubtreeCount nodes (getChild (nd nodes i) (maskBit xm h)) +
              ∑ y ∈ Finset.range ((s' ^^^ xm) % 2 ^ h), lmf nodes xm h oc y +
              lmf nodes xm h oc ((s' ^^^ xm) % 2 ^ h)
          omega

/-- In range, the Kth descent lands on a value whose rank interval (start:
sum of Count below it, width: its own Count) contains k. -/
theorem Kth_some_rank {w : Nat} {t : Trie} (hwf : WF w t) {k : Int}
    (hk0 : 0 ≤ k) (hklt : k < TotalCount t) :
    ∃ x, x < 2 ^ w ∧ Kth w t k = some x ∧
      (∑ y ∈ Finset.range x, Count w t y) ≤ k ∧
      k < (∑ y ∈ Finset.range x, Count w t y) + Count w t x := by
  have hrt : ((k.toNat : Nat) : Int) < (nd t.nodes 0).subtree_count := by
    rw [Int.toNat_of_nonneg hk0]; exact hklt
  obtain ⟨s, hslt, hseq, hlb, hub⟩ :=
    kthGo_spec t.nodes t.xor_mask w 0 hwf.1 k.toNat hrt
  have hsx : s ^^^ t.xor_mask < 2 ^ w := Nat.xor_lt_two_pow hslt hwf.2.2.2
  have hmod : (s ^^^ t.xor_mask) % 2 ^ w = s ^^^ t.xor_mask := Nat.mod_eq_of_lt hsx
  rw [hmod] at hlb hub
  have hcnt : ∀ y, Count w t y = lmf t.nodes t.xor_mask w 0 y :=
    fun y => lmf_Count w t y
  have hktn : ((k.toNat : Nat) : Int) = k := Int.toNat_of_nonneg hk0
  have hsums : (∑ y ∈ Finset.range (s ^^^ t.xor_mask), Count w t y) =
      ∑ y ∈ Finset.range (s ^^^ t.xor_mask), lmf t.nodes t.xor_mask w 0 y :=
    Finset.sum_congr rfl fun y _ => hcnt y
  refine ⟨s ^^^ t.xor_mask, hsx, ?_, ?_, ?_⟩
  · have hnneg : ¬ k < 0 := not_lt.mpr hk0
    have htpos : ¬ TotalCount t ≤ 0 := by omega
    have hlt2 : ¬ (TotalCount t).toNat ≤ k.toNat := by omega
    simp only [Kth, if_neg hnneg, if_neg htpos, if_neg hlt2]
    rw [hseq]
    show some (ToActual w t.xor_mask s) = _
    rw [ToActual, mask_eq_mod, hmod]
  · rw [hsums, ← hktn]; exact hlb
  · rw [hsums, hcnt, ← hktn]; exact hub

/-- Out of range, Kth returns none. -/
theorem Kth_out_of_range {w : Nat} (t : Trie) {k : Int}
    (hout : k < 0 ∨ TotalCount t ≤ k) : Kth w t k = none := by
  by_cases hneg : k < 0
  · simp only [Kth, if_pos hneg]
  · have hge : TotalCount t ≤ k := by tauto
    simp only [Kth, if_neg hneg]
    by_cases htot : TotalCount t ≤ 0
    · rw [if_pos htot]
    · rw [if_neg htot]
      have h2 : (TotalCount t).toNat ≤ k.toNat := by omega
      rw [if_pos h2]

/-- The prefix sums of Count are strictly separated between distinct values:
below a larger value the sum already includes the smaller one's full count. -/
theorem sum_count_sep {w : Nat} {t : Trie} (hwf : WF w t) {a b : Nat}
    (hab : a < b) :
    (∑ y ∈ Finset.range a, Count w t y) + Count w t a ≤
      ∑ y ∈ Finset.range b, Count w t y := by
  obtain ⟨d, rfl⟩ : ∃ d, b = a + (d + 1) :=
    ⟨b - a - 1, by omega⟩
  rw [Finset.sum_range_add]
  have h0 : Count w t a ≤ ∑ j ∈ Finset.range (d + 1), Count w t (a + j) := by
    have := Finset.single_le_sum
      (f := fun j => Count w t (a + j))
      (fun j _ => Count_nonneg hwf (a + j))
      (Finset.mem_range.mpr (Nat.succ_pos d))
    simpa using this
  omega

/-- C2: on a reachable state, Kth(k) is none exactly when k is outside
[0, TotalCount()); inside the range it returns the 0-indexed k-th smallest
logical value, duplicates occupying consecutive ranks: the unique value x
whose rank interval [sum of Count over y < x, that sum + Count x) holds k. -/
theorem C2_kth_selects_by_rank {w : Nat} {t : Trie} (hr : Reachable w t) (k : Int) :
    ((k < 0 ∨ TotalCount t ≤ k) → Kth w t k = none) ∧
    (0 ≤ k → k < TotalCount t →
      ∃ x, x < 2 ^ w ∧ Kth w t k = some x ∧
        (∑ y ∈ Finset.range x, Count w t y) ≤ k ∧
        k < (∑ y ∈ Finset.range x, Count w t y) + Count w t x) :=
  ⟨fun hout => Kth_out_of_range t hout,
   fun hk0 hklt => Kth_some_rank hr.wf hk0 hklt⟩

/-- C2 witness: with logical contents {1, 4, 4} on 3 bits, rank 1 selects
value 4 whose rank interval is [1, 3). -/
theorem C2_witness :
    Reachable 3 (Insert 3 (Insert 3 emptyTrie 4 2) 1 1) ∧
    (∃ x, x < 2 ^ 3 ∧ Kth 3 (Insert 3 (Insert 3 emptyTrie 4 2) 1 1) 1 = some x ∧
      (∑ y ∈ Finset.range x, Count 3 (Insert 3 (Insert 3 emptyTrie 4 2) 1 1) y) ≤ 1 ∧
      (1 : Int) < (∑ y ∈ Finset.range x,
          Count 3 (Insert 3 (Insert 3 emptyTrie 4 2) 1 1) y) +
        Count 3 (Insert 3 (Insert 3 emptyTrie 4 2) 1 1) x) := by
  have hR : Reachable 3 (Insert 3 (Insert 3 emptyTrie 4 2) 1 1) :=
    Reachable.insert (Reachable.insert Reachable.empty (by decide) (by decide))
      (by decide) (by decide)
  exact ⟨hR, (C2_kth_selects_by_rank hR 1).2 (by decide) (by decide)⟩

/-- C8 counterexample: with logical contents {4, 4} on 3 bits, ranks 0 and 1
both return the value 4, so Kth is not strictly increasing in the rank. -/
theorem C8_counterexample :
    ¬ (∀ k : Int, 0 ≤ k → k + 1 < TotalCount (Insert 3 emptyTrie 4 2) →
      ∀ x y, Kth 3 (Insert 3 emptyTrie 4 2) k = some x →
        Kth 3 (Insert 3 emptyTrie 4 2) (k + 1) = some y → x < y) := by
  intro h
  exact absurd (h 0 (by decide) (by decide) 4 4 (by decide) (by decide)) (by decide)

/-- C8 (amended): on a reachable state, for consecutive in-range ranks k and
k+1, Kth(k) <= Kth(k+1) — non-decreasing, with equality exactly across a
duplicate run, so the spec's strict inequality fails there — and
CountLess(Kth(k)) is the smallest rank at which the value Kth(k) occurs: it
is at most k, Kth returns the same value at it, and at no smaller rank. -/
theorem C8_kth_order_consistency {w : Nat} {t : Trie} (hr : Reachable w t)
    {k : Int} (hk0 : 0 ≤ k) (hk1 : k + 1 < TotalCount t) {x y : Nat}
    (hx : Kth w t k = some x) (hy : Kth w t (k + 1) = some y) :
    x ≤ y ∧
    CountLess w t x ≤ k ∧ Kth w t (CountLess w t x) = some x ∧
    (∀ j : Int, 0 ≤ j → j < CountLess w t x → Kth w t j ≠ some x) := by
  have hwf := hr.wf
  have hklt : k < TotalCount t := by omega
  obtain ⟨x', hx'lt, hx'eq, hxlb, hxub⟩ := Kth_some_rank hwf hk0 hklt
  obtain rfl : x = x' := (Option.some.inj (hx'eq.symm.trans hx)).symm
  obtain ⟨y', hy'lt, hy'eq, hylb, hyub⟩ :=
    Kth_some_rank hwf (show (0:Int) ≤ k + 1 by omega) hk1
  obtain rfl : y = y' := (Option.some.inj (hy'eq.symm.trans hy)).symm
  have hCL : CountLess w t x = ∑ z ∈ Finset.range x, Count w t z :=
    CountLess_correct hwf hx'lt
  have hm0 : (0:Int) ≤ ∑ z ∈ Finset.range x, Count w t z :=
    Finset.sum_nonneg fun z _ => Count_nonneg hwf z
  refine ⟨?_, ?_, ?_, ?_⟩
  · by_contra hxy
    have hyx : y < x := by omega
    have hsep := sum_count_sep hwf hyx
    omega
  · rw [hCL]; exact hxlb
  · have hmlt : (∑ z ∈ Finset.range x, Count w t z) < TotalCount t := by omega
    obtain ⟨z, hzlt, hzeq, hzlb, hzub⟩ := Kth_some_rank hwf hm0 hmlt
    have hzx : z = x := by
      rcases Nat.lt_trichotomy z x with hlt | heq | hgt
      · have := sum_count_sep hwf hlt; omega
      · exact heq
      · have := sum_count_sep hwf hgt; omega
    rw [hCL]
    rw [hzx] at hzeq
    exact hzeq
  · intro j hj0 hjlt hcon
    rw [hCL] at hjlt
    have hjtot : j < TotalCount t := by omega
    obtain ⟨z2, hz2lt, hz2eq, hz2lb, hz2ub⟩ := Kth_some_rank hwf hj0 hjtot
    obtain rfl : x = z2 := (Option.some.inj (hz2eq.symm.trans hcon)).symm
    omega

/-- C8 witness: with contents {1, 4, 4}, ranks 0 and 1 give 1 <= 4, and
CountLess(1) = 0 is the smallest rank at which 1 occurs. -/
theorem C8_witness :
    Reachable 3 (Insert 3 (Insert 3 emptyTrie 4 2) 1 1) ∧
    Kth 3 (Insert 3 (Insert 3 emptyTrie 4 2) 1 1) 0 = some 1 ∧
    Kth 3 (Insert 3 (Insert 3 emptyTrie 4 2) 1 1) (0 + 1) = some 4 ∧
    (1 ≤ 4 ∧
     CountLess 3 (Insert 3 (Insert 3 emptyTrie 4 2) 1 1) 1 ≤ 0 ∧
     Kth 3 (Insert 3 (Insert 3 emptyTrie 4 2) 1 1)
       (CountLess 3 (Insert 3 (Insert 3 emptyTrie 4 2) 1 1) 1) = some 1 ∧
     (∀ j : Int, 0 ≤ j →
        j < CountLess 3 (Insert 3 (Insert 3 emptyTrie 4 2) 1 1) 1 →
        Kth 3 (Insert 3 (Insert 3 emptyTrie 4 2) 1 1) j ≠ some 1)) := by
  have hR : Reachable 3 (Insert 3 (Insert 3 emptyTrie 4 2) 1 1) :=
    Reachable.insert (Reachable.insert Reachable.empty (by decide) (by decide))
      (by decide) (by decide)
  have hx : Kth 3 (Insert 3 (Insert 3 emptyTrie 4 2) 1 1) 0 = some 1 := by decide
  have hy : Kth 3 (Insert 3 (Insert 3 emptyTrie 4 2) 1 1) (0 + 1) = some 4 := by
    decide
  exact ⟨hR, hx, hy,
    C8_kth_order_consistency hR (by decide) (by decide) hx hy⟩

/-- A child rejected by okChild carries no mass. -/
theorem okChild_none {nodes : List Node} {oc : Option Nat}
    (h : okChild nodes oc = none) : SubtreeCount nodes oc ≤ 0 := by
  cases oc with
  | none => rw [SubtreeCount]
  | some c =>
      rw [SubtreeCount]
      by_cases hs : (nd nodes c).subtree_count ≤ 0
      · exact hs
      · rw [okChild, if_neg hs] at h
        exact absurd h (by simp)

/-- A child accepted by okChild is present with positive count. -/
theorem okChild_some {nodes : List Node} {oc : Option Nat} {c : Nat}
    (h : okChild nodes oc = some c) :
    oc = some c ∧ 0 < (nd nodes c).subtree_count := by
  cases oc with
  | none => exact absurd h (by rw [okChild]; simp)
  | some c' =>
      rw [okChild] at h
      by_cases hs : (nd nodes c').subtree_count ≤ 0
      · rw [if_pos hs] at h
        exact absurd h (by simp)
      · rw [if_neg hs] at h
        obtain rfl := Option.some.inj h
        exact ⟨rfl, by omega⟩

/-- Total stored multiplicity of a sound subtree is its subtree_count. -/
theorem sum_mfun {nodes : List Node} (h i : Nat) (hg : GoodAt nodes h i) :
    ∑ x ∈ Finset.range (2 ^ h), mfun nodes h i x = (nd nodes i).subtree_count := by
  rw [← sum_lmf 0 h i hg]
  refine Finset.sum_congr rfl fun x hx => ?_
  rw [lmf, Nat.xor_zero, mod_self_lt (Finset.mem_range.mp hx)]


/-- Splitting an XOR against a value with an explicit top bit: the result's
top bit is the XOR of the top bits, its low part the XOR of the low parts. -/
theorem xor_top_split {h b s : Nat} (key : Nat) (hb : b < 2) (hs : s < 2 ^ h) :
    ((2 ^ h * b + s) ^^^ key) % 2 ^ (h + 1) =
      2 ^ h * (b ^^^ ((key >>> h) &&& 1)) + (s ^^^ key) % 2 ^ h := by
  rw [mod_pow_split, hb_xor]
  congr 1
  · congr 2
    interval_cases b
    · simpa using hb_of_lt hs
    · simpa using hb_of_ge hs
  · rw [xor_mod_two_pow, xor_mod_two_pow s key]
    congr 1
    interval_cases b
    · simpa using mod_self_lt hs
    · simpa using mod_add_high hs

/-- The greedy loop only ORs freshly chosen bits into its accumulator. -/
theorem findExtremeXorGo_acc (nodes : List Node) (key : Nat) (mx : Bool) :
    ∀ h i result, findExtremeXorGo nodes key mx h i result =
      (findExtremeXorGo nodes key mx h i 0).map (fun s => result ||| s) := by
  intro h
  induction h with
  | zero =>
      intro i result
      rw [findExtremeXorGo, findExtremeXorGo]
      simp
  | succ h ih =>
      intro i result
      cases hc : okChild nodes (getChild (nd nodes i)
          (((key >>> h) &&& 1) ^^^ (if mx then 1 else 0))) with
      | some c =>
          simp only [findExtremeXorGo, hc]
          rw [ih c (if ((key >>> h) &&& 1) ^^^ (if mx then 1 else 0) = 1 then
              result ||| 1 <<< h else result),
            ih c (if ((key >>> h) &&& 1) ^^^ (if mx then 1 else 0) = 1 then
              0 ||| 1 <<< h else 0), Option.map_map]
          congr 1
          funext s
          by_cases hd : (key >>> h % 2) ^^^ (if mx = true then 1 else 0) = 1 <;>
            simp [hd, Nat.or_assoc]
      | none =>
          cases hc2 : okChild nodes (getChild (nd nodes i)
              ((((key >>> h) &&& 1) ^^^ (if mx then 1 else 0)) ^^^ 1)) with
          | none => simp only [findExtremeXorGo, hc, hc2]; rfl
          | some c =>
              simp only [findExtremeXorGo, hc, hc2]
              rw [ih c (if (((key >>> h) &&& 1) ^^^ (if mx then 1 else 0)) ^^^ 1 = 1
                  then result ||| 1 <<< h else result),
                ih c (if (((key >>> h) &&& 1) ^^^ (if mx then 1 else 0)) ^^^ 1 = 1
                  then 0 ||| 1 <<< h else 0), Option.map_map]
              congr 1
              funext s
              by_cases hd : ((key >>> h % 2) ^^^ (if mx = true then 1 else 0)) ^^^ 1 = 1 <;>
                simp [hd, Nat.or_assoc]

/-- Greedy correctness of the extreme-XOR descent on a sound nonempty
subtree: it returns a stored value present in the subtree whose XOR with the
key (on the low h bits) is maximal (maximize) or minimal (otherwise) among
all stored values present. -/
theorem findExtremeXorGo_spec (nodes : List Node) (key : Nat) (mx : Bool) :
    ∀ h i, GoodAt nodes h i → 0 < (nd nodes i).subtree_count →
      ∃ s, s < 2 ^ h ∧ 0 < mfun nodes h i s ∧
        findExtremeXorGo nodes key mx h i 0 = some s ∧
        ∀ u, u < 2 ^ h → 0 < mfun nodes h i u →
          (if mx then (u ^^^ key) % 2 ^ h ≤ (s ^^^ key) % 2 ^ h
           else (s ^^^ key) % 2 ^ h ≤ (u ^^^ key) % 2 ^ h) := by
  intro h
  induction h with
  | zero =>
      intro i hg hpos
      refine ⟨0, by norm_num, ?_, by rw [findExtremeXorGo], ?_⟩
      · rw [mfun, if_pos rfl, ← hg.2.2.2.2]
        exact hpos
      · intro u hu _
        interval_cases u
        split <;> exact le_refl _
  | succ h ih =>
      intro i hg hpos
      obtain ⟨mb, hmb⟩ : ∃ m, (if mx = true then (1:Nat) else 0) = m := ⟨_, rfl⟩
      obtain ⟨kb, hkb⟩ : ∃ k', (key >>> h) &&& 1 = k' := ⟨_, rfl⟩
      have hkb2 : kb < 2 := hkb ▸ hb_lt_two key h
      have hmb2 : mb < 2 := by rw [← hmb]; split <;> norm_num
      obtain ⟨d0, hd0⟩ : ∃ d, kb ^^^ mb = d := ⟨_, rfl⟩
      have hd02 : d0 < 2 := by
        rw [← hd0]; interval_cases kb <;> interval_cases mb <;> decide
      obtain ⟨d1, hd1e⟩ : ∃ d, d0 ^^^ 1 = d := ⟨_, rfl⟩
      have hd12 : d1 < 2 := by rw [← hd1e]; interval_cases d0 <;> decide
      have hne : d0 ≠ d1 := by rw [← hd1e]; interval_cases d0 <;> decide
      have hA : d0 ^^^ kb = mb := by
        rw [← hd0, Nat.xor_comm kb mb, Nat.xor_assoc, Nat.xor_self, Nat.xor_zero]
      have hB : d1 ^^^ kb = mb ^^^ 1 := by
        rw [← hd1e, Nat.xor_assoc, Nat.xor_comm 1 kb, ← Nat.xor_assoc, hA]
      have hE : ∀ b v, b < 2 → v < 2 ^ h →
          ((2 ^ h * b + v) ^^^ key) % 2 ^ (h + 1) =
            2 ^ h * (b ^^^ kb) + (v ^^^ key) % 2 ^ h := by
        intro b v hb hv
        rw [xor_top_split key hb hv, hkb]
      cases hoc : okChild nodes (getChild (nd nodes i) d0) with
      | some c =>
          obtain ⟨hgc_eq, hcpos⟩ := okChild_some hoc
          have hgc : GoodAt nodes h c := goodAt_child hg hgc_eq
          obtain ⟨sc, hsclt, hscpos, hsceq, hscopt⟩ := ih c hgc hcpos
          have hrun : findExtremeXorGo nodes key mx (h + 1) i 0 =
              some (2 ^ h * d0 + sc) := by
            simp only [findExtremeXorGo, hkb, hmb, hd0, hoc]
            rw [findExtremeXorGo_acc nodes key mx h c, hsceq]
            interval_cases d0
            · simp
            · simp [Nat.one_shiftLeft, two_pow_or_eq_add hsclt]
          have hslt : 2 ^ h * d0 + sc < 2 ^ (h + 1) := by
            have h2 : (2:Nat) ^ (h + 1) = 2 ^ h * 2 := by ring
            interval_cases d0 <;> omega
          have hm : mfun nodes (h + 1) i (2 ^ h * d0 + sc) = mfun nodes h c sc := by
            rw [mfun_succ]
            have ht : ((2 ^ h * d0 + sc) >>> h) &&& 1 = d0 := by
              interval_cases d0
              · simpa using hb_of_lt hsclt
              · simpa using hb_of_ge hsclt
            have hl : (2 ^ h * d0 + sc) % 2 ^ h = sc := by
              interval_cases d0
              · simpa using mod_self_lt hsclt
              · simpa using mod_add_high hsclt
            rw [ht, hl, hgc_eq]
            rfl
          have hEs : ((2 ^ h * d0 + sc) ^^^ key) % 2 ^ (h + 1) =
              2 ^ h * mb + (sc ^^^ key) % 2 ^ h := by
            rw [hE d0 sc hd02 hsclt, hA]
          refine ⟨2 ^ h * d0 + sc, hslt, by rw [hm]; exact hscpos, hrun, ?_⟩
          intro u hult hupos
          have hu_split : u = 2 ^ h * ((u >>> h) &&& 1) + u % 2 ^ h := by
            conv_lhs => rw [← mod_self_lt hult, mod_pow_split]
          have hub2 : (u >>> h) &&& 1 < 2 := hb_lt_two u h
          have hulo : u % 2 ^ h < 2 ^ h := mod_two_pow_lt _ _
          by_cases hbb : (u >>> h) &&& 1 = d0
          · have humf : mfun nodes (h + 1) i u = mfun nodes h c (u % 2 ^ h) := by
              rw [mfun_succ, hbb, hgc_eq]
              rfl
            have hcomp := hscopt (u % 2 ^ h) hulo (by rw [humf] at hupos; exact hupos)
            have hEu : (u ^^^ key) % 2 ^ (h + 1) =
                2 ^ h * mb + ((u % 2 ^ h) ^^^ key) % 2 ^ h := by
              conv_lhs => rw [hu_split]
              rw [hE _ _ hub2 hulo, hbb, hA]
            rw [hEu, hEs]
            by_cases hmx : mx = true
            · rw [if_pos hmx] at hcomp ⊢
              exact Nat.add_le_add_left hcomp _
            · rw [if_neg hmx] at hcomp ⊢
              exact Nat.add_le_add_left hcomp _
          · have hbb1 : (u >>> h) &&& 1 = d1 := by omega
            have hEu : (u ^^^ key) % 2 ^ (h + 1) =
                2 ^ h * (mb ^^^ 1) + ((u % 2 ^ h) ^^^ key) % 2 ^ h := by
              conv_lhs => rw [hu_split]
              rw [hE _ _ hub2 hulo, hbb1, hB]
            rw [hEu, hEs]
            have hlos : (sc ^^^ key) % 2 ^ h < 2 ^ h := mod_two_pow_lt _ _
            have hlou : ((u % 2 ^ h) ^^^ key) % 2 ^ h < 2 ^ h := mod_two_pow_lt _ _
            by_cases hmx : mx = true
            · rw [if_pos hmx]
              have hmb1 : mb = 1 := by rw [← hmb, if_pos hmx]
              subst hmb1
              have hx0 : (1:Nat) ^^^ 1 = 0 := by decide
              rw [hx0]
              omega
            · rw [if_neg hmx]
              have hmb0 : mb = 0 := by rw [← hmb, if_neg hmx]
              subst hmb0
              have hx1 : (0:Nat) ^^^ 1 = 1 := by decide
              rw [hx1]
              omega
      | none =>
          have hS0 : SubtreeCount nodes (getChild (nd nodes i) d0) ≤ 0 :=
            okChild_none hoc
          have hsplit := goodAt_succ_dir hd02 hg
          rw [hd1e] at hsplit
          cases hoc2 : okChild nodes (getChild (nd nodes i) d1) with
          | none =>
              exfalso
              have hS1 : SubtreeCount nodes (getChild (nd nodes i) d1) ≤ 0 :=
                okChild_none hoc2
              omega
          | some c =>
              obtain ⟨hgc_eq, hcpos⟩ := okChild_some hoc2
              have hgc : GoodAt nodes h c := goodAt_child hg hgc_eq
              obtain ⟨sc, hsclt, hscpos, hsceq, hscopt⟩ := ih c hgc hcpos
              have hrun : findExtremeXorGo nodes key mx (h + 1) i 0 =
                  some (2 ^ h * d1 + sc) := by
                simp only [findExtremeXorGo, hkb, hmb, hd0, hd1e, hoc, hoc2]
                rw [findExtremeXorGo_acc nodes key mx h c, hsceq]
                rcases (show d1 = 0 ∨ d1 = 1 by omega) with hdv | hdv <;> subst hdv
                · simp
                · simp [Nat.one_shiftLeft, two_pow_or_eq_add hsclt]
              have hslt : 2 ^ h * d1 + sc < 2 ^ (h + 1) := by
                have h2 : (2:Nat) ^ (h + 1) = 2 ^ h * 2 := by ring
                rcases (show d1 = 0 ∨ d1 = 1 by omega) with hdv | hdv <;> subst hdv <;>
                  omega
              have hm : mfun nodes (h + 1) i (2 ^ h * d1 + sc) = mfun nodes h c sc := by
                rw [mfun_succ]
                have ht : ((2 ^ h * d1 + sc) >>> h) &&& 1 = d1 := by
                  rcases (show d1 = 0 ∨ d1 = 1 by omega) with hdv | hdv <;> subst hdv
                  · simpa using hb_of_lt hsclt
                  · simpa using hb_of_ge hsclt
                have hl : (2 ^ h * d1 + sc) % 2 ^ h = sc := by
                  rcases (show d1 = 0 ∨ d1 = 1 by omega) with hdv | hdv <;> subst hdv
                  · simpa using mod_self_lt hsclt
                  · simpa using mod_add_high hsclt
                rw [ht, hl, hgc_eq]
                rfl
              have hEs : ((2 ^ h * d1 + sc) ^^^ key) % 2 ^ (h + 1) =
                  2 ^ h * (mb ^^^ 1) + (sc ^^^ key) % 2 ^ h := by
                rw [hE d1 sc hd12 hsclt, hB]
              refine ⟨2 ^ h * d1 + sc, hslt, by rw [hm]; exact hscpos, hrun, ?_⟩
              intro u hult hupos
              have hu_split : u = 2 ^ h * ((u >>> h) &&& 1) + u % 2 ^ h := by
                conv_lhs => rw [← mod_self_lt hult, mod_pow_split]
              have hub2 : (u >>> h) &&& 1 < 2 := hb_lt_two u h
              have hulo : u % 2 ^ h < 2 ^ h := mod_two_pow_lt _ _
              by_cases hbb : (u >>> h) &&& 1 = d0
              · exfalso
                have humf : mfun nodes (h + 1) i u =
                    mfo nodes h (getChild (nd nodes i) d0) (u % 2 ^ h) := by
                  rw [mfun_succ, hbb]
                cases hgd : getChild (nd nodes i) d0 with
                | none =>
                    rw [hgd] at humf
                    rw [humf] at hupos
                    simp [mfo] at hupos
                | some cd =>
                    have hgcd : GoodAt nodes h cd := goodAt_child hg hgd
                    rw [hgd, SubtreeCount] at hS0
                    have hz : mfun nodes h cd (u % 2 ^ h) = 0 :=
                      mfun_eq_zero_of_sub_nonpos hgcd hS0 (mod_two_pow_lt u h)
                    rw [hgd] at humf
                    rw [humf] at hupos
                    simp only [mfo] at hupos
                    omega
              · have hbb1 : (u >>> h) &&& 1 = d1 := by omega
                have humf : mfun nodes (h + 1) i u = mfun nodes h c (u % 2 ^ h) := by
                  rw [mfun_succ, hbb1, hgc_eq]
                  rfl
                have hcomp :=
                  hscopt (u % 2 ^ h) hulo (by rw [humf] at hupos; exact hupos)
                have hEu : (u ^^^ key) % 2 ^ (h + 1) =
                    2 ^ h * (mb ^^^ 1) + ((u % 2 ^ h) ^^^ key) % 2 ^ h := by
                  conv_lhs => rw [hu_split]
                  rw [hE _ _ hub2 hulo, hbb1, hB]
                rw [hEu, hEs]
                by_cases hmx : mx = true
                · rw [if_pos hmx] at hcomp ⊢
                  exact Nat.add_le_add_left hcomp _
                · rw [if_neg hmx] at hcomp ⊢
                  exact Nat.add_le_add_left hcomp _

/-- C4: on a reachable state, for a value within the bit width, MaxXor(value)
and MinXor(value) are empty exactly when TotalCount() is 0; otherwise
MaxXor returns the maximum and MinXor the minimum of (x XOR value) over all
logical values x currently stored with positive multiplicity. -/
theorem C4_extreme_xor {w : Nat} {t : Trie} (hr : Reachable w t) {value : Nat}
    (hv : value < 2 ^ w) :
    (MaxXor w t value = none ↔ TotalCount t = 0) ∧
    (MinXor w t value = none ↔ TotalCount t = 0) ∧
    (∀ r, MaxXor w t value = some r →
      ∃ x, x < 2 ^ w ∧ 0 < Count w t x ∧ r = x ^^^ value ∧
        ∀ x', x' < 2 ^ w → 0 < Count w t x' → x' ^^^ value ≤ x ^^^ value) ∧
    (∀ r, MinXor w t value = some r →
      ∃ x, x < 2 ^ w ∧ 0 < Count w t x ∧ r = x ^^^ value ∧
        ∀ x', x' < 2 ^ w → 0 < Count w t x' → x ^^^ value ≤ x' ^^^ value) := by
  have hwf := hr.wf
  have hxm : t.xor_mask < 2 ^ w := hwf.2.2.2
  have htnn : 0 ≤ TotalCount t := goodAt_sub_nonneg hwf.1
  have hvm : value &&& BitMask w = value := by rw [mask_eq_mod, mod_self_lt hv]
  have hkv : value ^^^ t.xor_mask < 2 ^ w := Nat.xor_lt_two_pow hv hxm
  have hkey : (value ^^^ t.xor_mask) &&& BitMask w = value ^^^ t.xor_mask := by
    rw [mask_eq_mod, mod_self_lt hkv]
  have hmaxdef : MaxXor w t value =
      (match FindExtremeXor w t (value &&& BitMask w) true with
       | none => none
       | some s => some ((ToActual w t.xor_mask s ^^^ value) &&& BitMask w)) := rfl
  have hmindef : MinXor w t value =
      (match FindExtremeXor w t (value &&& BitMask w) false with
       | none => none
       | some s => some ((ToActual w t.xor_mask s ^^^ value) &&& BitMask w)) := rfl
  by_cases htot : TotalCount t = 0
  · have hfn : ∀ mx, FindExtremeXor w t (value &&& BitMask w) mx = none := by
      intro mx
      rw [FindExtremeXor, if_pos (le_of_eq htot)]
    have hmaxn : MaxXor w t value = none := by rw [hmaxdef, hfn true]
    have hminn : MinXor w t value = none := by rw [hmindef, hfn false]
    refine ⟨⟨fun _ => htot, fun _ => hmaxn⟩, ⟨fun _ => htot, fun _ => hminn⟩, ?_, ?_⟩
    · intro r hr
      rw [hmaxn] at hr
      cases hr
    · intro r hr
      rw [hminn] at hr
      cases hr
  · have hpos : (0:Int) < (nd t.nodes 0).subtree_count :=
      lt_of_le_of_ne htnn (Ne.symm htot)
    have hcanc : ∀ a : Nat,
        (a ^^^ t.xor_mask) ^^^ (value ^^^ t.xor_mask) = a ^^^ value := by
      intro a
      rw [Nat.xor_comm value t.xor_mask, ← Nat.xor_assoc, xor_cancel_r]
    have core : ∀ mx : Bool, ∃ s, s < 2 ^ w ∧
        FindExtremeXor w t (value &&& BitMask w) mx = some s ∧
        0 < Count w t (s ^^^ t.xor_mask) ∧ s ^^^ t.xor_mask < 2 ^ w ∧
        (ToActual w t.xor_mask s ^^^ value) &&& BitMask w =
          (s ^^^ t.xor_mask) ^^^ value ∧
        ∀ x', x' < 2 ^ w → 0 < Count w t x' →
          (if mx then x' ^^^ value ≤ (s ^^^ t.xor_mask) ^^^ value
           else (s ^^^ t.xor_mask) ^^^ value ≤ x' ^^^ value) := by
      intro mx
      obtain ⟨s, hslt, hspos, hseq, hopt⟩ :=
        findExtremeXorGo_spec t.nodes (value ^^^ t.xor_mask) mx w 0 hwf.1 hpos
      have hsxlt : s ^^^ t.xor_mask < 2 ^ w := Nat.xor_lt_two_pow hslt hxm
      have hsxv : (s ^^^ t.xor_mask) ^^^ value < 2 ^ w := Nat.xor_lt_two_pow hsxlt hv
      have hs2 : s ^^^ (value ^^^ t.xor_mask) = (s ^^^ t.xor_mask) ^^^ value := by
        rw [Nat.xor_comm value t.xor_mask, ← Nat.xor_assoc]
      refine ⟨s, hslt, ?_, ?_, hsxlt, ?_, ?_⟩
      · have hnle : ¬ TotalCount t ≤ 0 := not_le.mpr hpos
        simp only [FindExtremeXor, hvm, hkey, if_neg hnle]
        exact hseq
      · rw [Count_eq_mfun, xor_cancel_r, mod_self_lt hslt]
        exact hspos
      · rw [ToActual]
        simp only [mask_eq_mod]
        rw [mod_self_lt hsxlt, mod_self_lt hsxv]
      · intro x' hx'lt hx'pos
        have hulim : x' ^^^ t.xor_mask < 2 ^ w := Nat.xor_lt_two_pow hx'lt hxm
        have hupos : 0 < mfun t.nodes w 0 (x' ^^^ t.xor_mask) := by
          rw [Count_eq_mfun, mod_self_lt hulim] at hx'pos
          exact hx'pos
        have h := hopt (x' ^^^ t.xor_mask) hulim hupos
        rw [hcanc x', hs2, mod_self_lt (Nat.xor_lt_two_pow hx'lt hv),
          mod_self_lt hsxv] at h
        exact h
    obtain ⟨sM, hsMlt, hsMeq, hsMcnt, hsMxlt, hsMres, hsMopt⟩ := core true
    obtain ⟨sm, hsmlt, hsmeq, hsmcnt, hsmxlt, hsmres, hsmopt⟩ := core false
    have hmaxeq : MaxXor w t value = some ((sM ^^^ t.xor_mask) ^^^ value) := by
      rw [hmaxdef, hsMeq]
      show some ((ToActual w t.xor_mask sM ^^^ value) &&& BitMask w) = _
      rw [hsMres]
    have hmineq : MinXor w t value = some ((sm ^^^ t.xor_mask) ^^^ value) := by
      rw [hmindef, hsmeq]
      show some ((ToActual w t.xor_mask sm ^^^ value) &&& BitMask w) = _
      rw [hsmres]
    refine ⟨⟨?_, fun h0 => absurd h0 htot⟩, ⟨?_, fun h0 => absurd h0 htot⟩, ?_, ?_⟩
    · intro hn
      rw [hmaxeq] at hn
      cases hn
    · intro hn
      rw [hmineq] at hn
      cases hn
    · intro r hr
      rw [hmaxeq] at hr
      refine ⟨sM ^^^ t.xor_mask, hsMxlt, hsMcnt, (Option.some.inj hr).symm, ?_⟩
      intro x' h1 h2
      have h := hsMopt x' h1 h2
      rw [if_pos rfl] at h
      exact h
    · intro r hr
      rw [hmineq] at hr
      refine ⟨sm ^^^ t.xor_mask, hsmxlt, hsmcnt, (Option.some.inj hr).symm, ?_⟩
      intro x' h1 h2
      have h := hsmopt x' h1 h2
      rw [if_neg (by decide : ¬ false = true)] at h
      exact h

/-- C4 witness: with contents {1, 4, 4} and value 3, MaxXor picks 4
(4 XOR 3 = 7) and MinXor picks 1 (1 XOR 3 = 2), and neither is empty. -/
theorem C4_witness :
    Reachable 3 (Insert 3 (Insert 3 emptyTrie 4 2) 1 1) ∧ (3:Nat) < 2 ^ 3 ∧
    ((MaxXor 3 (Insert 3 (Insert 3 emptyTrie 4 2) 1 1) 3 = none ↔ TotalCount (Insert 3 (Insert 3 emptyTrie 4 2) 1 1) = 0) ∧
     (MinXor 3 (Insert 3 (Insert 3 emptyTrie 4 2) 1 1) 3 = none ↔ TotalCount (Insert 3 (Insert 3 emptyTrie 4 2) 1 1) = 0) ∧
     (∀ r, MaxXor 3 (Insert 3 (Insert 3 emptyTrie 4 2) 1 1) 3 = some r →
       ∃ x, x < 2 ^ 3 ∧ 0 < Count 3 (Insert 3 (Insert 3 emptyTrie 4 2) 1 1) x ∧ r = x ^^^ 3 ∧
         ∀ x', x' < 2 ^ 3 → 0 < Count 3 (Insert 3 (Insert 3 emptyTrie 4 2) 1 1) x' → x' ^^^ 3 ≤ x ^^^ 3) ∧
     (∀ r, MinXor 3 (Insert 3 (Insert 3 emptyTrie 4 2) 1 1) 3 = some r →
       ∃ x, x < 2 ^ 3 ∧ 0 < Count 3 (Insert 3 (Insert 3 emptyTrie 4 2) 1 1) x ∧ r = x ^^^ 3 ∧
         ∀ x', x' < 2 ^ 3 → 0 < Count 3 (Insert 3 (Insert 3 emptyTrie 4 2) 1 1) x' → x ^^^ 3 ≤ x' ^^^ 3)) := by
  have hR : Reachable 3 (Insert 3 (Insert 3 emptyTrie 4 2) 1 1) :=
    Reachable.insert (Reachable.insert Reachable.empty (by decide) (by decide))
      (by decide) (by decide)
  exact ⟨hR, by decide, C4_extreme_xor hR (by decide)⟩

/-- Logical multiplicity through an optional child link. -/
def lmo (nodes : List Node) (xm h : Nat) : Option Nat → Nat → Int
  | none, _ => 0
  | some i, x => lmf nodes xm h i x

/-- Low half of the logical split: actual bit 0 goes through
ChildForActualBit 0. -/
theorem lmf_cfa0 {nodes : List Node} {xm h i : Nat} {x : Nat} (hx : x < 2 ^ h) :
    lmf nodes xm (h + 1) i x =
      lmo nodes xm h (ChildForActualBit nodes xm i h 0) x := by
  rw [lmf_succ_lo nodes xm h i hx, ChildForActualBit, Nat.zero_xor]
  cases getChild (nd nodes i) (maskBit xm h) <;> rfl

/-- High half of the logical split: actual bit 1 goes through
ChildForActualBit 1. -/
theorem lmf_cfa1 {nodes : List Node} {xm h i : Nat} {x : Nat} (hx : x < 2 ^ h) :
    lmf nodes xm (h + 1) i (2 ^ h + x) =
      lmo nodes xm h (ChildForActualBit nodes xm i h 1) x := by
  rw [lmf_succ_hi nodes xm h i hx, ChildForActualBit, Nat.xor_comm 1 (maskBit xm h)]
  cases getChild (nd nodes i) (maskBit xm h ^^^ 1) <;> rfl

theorem lmf_le_sub {nodes : List Node} {xm h i : Nat} (hg : GoodAt nodes h i)
    (x : Nat) : lmf nodes xm h i x ≤ (nd nodes i).subtree_count := by
  rw [lmf]
  exact mfun_le_sub hg (mod_two_pow_lt _ _)

theorem lmo_nonneg {nodes : List Node} {xm h : Nat} {oc : Option Nat}
    (hg : ∀ i, oc = some i → GoodAt nodes h i) (x : Nat) :
    0 ≤ lmo nodes xm h oc x := by
  cases oc with
  | none => exact le_refl 0
  | some i => exact lmf_nonneg (hg i rfl) xm x

theorem or_shift_high {pfx x h : Nat} (hx : x < 2 ^ h) :
    (pfx ||| 1 <<< h) ||| x = pfx ||| (2 ^ h + x) := by
  rw [Nat.one_shiftLeft, Nat.or_assoc, two_pow_or_eq_add hx]

theorem lt_pow_succ_split {y h : Nat} (hy : y < 2 ^ (h + 1)) :
    y < 2 ^ h ∨ ∃ ylo, ylo < 2 ^ h ∧ y = 2 ^ h + ylo := by
  by_cases h1 : y < 2 ^ h
  · exact Or.inl h1
  · have h2 : (2:Nat) ^ (h + 1) = 2 ^ h + 2 ^ h := by ring
    exact Or.inr ⟨y - 2 ^ h, by omega, by omega⟩

/-- The lower bound the tight/untight search maintains: the remaining target
bits when tight, 0 (no constraint) when the search went loose. -/
def lbTgt (target h : Nat) : Bool → Nat
  | true => target % 2 ^ h
  | false => 0

/-- Correctness of the FindLowerBound search on a sound optional subtree:
none exactly when no logical value x in range with x >= the residual target
has positive multiplicity; otherwise it returns pfx OR x for the least such
x. -/
theorem FindLowerBound_spec (nodes : List Node) (xm target : Nat) :
    ∀ h oc, (∀ i, oc = some i → GoodAt nodes h i) → ∀ pfx tight,
      (FindLowerBound nodes xm target h oc pfx tight = none ↔
        ∀ x, x < 2 ^ h → lbTgt target h tight ≤ x → lmo nodes xm h oc x ≤ 0) ∧
      (∀ r, FindLowerBound nodes xm target h oc pfx tight = some r →
        ∃ x, x < 2 ^ h ∧ lbTgt target h tight ≤ x ∧ 0 < lmo nodes xm h oc x ∧
          r = pfx ||| x ∧
          ∀ y, y < 2 ^ h → lbTgt target h tight ≤ y →
            0 < lmo nodes xm h oc y → x ≤ y) := by
  intro h
  induction h with
  | zero =>
      intro oc hg pfx tight
      cases oc with
      | none =>
          constructor
          · constructor
            · intro _ x _ _
              exact le_refl 0
            · intro _
              rw [FindLowerBound]
          · intro r hr
            rw [FindLowerBound] at hr
            cases hr
      | some i =>
          have hgi := hg i rfl
          have htgt0 : lbTgt target 0 tight = 0 := by
            cases tight <;> simp [lbTgt, Nat.mod_one]
          have hlmf0 : lmo nodes xm 0 (some i) 0 = (nd nodes i).terminal_count := by
            show lmf nodes xm 0 i 0 = _
            rw [lmf_zero]
          rw [htgt0]
          by_cases hsub : (nd nodes i).subtree_count ≤ 0
          · have hterm0 : (nd nodes i).terminal_count ≤ 0 := by
              have := hgi.2.2.2.2
              omega
            constructor
            · constructor
              · intro _ x hx _
                have hx0 : x = 0 := by
                  rw [pow_zero] at hx
                  omega
                subst hx0
                rw [hlmf0]
                exact hterm0
              · intro _
                simp only [FindLowerBound, if_pos hsub]
            · intro r hr
              simp only [FindLowerBound, if_pos hsub] at hr
              cases hr
          · by_cases hterm : 0 < (nd nodes i).terminal_count
            · constructor
              · constructor
                · intro hn
                  simp only [FindLowerBound, if_neg hsub, if_pos hterm] at hn
                  cases hn
                · intro hall
                  exfalso
                  have hq := hall 0 (by norm_num) (le_refl 0)
                  rw [hlmf0] at hq
                  omega
              · intro r hr
                simp only [FindLowerBound, if_neg hsub, if_pos hterm] at hr
                obtain rfl := Option.some.inj hr
                refine ⟨0, by norm_num, le_refl 0, ?_, by simp, ?_⟩
                · rw [hlmf0]
                  exact hterm
                · intro y _ _ _
                  exact Nat.zero_le y
            · constructor
              · constructor
                · intro _ x hx _
                  have hx0 : x = 0 := by
                    rw [pow_zero] at hx
                    omega
                  subst hx0
                  rw [hlmf0]
                  omega
                · intro _
                  simp only [FindLowerBound, if_neg hsub, if_neg hterm]
              · intro r hr
                simp only [FindLowerBound, if_neg hsub, if_neg hterm] at hr
                cases hr
  | succ h ih =>
      intro oc hg pfx tight
      cases oc with
      | none =>
          constructor
          · constructor
            · intro _ x _ _
              exact le_refl 0
            · intro _
              rw [FindLowerBound]
          · intro r hr
            rw [FindLowerBound] at hr
            cases hr
      | some i =>
          have hgi := hg i rfl
          obtain ⟨tb, htb⟩ : ∃ b, (target >>> h) &&& 1 = b := ⟨_, rfl⟩
          have htb2 : tb < 2 := htb ▸ hb_lt_two target h
          have htsplit : target % 2 ^ (h + 1) = 2 ^ h * tb + target % 2 ^ h := by
            rw [mod_pow_split, htb]
          have htlow : target % 2 ^ h < 2 ^ h := mod_two_pow_lt _ _
          have hpow : (2:Nat) ^ h < 2 ^ (h + 1) := by
            have h2 : (2:Nat) ^ (h + 1) = 2 ^ h + 2 ^ h := by ring
            have h3 := Nat.two_pow_pos h
            omega
          have hg0 : ∀ c, ChildForActualBit nodes xm i h 0 = some c →
              GoodAt nodes h c := by
            intro c hc
            rw [ChildForActualBit] at hc
            exact goodAt_child hgi hc
          have hg1 : ∀ c, ChildForActualBit nodes xm i h 1 = some c →
              GoodAt nodes h c := by
            intro c hc
            rw [ChildForActualBit] at hc
            exact goodAt_child hgi hc
          have hwhole0 : ∀ y, y < 2 ^ h →
              lmo nodes xm (h + 1) (some i) y =
                lmo nodes xm h (ChildForActualBit nodes xm i h 0) y :=
            fun y hy => lmf_cfa0 hy
          have hwhole1 : ∀ y, y < 2 ^ h →
              lmo nodes xm (h + 1) (some i) (2 ^ h + y) =
                lmo nodes xm h (ChildForActualBit nodes xm i h 1) y :=
            fun y hy => lmf_cfa1 hy
          by_cases hsub : (nd nodes i).subtree_count ≤ 0
          · have hall : ∀ x, x < 2 ^ (h + 1) →
                lmo nodes xm (h + 1) (some i) x ≤ 0 := by
              intro x _
              calc lmo nodes xm (h + 1) (some i) x
                  = lmf nodes xm (h + 1) i x := rfl
                _ ≤ (nd nodes i).subtree_count := lmf_le_sub hgi x
                _ ≤ 0 := hsub
            constructor
            · constructor
              · intro _ x hx _
                exact hall x hx
              · intro _
                simp only [FindLowerBound, if_pos hsub]
            · intro r hr
              simp only [FindLowerBound, if_pos hsub] at hr
              cases hr
          · cases tight with
            | false =>
                have hstep : FindLowerBound nodes xm target (h + 1) (some i) pfx false =
                    (match FindLowerBound nodes xm target h
                        (ChildForActualBit nodes xm i h 0) (pfx ||| 0 <<< h) false with
                     | some r => some r
                     | none => FindLowerBound nodes xm target h
                        (ChildForActualBit nodes xm i h 1) (pfx ||| 1 <<< h) false) := by
                  simp only [FindLowerBound, if_neg hsub]
                  rw [if_neg (show ¬ (false = true) by decide)]
                obtain ⟨IH0n, IH0s⟩ :=
                  ih (ChildForActualBit nodes xm i h 0) hg0 (pfx ||| 0 <<< h) false
                obtain ⟨IH1n, IH1s⟩ :=
                  ih (ChildForActualBit nodes xm i h 1) hg1 (pfx ||| 1 <<< h) false
                cases hrec0 : FindLowerBound nodes xm target h
                    (ChildForActualBit nodes xm i h 0) (pfx ||| 0 <<< h) false with
                | some r0 =>
                    obtain ⟨x0, hx0lt, _, hx0pos, hx0eq, hx0min⟩ := IH0s r0 hrec0
                    have houter : FindLowerBound nodes xm target (h + 1) (some i)
                        pfx false = some r0 := by
                      rw [hstep, hrec0]
                    constructor
                    · rw [houter]
                      constructor
                      · intro hn
                        cases hn
                      · intro hall
                        exfalso
                        have hq := hall x0 (lt_trans hx0lt hpow) (Nat.zero_le _)
                        rw [hwhole0 x0 hx0lt] at hq
                        omega
                    · intro r hr
                      rw [houter] at hr
                      obtain rfl := Option.some.inj hr
                      refine ⟨x0, lt_trans hx0lt hpow, Nat.zero_le _, ?_, ?_, ?_⟩
                      · rw [hwhole0 x0 hx0lt]
                        exact hx0pos
                      · rw [hx0eq]
                        simp [Nat.zero_shiftLeft]
                      · intro y hylt _ hypos
                        rcases lt_pow_succ_split hylt with hy | ⟨ylo, hylo, rfl⟩
                        · rw [hwhole0 y hy] at hypos
                          exact hx0min y hy (Nat.zero_le _) hypos
                        · omega
                | none =>
                    have hempty0 : ∀ x, x < 2 ^ h →
                        lmo nodes xm h (ChildForActualBit nodes xm i h 0) x ≤ 0 := by
                      intro x hx
                      exact IH0n.mp hrec0 x hx (Nat.zero_le _)
                    cases hrec1 : FindLowerBound nodes xm target h
                        (ChildForActualBit nodes xm i h 1) (pfx ||| 1 <<< h) false with
                    | some r1 =>
                        obtain ⟨x1, hx1lt, _, hx1pos, hx1eq, hx1min⟩ := IH1s r1 hrec1
                        have houter : FindLowerBound nodes xm target (h + 1) (some i)
                            pfx false = some r1 := by
                          rw [hstep, hrec0, hrec1]
                        have hx1lt' : 2 ^ h + x1 < 2 ^ (h + 1) := by
                          have h2 : (2:Nat) ^ (h + 1) = 2 ^ h + 2 ^ h := by ring
                          omega
                        constructor
                        · rw [houter]
                          constructor
                          · intro hn
                            cases hn
                          · intro hall
                            exfalso
                            have hq := hall (2 ^ h + x1) hx1lt' (Nat.zero_le _)
                            rw [hwhole1 x1 hx1lt] at hq
                            omega
                        · intro r hr
                          rw [houter] at hr
                          obtain rfl := Option.some.inj hr
                          refine ⟨2 ^ h + x1, hx1lt', Nat.zero_le _, ?_, ?_, ?_⟩
                          · rw [hwhole1 x1 hx1lt]
                            exact hx1pos
                          · rw [hx1eq, or_shift_high hx1lt]
                          · intro y hylt _ hypos
                            rcases lt_pow_succ_split hylt with hy | ⟨ylo, hylo, rfl⟩
                            · exfalso
                              rw [hwhole0 y hy] at hypos
                              have := hempty0 y hy
                              omega
                            · rw [hwhole1 ylo hylo] at hypos
                              have := hx1min ylo hylo (Nat.zero_le _) hypos
                              omega
                    | none =>
                        have houter : FindLowerBound nodes xm target (h + 1) (some i)
                            pfx false = none := by
                          rw [hstep, hrec0, hrec1]
                        constructor
                        · rw [houter]
                          constructor
                          · intro _ x hxlt _
                            rcases lt_pow_succ_split hxlt with hx | ⟨xlo, hxlo, rfl⟩
                            · rw [hwhole0 x hx]
                              exact hempty0 x hx
                            · rw [hwhole1 xlo hxlo]
                              exact IH1n.mp hrec1 xlo hxlo (Nat.zero_le _)
                          · intro _
                            rfl
                        · intro r hr
                          rw [houter] at hr
                          cases hr
            | true =>
                have hstep : FindLowerBound nodes xm target (h + 1) (some i) pfx true =
                    (match FindLowerBound nodes xm target h
                        (ChildForActualBit nodes xm i h tb) (pfx ||| tb <<< h) true with
                     | some r => some r
                     | none => if tb = 0 then FindLowerBound nodes xm target h
                        (ChildForActualBit nodes xm i h 1) (pfx ||| 1 <<< h) false
                       else none) := by
                  simp only [FindLowerBound, htb, if_neg hsub, if_true]
                by_cases htbv : tb = 0
                · subst htbv
                  have htsplit0 : target % 2 ^ (h + 1) = target % 2 ^ h := by omega
                  obtain ⟨IHtn, IHts⟩ :=
                    ih (ChildForActualBit nodes xm i h 0) hg0 (pfx ||| 0 <<< h) true
                  obtain ⟨IH1n, IH1s⟩ :=
                    ih (ChildForActualBit nodes xm i h 1) hg1 (pfx ||| 1 <<< h) false
                  cases hrec0 : FindLowerBound nodes xm target h
                      (ChildForActualBit nodes xm i h 0) (pfx ||| 0 <<< h) true with
                  | some r0 =>
                      obtain ⟨x0, hx0lt, hx0ge, hx0pos, hx0eq, hx0min⟩ := IHts r0 hrec0
                      simp only [lbTgt] at hx0ge hx0min
                      have houter : FindLowerBound nodes xm target (h + 1) (some i)
                          pfx true = some r0 := by
                        rw [hstep, hrec0]
                      constructor
                      · rw [houter]
                        constructor
                        · intro hn
                          cases hn
                        · intro hall
                          exfalso
                          have hq := hall x0 (lt_trans hx0lt hpow)
                            (by simp only [lbTgt]; omega)
                          rw [hwhole0 x0 hx0lt] at hq
                          omega
                      · intro r hr
                        rw [houter] at hr
                        obtain rfl := Option.some.inj hr
                        refine ⟨x0, lt_trans hx0lt hpow,
                          by simp only [lbTgt]; omega, ?_, ?_, ?_⟩
                        · rw [hwhole0 x0 hx0lt]
                          exact hx0pos
                        · rw [hx0eq]
                          simp [Nat.zero_shiftLeft]
                        · intro y hylt hyge hypos
                          simp only [lbTgt] at hyge
                          rcases lt_pow_succ_split hylt with hy | ⟨ylo, hylo, rfl⟩
                          · rw [hwhole0 y hy] at hypos
                            exact hx0min y hy (by omega) hypos
                          · omega
                  | none =>
                      have hempty0 : ∀ x, x < 2 ^ h → target % 2 ^ h ≤ x →
                          lmo nodes xm h (ChildForActualBit nodes xm i h 0) x ≤ 0 := by
                        intro x hx hge
                        exact IHtn.mp hrec0 x hx (by simp only [lbTgt]; omega)
                      cases hrec1 : FindLowerBound nodes xm target h
                          (ChildForActualBit nodes xm i h 1) (pfx ||| 1 <<< h) false with
                      | some r1 =>
                          obtain ⟨x1, hx1lt, _, hx1pos, hx1eq, hx1min⟩ := IH1s r1 hrec1
                          have houter : FindLowerBound nodes xm target (h + 1) (some i)
                              pfx true = some r1 := by
                            rw [hstep, hrec0]
                            rw [if_pos (show (0 = 0) from rfl)]
                            exact hrec1
                          have hx1lt' : 2 ^ h + x1 < 2 ^ (h + 1) := by
                            have h2 : (2:Nat) ^ (h + 1) = 2 ^ h + 2 ^ h := by ring
                            omega
                          constructor
                          · rw [houter]
                            constructor
                            · intro hn
                              cases hn
                            · intro hall
                              exfalso
                              have hq := hall (2 ^ h + x1) hx1lt'
                                (by simp only [lbTgt]; omega)
                              rw [hwhole1 x1 hx1lt] at hq
                              omega
                          · intro r hr
                            rw [houter] at hr
                            obtain rfl := Option.some.inj hr
                            refine ⟨2 ^ h + x1, hx1lt',
                              by simp only [lbTgt]; omega, ?_, ?_, ?_⟩
                            · rw [hwhole1 x1 hx1lt]
                              exact hx1pos
                            · rw [hx1eq, or_shift_high hx1lt]
                            · intro y hylt hyge hypos
                              simp only [lbTgt] at hyge
                              rcases lt_pow_succ_split hylt with hy | ⟨ylo, hylo, rfl⟩
                              · exfalso
                                rw [hwhole0 y hy] at hypos
                                have := hempty0 y hy (by omega)
                                omega
                              · rw [hwhole1 ylo hylo] at hypos
                                have := hx1min ylo hylo (Nat.zero_le _) hypos
                                omega
                      | none =>
                          have houter : FindLowerBound nodes xm target (h + 1) (some i)
                              pfx true = none := by
                            rw [hstep, hrec0]
                            rw [if_pos (show (0 = 0) from rfl)]
                            exact hrec1
                          constructor
                          · rw [houter]
                            constructor
                            · intro _ x hxlt hxge
                              simp only [lbTgt] at hxge
                              rcases lt_pow_succ_split hxlt with hx | ⟨xlo, hxlo, rfl⟩
                              · rw [hwhole0 x hx]
                                exact hempty0 x hx (by omega)
                              · rw [hwhole1 xlo hxlo]
                                exact IH1n.mp hrec1 xlo hxlo (Nat.zero_le _)
                            · intro _
                              rfl
                          · intro r hr
                            rw [houter] at hr
                            cases hr
                · have htbv1 : tb = 1 := by omega
                  subst htbv1
                  have htsplit1 : target % 2 ^ (h + 1) = 2 ^ h + target % 2 ^ h := by
                    omega
                  obtain ⟨IHtn, IHts⟩ :=
                    ih (ChildForActualBit nodes xm i h 1) hg1 (pfx ||| 1 <<< h) true
                  cases hrec1 : FindLowerBound nodes xm target h
                      (ChildForActualBit nodes xm i h 1) (pfx ||| 1 <<< h) true with
                  | some r1 =>
                      obtain ⟨x1, hx1lt, hx1ge, hx1pos, hx1eq, hx1min⟩ := IHts r1 hrec1
                      simp only [lbTgt] at hx1ge hx1min
                      have houter : FindLowerBound nodes xm target (h + 1) (some i)
                          pfx true = some r1 := by
                        rw [hstep, hrec1]
                      have hx1lt' : 2 ^ h + x1 < 2 ^ (h + 1) := by
                        have h2 : (2:Nat) ^ (h + 1) = 2 ^ h + 2 ^ h := by ring
                        omega
                      constructor
                      · rw [houter]
                        constructor
                        · intro hn
                          cases hn
                        · intro hall
                          exfalso
                          have hq := hall (2 ^ h + x1) hx1lt'
                            (by simp only [lbTgt]; omega)
                          rw [hwhole1 x1 hx1lt] at hq
                          omega
                      · intro r hr
                        rw [houter] at hr
                        obtain rfl := Option.some.inj hr
                        refine ⟨2 ^ h + x1, hx1lt',
                          by simp only [lbTgt]; omega, ?_, ?_, ?_⟩
                        · rw [hwhole1 x1 hx1lt]
                          exact hx1pos
                        · rw [hx1eq, or_shift_high hx1lt]
                        · intro y hylt hyge hypos
                          simp only [lbTgt] at hyge
                          rcases lt_pow_succ_split hylt with hy | ⟨ylo, hylo, rfl⟩
                          · omega
                          · rw [hwhole1 ylo hylo] at hypos
                            have := hx1min ylo hylo (by omega) hypos
                            omega
                  | none =>
                      have houter : FindLowerBound nodes xm target (h + 1) (some i)
                          pfx true = none := by
                        rw [hstep, hrec1]
                        rw [if_neg (show ¬ (1 = 0) by decide)]
                      constructor
                      · rw [houter]
                        constructor
                        · intro _ x hxlt hxge
                          simp only [lbTgt] at hxge
                          rcases lt_pow_succ_split hxlt with hx | ⟨xlo, hxlo, rfl⟩
                          · omega
                          · rw [hwhole1 xlo hxlo]
                            exact IHtn.mp hrec1 xlo hxlo (by simp only [lbTgt]; omega)
                        · intro _
                          rfl
                      · intro r hr
                        rw [houter] at hr
                        cases hr

/-- The upper bound the Prev search maintains: the residual target bits when
tight, everything (2^h - 1) when loose. -/
def pvTgt (target h : Nat) : Bool → Nat
  | true => target % 2 ^ h
  | false => 2 ^ h - 1

/-- Correctness of the FindPrev search on a sound optional subtree: none
exactly when no logical value x in range with x <= the residual target has
positive multiplicity; otherwise it returns pfx OR x for the greatest such
x. -/
theorem FindPrev_spec (nodes : List Node) (xm target : Nat) :
    ∀ h oc, (∀ i, oc = some i → GoodAt nodes h i) → ∀ pfx tight,
      (FindPrev nodes xm target h oc pfx tight = none ↔
        ∀ x, x < 2 ^ h → x ≤ pvTgt target h tight → lmo nodes xm h oc x ≤ 0) ∧
      (∀ r, FindPrev nodes xm target h oc pfx tight = some r →
        ∃ x, x < 2 ^ h ∧ x ≤ pvTgt target h tight ∧ 0 < lmo nodes xm h oc x ∧
          r = pfx ||| x ∧
          ∀ y, y < 2 ^ h → y ≤ pvTgt target h tight →
            0 < lmo nodes xm h oc y → y ≤ x) := by
  intro h
  induction h with
  | zero =>
      intro oc hg pfx tight
      cases oc with
      | none =>
          constructor
          · constructor
            · intro _ x _ _
              exact le_refl 0
            · intro _
              rw [FindPrev]
          · intro r hr
            rw [FindPrev] at hr
            cases hr
      | some i =>
          have hgi := hg i rfl
          have htgt0 : pvTgt target 0 tight = 0 := by
            cases tight <;> simp [pvTgt, Nat.mod_one]
          have hlmf0 : lmo nodes xm 0 (some i) 0 = (nd nodes i).terminal_count := by
            show lmf nodes xm 0 i 0 = _
            rw [lmf_zero]
          rw [htgt0]
          by_cases hsub : (nd nodes i).subtree_count ≤ 0
          · have hterm0 : (nd nodes i).terminal_count ≤ 0 := by
              have := hgi.2.2.2.2
              omega
            constructor
            · constructor
              · intro _ x hx _
                have hx0 : x = 0 := by
                  rw [pow_zero] at hx
                  omega
                subst hx0
                rw [hlmf0]
                exact hterm0
              · intro _
                simp only [FindPrev, if_pos hsub]
            · intro r hr
              simp only [FindPrev, if_pos hsub] at hr
              cases hr
          · by_cases hterm : 0 < (nd nodes i).terminal_count
            · constructor
              · constructor
                · intro hn
                  simp only [FindPrev, if_neg hsub, if_pos hterm] at hn
                  cases hn
                · intro hall
                  exfalso
                  have hq := hall 0 (by norm_num) (le_refl 0)
                  rw [hlmf0] at hq
                  omega
              · intro r hr
                simp only [FindPrev, if_neg hsub, if_pos hterm] at hr
                obtain rfl := Option.some.inj hr
                refine ⟨0, by norm_num, le_refl 0, ?_, by simp, ?_⟩
                · rw [hlmf0]
                  exact hterm
                · intro y _ hy _
                  omega
            · constructor
              · constructor
                · intro _ x hx _
                  have hx0 : x = 0 := by
                    rw [pow_zero] at hx
                    omega
                  subst hx0
                  rw [hlmf0]
                  omega
                · intro _
                  simp only [FindPrev, if_neg hsub, if_neg hterm]
              · intro r hr
                simp only [FindPrev, if_neg hsub, if_neg hterm] at hr
                cases hr
  | succ h ih =>
      intro oc hg pfx tight
      cases oc with
      | none =>
          constructor
          · constructor
            · intro _ x _ _
              exact le_refl 0
            · intro _
              rw [FindPrev]
          · intro r hr
            rw [FindPrev] at hr
            cases hr
      | some i =>
          have hgi := hg i rfl
          obtain ⟨tb, htb⟩ : ∃ b, (target >>> h) &&& 1 = b := ⟨_, rfl⟩
          have htb2 : tb < 2 := htb ▸ hb_lt_two target h
          have htsplit : target % 2 ^ (h + 1) = 2 ^ h * tb + target % 2 ^ h := by
            rw [mod_pow_split, htb]
          have htlow : target % 2 ^ h < 2 ^ h := mod_two_pow_lt _ _
          have h2p : (2:Nat) ^ (h + 1) = 2 ^ h + 2 ^ h := by ring
          have hpow : (2:Nat) ^ h < 2 ^ (h + 1) := by
            have h3 := Nat.two_pow_pos h
            omega
          have hg0 : ∀ c, ChildForActualBit nodes xm i h 0 = some c →
              GoodAt nodes h c := by
            intro c hc
            rw [ChildForActualBit] at hc
            exact goodAt_child hgi hc
          have hg1 : ∀ c, ChildForActualBit nodes xm i h 1 = some c →
              GoodAt nodes h c := by
            intro c hc
            rw [ChildForActualBit] at hc
            exact goodAt_child hgi hc
          have hwhole0 : ∀ y, y < 2 ^ h →
              lmo nodes xm (h + 1) (some i) y =
                lmo nodes xm h (ChildForActualBit nodes xm i h 0) y :=
            fun y hy => lmf_cfa0 hy
          have hwhole1 : ∀ y, y < 2 ^ h →
              lmo nodes xm (h + 1) (some i) (2 ^ h + y) =
                lmo nodes xm h (ChildForActualBit nodes xm i h 1) y :=
            fun y hy => lmf_cfa1 hy
          by_cases hsub : (nd nodes i).subtree_count ≤ 0
          · have hall : ∀ x, x < 2 ^ (h + 1) →
                lmo nodes xm (h + 1) (some i) x ≤ 0 := by
              intro x _
              calc lmo nodes xm (h + 1) (some i) x
                  = lmf nodes xm (h + 1) i x := rfl
                _ ≤ (nd nodes i).subtree_count := lmf_le_sub hgi x
                _ ≤ 0 := hsub
            constructor
            · constructor
              · intro _ x hx _
                exact hall x hx
              · intro _
                simp only [FindPrev, if_pos hsub]
            · intro r hr
              simp only [FindPrev, if_pos hsub] at hr
              cases hr
          · cases tight with
            | false =>
                have hstep : FindPrev nodes xm target (h + 1) (some i) pfx false =
                    (match FindPrev nodes xm target h
                        (ChildForActualBit nodes xm i h 1) (pfx ||| 1 <<< h) false with
                     | some r => some r
                     | none => FindPrev nodes xm target h
                        (ChildForActualBit nodes xm i h 0) (pfx ||| 0 <<< h) false) := by
                  simp only [FindPrev, if_neg hsub]
                  rw [if_neg (show ¬ (false = true) by decide)]
                obtain ⟨IH1n, IH1s⟩ :=
                  ih (ChildForActualBit nodes xm i h 1) hg1 (pfx ||| 1 <<< h) false
                obtain ⟨IH0n, IH0s⟩ :=
                  ih (ChildForActualBit nodes xm i h 0) hg0 (pfx ||| 0 <<< h) false
                cases hrec1 : FindPrev nodes xm target h
                    (ChildForActualBit nodes xm i h 1) (pfx ||| 1 <<< h) false with
                | some r1 =>
                    obtain ⟨x1, hx1lt, _, hx1pos, hx1eq, hx1max⟩ := IH1s r1 hrec1
                    have houter : FindPrev nodes xm target (h + 1) (some i)
                        pfx false = some r1 := by
                      rw [hstep, hrec1]
                    have hx1lt' : 2 ^ h + x1 < 2 ^ (h + 1) := by omega
                    constructor
                    · rw [houter]
                      constructor
                      · intro hn
                        cases hn
                      · intro hall
                        exfalso
                        have hq := hall (2 ^ h + x1) hx1lt'
                          (by simp only [pvTgt]; omega)
                        rw [hwhole1 x1 hx1lt] at hq
                        omega
                    · intro r hr
                      rw [houter] at hr
                      obtain rfl := Option.some.inj hr
                      refine ⟨2 ^ h + x1, hx1lt', by simp only [pvTgt]; omega,
                        ?_, ?_, ?_⟩
                      · rw [hwhole1 x1 hx1lt]
                        exact hx1pos
                      · rw [hx1eq, or_shift_high hx1lt]
                      · intro y hylt _ hypos
                        rcases lt_pow_succ_split hylt with hy | ⟨ylo, hylo, rfl⟩
                        · omega
                        · rw [hwhole1 ylo hylo] at hypos
                          have := hx1max ylo hylo (by simp only [pvTgt]; omega) hypos
                          omega
                | none =>
                    have hempty1 : ∀ x, x < 2 ^ h →
                        lmo nodes xm h (ChildForActualBit nodes xm i h 1) x ≤ 0 := by
                      intro x hx
                      exact IH1n.mp hrec1 x hx (by simp only [pvTgt]; omega)
                    cases hrec0 : FindPrev nodes xm target h
                        (ChildForActualBit nodes xm i h 0) (pfx ||| 0 <<< h) false with
                    | some r0 =>
                        obtain ⟨x0, hx0lt, _, hx0pos, hx0eq, hx0max⟩ := IH0s r0 hrec0
                        have houter : FindPrev nodes xm target (h + 1) (some i)
                            pfx false = some r0 := by
                          rw [hstep, hrec1, hrec0]
                        constructor
                        · rw [houter]
                          constructor
                          · intro hn
                            cases hn
                          · intro hall
                            exfalso
                            have hq := hall x0 (lt_trans hx0lt hpow)
                              (by simp only [pvTgt]; omega)
                            rw [hwhole0 x0 hx0lt] at hq
                            omega
                        · intro r hr
                          rw [houter] at hr
                          obtain rfl := Option.some.inj hr
                          refine ⟨x0, lt_trans hx0lt hpow,
                            by simp only [pvTgt]; omega, ?_, ?_, ?_⟩
                          · rw [hwhole0 x0 hx0lt]
                            exact hx0pos
                          · rw [hx0eq]
                            simp [Nat.zero_shiftLeft]
                          · intro y hylt _ hypos
                            rcases lt_pow_succ_split hylt with hy | ⟨ylo, hylo, rfl⟩
                            · rw [hwhole0 y hy] at hypos
                              exact hx0max y hy (by simp only [pvTgt]; omega) hypos
                            · exfalso
                              rw [hwhole1 ylo hylo] at hypos
                              have := hempty1 ylo hylo
                              omega
                    | none =>
                        have houter : FindPrev nodes xm target (h + 1) (some i)
                            pfx false = none := by
                          rw [hstep, hrec1, hrec0]
                        constructor
                        · rw [houter]
                          constructor
                          · intro _ x hxlt _
                            rcases lt_pow_succ_split hxlt with hx | ⟨xlo, hxlo, rfl⟩
                            · rw [hwhole0 x hx]
                              exact IH0n.mp hrec0 x hx (by simp only [pvTgt]; omega)
                            · rw [hwhole1 xlo hxlo]
                              exact hempty1 xlo hxlo
                          · intro _
                            rfl
                        · intro r hr
                          rw [houter] at hr
                          cases hr
            | true =>
                have hstep : FindPrev nodes xm target (h + 1) (some i) pfx true =
                    (match FindPrev nodes xm target h
                        (ChildForActualBit nodes xm i h tb) (pfx ||| tb <<< h) true with
                     | some r => some r
                     | none => if tb = 1 then FindPrev nodes xm target h
                        (ChildForActualBit nodes xm i h 0) pfx false
                       else none) := by
                  simp only [FindPrev, htb, if_neg hsub, if_true]
                by_cases htbv : tb = 1
                · subst htbv
                  have htsplit1 : target % 2 ^ (h + 1) = 2 ^ h + target % 2 ^ h := by
                    omega
                  obtain ⟨IHtn, IHts⟩ :=
                    ih (ChildForActualBit nodes xm i h 1) hg1 (pfx ||| 1 <<< h) true
                  obtain ⟨IH0n, IH0s⟩ :=
                    ih (ChildForActualBit nodes xm i h 0) hg0 pfx false
                  cases hrec1 : FindPrev nodes xm target h
                      (ChildForActualBit nodes xm i h 1) (pfx ||| 1 <<< h) true with
                  | some r1 =>
                      obtain ⟨x1, hx1lt, hx1le, hx1pos, hx1eq, hx1max⟩ := IHts r1 hrec1
                      simp only [pvTgt] at hx1le hx1max
                      have houter : FindPrev nodes xm target (h + 1) (some i)
                          pfx true = some r1 := by
                        rw [hstep, hrec1]
                      have hx1lt' : 2 ^ h + x1 < 2 ^ (h + 1) := by omega
                      constructor
                      · rw [houter]
                        constructor
                        · intro hn
                          cases hn
                        · intro hall
                          exfalso
                          have hq := hall (2 ^ h + x1) hx1lt'
                            (by simp only [pvTgt]; omega)
                          rw [hwhole1 x1 hx1lt] at hq
                          omega
                      · intro r hr
                        rw [houter] at hr
                        obtain rfl := Option.some.inj hr
                        refine ⟨2 ^ h + x1, hx1lt',
                          by simp only [pvTgt]; omega, ?_, ?_, ?_⟩
                        · rw [hwhole1 x1 hx1lt]
                          exact hx1pos
                        · rw [hx1eq, or_shift_high hx1lt]
                        · intro y hylt hyle hypos
                          simp only [pvTgt] at hyle
                          rcases lt_pow_succ_split hylt with hy | ⟨ylo, hylo, rfl⟩
                          · omega
                          · rw [hwhole1 ylo hylo] at hypos
                            have := hx1max ylo hylo (by omega) hypos
                            omega
                  | none =>
                      have hempty1 : ∀ x, x < 2 ^ h → x ≤ target % 2 ^ h →
                          lmo nodes xm h (ChildForActualBit nodes xm i h 1) x ≤ 0 := by
                        intro x hx hle
                        exact IHtn.mp hrec1 x hx (by simp only [pvTgt]; omega)
                      cases hrec0 : FindPrev nodes xm target h
                          (ChildForActualBit nodes xm i h 0) pfx false with
                      | some r0 =>
                          obtain ⟨x0, hx0lt, _, hx0pos, hx0eq, hx0max⟩ := IH0s r0 hrec0
                          have houter : FindPrev nodes xm target (h + 1) (some i)
                              pfx true = some r0 := by
                            rw [hstep, hrec1]
                            rw [if_pos (show (1 = 1) from rfl)]
                            exact hrec0
                          constructor
                          · rw [houter]
                            constructor
                            · intro hn
                              cases hn
                            · intro hall
                              exfalso
                              have hq := hall x0 (lt_trans hx0lt hpow)
                                (by simp only [pvTgt]; omega)
                              rw [hwhole0 x0 hx0lt] at hq
                              omega
                          · intro r hr
                            rw [houter] at hr
                            obtain rfl := Option.some.inj hr
                            refine ⟨x0, lt_trans hx0lt hpow,
                              by simp only [pvTgt]; omega, ?_, hx0eq, ?_⟩
                            · rw [hwhole0 x0 hx0lt]
                              exact hx0pos
                            · intro y hylt hyle hypos
                              simp only [pvTgt] at hyle
                              rcases lt_pow_succ_split hylt with hy | ⟨ylo, hylo, rfl⟩
                              · rw [hwhole0 y hy] at hypos
                                exact hx0max y hy (by simp only [pvTgt]; omega) hypos
                              · exfalso
                                rw [hwhole1 ylo hylo] at hypos
                                have := hempty1 ylo hylo (by omega)
                                omega
                      | none =>
                          have houter : FindPrev nodes xm target (h + 1) (some i)
                              pfx true = none := by
                            rw [hstep, hrec1]
                            rw [if_pos (show (1 = 1) from rfl)]
                            exact hrec0
                          constructor
                          · rw [houter]
                            constructor
                            · intro _ x hxlt hxle
                              simp only [pvTgt] at hxle
                              rcases lt_pow_succ_split hxlt with hx | ⟨xlo, hxlo, rfl⟩
                              · rw [hwhole0 x hx]
                                exact IH0n.mp hrec0 x hx (by simp only [pvTgt]; omega)
                              · rw [hwhole1 xlo hxlo]
                                exact hempty1 xlo hxlo (by omega)
                            · intro _
                              rfl
                          · intro r hr
                            rw [houter] at hr
                            cases hr
                · have htbv0 : tb = 0 := by omega
                  subst htbv0
                  have htsplit0 : target % 2 ^ (h + 1) = target % 2 ^ h := by omega
                  obtain ⟨IHtn, IHts⟩ :=
                    ih (ChildForActualBit nodes xm i h 0) hg0 (pfx ||| 0 <<< h) true
                  cases hrec0 : FindPrev nodes xm target h
                      (ChildForActualBit nodes xm i h 0) (pfx ||| 0 <<< h) true with
                  | some r0 =>
                      obtain ⟨x0, hx0lt, hx0le, hx0pos, hx0eq, hx0max⟩ := IHts r0 hrec0
                      simp only [pvTgt] at hx0le hx0max
                      have houter : FindPrev nodes xm target (h + 1) (some i)
                          pfx true = some r0 := by
                        rw [hstep, hrec0]
                      constructor
                      · rw [houter]
                        constructor
                        · intro hn
                          cases hn
                        · intro hall
                          exfalso
                          have hq := hall x0 (lt_trans hx0lt hpow)
                            (by simp only [pvTgt]; omega)
                          rw [hwhole0 x0 hx0lt] at hq
                          omega
                      · intro r hr
                        rw [houter] at hr
                        obtain rfl := Option.some.inj hr
                        refine ⟨x0, lt_trans hx0lt hpow,
                          by simp only [pvTgt]; omega, ?_, ?_, ?_⟩
                        · rw [hwhole0 x0 hx0lt]
                          exact hx0pos
                        · rw [hx0eq]
                          simp [Nat.zero_shiftLeft]
                        · intro y hylt hyle hypos
                          simp only [pvTgt] at hyle
                          rcases lt_pow_succ_split hylt with hy | ⟨ylo, hylo, rfl⟩
                          · rw [hwhole0 y hy] at hypos
                            exact hx0max y hy (by omega) hypos
                          · omega
                  | none =>
                      have houter : FindPrev nodes xm target (h + 1) (some i)
                          pfx true = none := by
                        rw [hstep, hrec0]
                        rw [if_neg (show ¬ (0 = 1) by decide)]
                      constructor
                      · rw [houter]
                        constructor
                        · intro _ x hxlt hxle
                          simp only [pvTgt] at hxle
                          rcases lt_pow_succ_split hxlt with hx | ⟨xlo, hxlo, rfl⟩
                          · rw [hwhole0 x hx]
                            exact IHtn.mp hrec0 x hx (by simp only [pvTgt]; omega)
                          · omega
                        · intro _
                          rfl
                      · intro r hr
                        rw [houter] at hr
                        cases hr

/-- C5: on a reachable state, for a value within the bit width,
LowerBound(value) returns the smallest stored logical value >= value and
Prev(value) the largest stored logical value <= value, each returning none
exactly when no stored value satisfies the respective inequality. -/
theorem C5_bound_search {w : Nat} {t : Trie} (hr : Reachable w t) {value : Nat}
    (hv : value < 2 ^ w) :
    ((LowerBound w t value = none ↔
        ∀ x, x < 2 ^ w → value ≤ x → Count w t x ≤ 0) ∧
     ∀ r, LowerBound w t value = some r →
       value ≤ r ∧ r < 2 ^ w ∧ 0 < Count w t r ∧
         ∀ y, y < 2 ^ w → value ≤ y → 0 < Count w t y → r ≤ y) ∧
    ((Prev w t value = none ↔
        ∀ x, x < 2 ^ w → x ≤ value → Count w t x ≤ 0) ∧
     ∀ r, Prev w t value = some r →
       r ≤ value ∧ r < 2 ^ w ∧ 0 < Count w t r ∧
         ∀ y, y < 2 ^ w → y ≤ value → 0 < Count w t y → y ≤ r) := by
  have hwf := hr.wf
  have hvm : value &&& BitMask w = value := by rw [mask_eq_mod, mod_self_lt hv]
  have hgroot : ∀ i, (some 0 : Option Nat) = some i → GoodAt t.nodes w i := by
    intro i hi
    obtain rfl := Option.some.inj hi
    exact hwf.1
  have hcnt : ∀ x, Count w t x = lmo t.nodes t.xor_mask w (some 0) x :=
    fun x => lmf_Count w t x
  by_cases hle : TotalCount t ≤ 0
  · have hzero : ∀ x, Count w t x ≤ 0 := by
      intro x
      calc Count w t x = lmf t.nodes t.xor_mask w 0 x := lmf_Count w t x
        _ ≤ (nd t.nodes 0).subtree_count := lmf_le_sub hwf.1 x
        _ ≤ 0 := hle
    have hlbn : LowerBound w t value = none := by
      simp only [LowerBound, if_pos hle]
    have hpvn : Prev w t value = none := by
      simp only [Prev, if_pos hle]
    refine ⟨⟨⟨fun _ x _ _ => hzero x, fun _ => hlbn⟩, ?_⟩,
      ⟨⟨fun _ x _ _ => hzero x, fun _ => hpvn⟩, ?_⟩⟩
    · intro r hrr
      rw [hlbn] at hrr
      cases hrr
    · intro r hrr
      rw [hpvn] at hrr
      cases hrr
  · obtain ⟨FLn, FLs⟩ :=
      FindLowerBound_spec t.nodes t.xor_mask value w (some 0) hgroot 0 true
    obtain ⟨FPn, FPs⟩ :=
      FindPrev_spec t.nodes t.xor_mask value w (some 0) hgroot 0 true
    have hlbt : lbTgt value w true = value := by
      simp only [lbTgt]
      rw [mod_self_lt hv]
    have hpvt : pvTgt value w true = value := by
      simp only [pvTgt]
      rw [mod_self_lt hv]
    rw [hlbt] at FLn FLs
    rw [hpvt] at FPn FPs
    have hlbdef : LowerBound w t value =
        (match FindLowerBound t.nodes t.xor_mask value w (some 0) 0 true with
         | none => none
         | some r => some (r &&& BitMask w)) := by
      simp only [LowerBound, hvm, if_neg hle]
    have hpvdef : Prev w t value =
        (match FindPrev t.nodes t.xor_mask value w (some 0) 0 true with
         | none => none
         | some r => some (r &&& BitMask w)) := by
      simp only [Prev, hvm, if_neg hle]
    constructor
    · cases hF : FindLowerBound t.nodes t.xor_mask value w (some 0) 0 true with
      | none =>
          have houter : LowerBound w t value = none := by rw [hlbdef, hF]
          refine ⟨⟨?_, fun _ => houter⟩, ?_⟩
          · intro _ x hx hge
            rw [hcnt x]
            exact FLn.mp hF x hx hge
          · intro r hrr
            rw [houter] at hrr
            cases hrr
      | some r0 =>
          obtain ⟨x, hxlt, hxge, hxpos, hxeq, hxmin⟩ := FLs r0 hF
          rw [Nat.zero_or] at hxeq
          obtain rfl : x = r0 := hxeq.symm
          have houter : LowerBound w t value = some x := by
            rw [hlbdef, hF]
            show some (x &&& BitMask w) = some x
            rw [mask_eq_mod, mod_self_lt hxlt]
          refine ⟨⟨?_, ?_⟩, ?_⟩
          · intro hn
            rw [houter] at hn
            cases hn
          · intro hall
            exfalso
            have hq := hall x hxlt hxge
            rw [hcnt x] at hq
            omega
          · intro r hrr
            rw [houter] at hrr
            obtain rfl := Option.some.inj hrr
            refine ⟨hxge, hxlt, ?_, ?_⟩
            · rw [hcnt]
              exact hxpos
            · intro y hylt hyge hypos
              rw [hcnt y] at hypos
              exact hxmin y hylt hyge hypos
    · cases hF : FindPrev t.nodes t.xor_mask value w (some 0) 0 true with
      | none =>
          have houter : Prev w t value = none := by rw [hpvdef, hF]
          refine ⟨⟨?_, fun _ => houter⟩, ?_⟩
          · intro _ x hx hge
            rw [hcnt x]
            exact FPn.mp hF x hx hge
          · intro r hrr
            rw [houter] at hrr
            cases hrr
      | some r0 =>
          obtain ⟨x, hxlt, hxle, hxpos, hxeq, hxmax⟩ := FPs r0 hF
          rw [Nat.zero_or] at hxeq
          obtain rfl : x = r0 := hxeq.symm
          have houter : Prev w t value = some x := by
            rw [hpvdef, hF]
            show some (x &&& BitMask w) = some x
            rw [mask_eq_mod, mod_self_lt hxlt]
          refine ⟨⟨?_, ?_⟩, ?_⟩
          · intro hn
            rw [houter] at hn
            cases hn
          · intro hall
            exfalso
            have hq := hall x hxlt hxle
            rw [hcnt x] at hq
            omega
          · intro r hrr
            rw [houter] at hrr
            obtain rfl := Option.some.inj hrr
            refine ⟨hxle, hxlt, ?_, ?_⟩
            · rw [hcnt]
              exact hxpos
            · intro y hylt hyle hypos
              rw [hcnt y] at hypos
              exact hxmax y hylt hyle hypos

/-- C5 witness: with contents {1, 4, 4} and value 3, LowerBound finds 4
and Prev finds 1, with the full characterisation instantiated. -/
theorem C5_witness :
    Reachable 3 (Insert 3 (Insert 3 emptyTrie 4 2) 1 1) ∧ (3:Nat) < 2 ^ 3 ∧
    (((LowerBound 3 (Insert 3 (Insert 3 emptyTrie 4 2) 1 1) 3 = none ↔
        ∀ x, x < 2 ^ 3 → 3 ≤ x → Count 3 (Insert 3 (Insert 3 emptyTrie 4 2) 1 1) x ≤ 0) ∧
      ∀ r, LowerBound 3 (Insert 3 (Insert 3 emptyTrie 4 2) 1 1) 3 = some r →
        3 ≤ r ∧ r < 2 ^ 3 ∧ 0 < Count 3 (Insert 3 (Insert 3 emptyTrie 4 2) 1 1) r ∧
          ∀ y, y < 2 ^ 3 → 3 ≤ y → 0 < Count 3 (Insert 3 (Insert 3 emptyTrie 4 2) 1 1) y → r ≤ y) ∧
     ((Prev 3 (Insert 3 (Insert 3 emptyTrie 4 2) 1 1) 3 = none ↔
        ∀ x, x < 2 ^ 3 → x ≤ 3 → Count 3 (Insert 3 (Insert 3 emptyTrie 4 2) 1 1) x ≤ 0) ∧
      ∀ r, Prev 3 (Insert 3 (Insert 3 emptyTrie 4 2) 1 1) 3 = some r →
        r ≤ 3 ∧ r < 2 ^ 3 ∧ 0 < Count 3 (Insert 3 (Insert 3 emptyTrie 4 2) 1 1) r ∧
          ∀ y, y < 2 ^ 3 → y ≤ 3 → 0 < Count 3 (Insert 3 (Insert 3 emptyTrie 4 2) 1 1) y → y ≤ r)) := by
  have hR : Reachable 3 (Insert 3 (Insert 3 emptyTrie 4 2) 1 1) :=
    Reachable.insert (Reachable.insert Reachable.empty (by decide) (by decide))
      (by decide) (by decide)
  exact ⟨hR, by decide, C5_bound_search hR (by decide)⟩

end BinaryTrie
